import Mathlib

/-!
Verification of the CLI11 configuration interchange engine
(`include/CLI/Config.hpp`, `include/CLI/ConfigFwd.hpp`).

Strings are modelled as `List Char` (`Str`), so that every operation of the
C++ source (character scans, trims, splits) becomes a structurally
recursive list function that the kernel can evaluate.
-/

set_option maxRecDepth 10000

/-- Strings of the C++ source, modelled as lists of characters. -/
abbrev Str := List Char

/-- Coerce a Lean string literal to the `Str` model. -/
def str (s : String) : Str := s.toList

/-- The single-quote character, written via its code point. -/
def squote : Char := Char.ofNat 39

/-- The backslash character, written via its code point. -/
def bslash : Char := Char.ofNat 92

/-- Characters accepted by `std::isspace` in the default locale
(space, tab, newline, vertical tab, form feed, carriage return). -/
def isSpaceChar (c : Char) : Bool :=
  c = ' ' || c = '\t' || c = '\n' || c = Char.ofNat 11 || c = Char.ofNat 12 || c = '\r'

/-- Modelled from the spec: `detail::trim` of `StringTools.hpp` (not under
`src/`): remove leading and trailing whitespace. -/
def trimStr (s : Str) : Str :=
  ((s.dropWhile isSpaceChar).reverse.dropWhile isSpaceChar).reverse

/-- Modelled from the spec: `detail::to_lower` of `StringTools.hpp` (not under
`src/`): ASCII lowercase of every character. -/
def toLowerStr (s : Str) : Str := s.map Char.toLower

/-- Hexadecimal digit test, as written in `convert_arg_for_ini`
(`Config.hpp` lines 53-55). -/
def isHexD (c : Char) : Bool :=
  c.isDigit || (decide ('a' ≤ c) && decide (c ≤ 'f')) || (decide ('A' ≤ c) && decide (c ≤ 'F'))

/-- Drop one optional leading sign character. -/
def dropSign (s : Str) : Str :=
  match s with
  | [] => []
  | c :: r => if c = '+' || c = '-' then r else c :: r

/-- At least one decimal digit consuming the whole input. -/
def allDigits1 (s : Str) : Bool := !s.isEmpty && s.all Char.isDigit

/-- Decimal exponent part of the `strtod` grammar: empty, or `e`/`E` followed
by an optional sign and at least one digit. -/
def expTail (s : Str) : Bool :=
  match s with
  | [] => true
  | c :: r => (c = 'e' || c = 'E') && allDigits1 (dropSign r)

/-- Decimal mantissa with optional fraction and exponent, consuming the whole
input (`strtod` grammar). -/
def decTail (s : Str) : Bool :=
  let ds := s.takeWhile Char.isDigit
  let r := s.dropWhile Char.isDigit
  if r.head? = some '.' then
    let fs := (r.tail).takeWhile Char.isDigit
    (!ds.isEmpty || !fs.isEmpty) && expTail ((r.tail).dropWhile Char.isDigit)
  else
    !ds.isEmpty && expTail r

/-- Binary exponent part of the hexadecimal `strtod` grammar. -/
def pExpTail (s : Str) : Bool :=
  match s with
  | [] => true
  | c :: r => (c = 'p' || c = 'P') && allDigits1 (dropSign r)

/-- Hexadecimal floating literal of the `strtod` grammar, consuming the whole
input. -/
def hexTail (s : Str) : Bool :=
  match s with
  | a :: c :: r =>
      a = '0' && (c = 'x' || c = 'X') &&
      (let hs := r.takeWhile isHexD
       let r2 := r.dropWhile isHexD
       if r2.head? = some '.' then
         let fs := (r2.tail).takeWhile isHexD
         (!hs.isEmpty || !fs.isEmpty) && pExpTail ((r2.tail).dropWhile isHexD)
       else
         !hs.isEmpty && pExpTail r2)
  | _ => false

/-- Infinity and NaN words of the `strtod` grammar (case insensitive; the rare
`nan(char-sequence)` spelling is not modelled). -/
def infNanTail (s : Str) : Bool :=
  let l := toLowerStr s
  l = str "inf" || l = str "infinity" || l = str "nan"

/-- Modelled from the spec: `detail::lexical_cast<double>` of `TypeTools.hpp`
(not under `src/`): whether `std::stod` consumes the whole token, i.e. the
token, after optional leading whitespace and an optional sign, is a decimal
floating literal, a hexadecimal floating literal, or an infinity/NaN word. -/
def parsesDouble (arg : Str) : Bool :=
  let s := arg.dropWhile isSpaceChar
  decTail (dropSign s) || hexTail (dropSign s) || infNanTail (dropSign s)

/-- The hex/octal/binary numeric-literal passthrough of `convert_arg_for_ini`
(`Config.hpp` lines 51-67). -/
def hexOctBin (arg : Str) : Bool :=
  match arg with
  | a :: c :: rest =>
      a = '0' &&
      (if c = 'x' then rest.all isHexD
       else if c = 'o' then rest.all (fun x => decide ('0' ≤ x) && decide (x ≤ '7'))
       else if c = 'b' then rest.all (fun x => x = '0' || x = '1')
       else false)
  | _ => false

/-- `detail::convert_arg_for_ini` (`Config.hpp` lines 31-73): classify a token
and quote it for INI-style output. -/
def convert_arg_for_ini (arg : Str) (stringQuote characterQuote : Char) : Str :=
  if arg.isEmpty then [stringQuote, stringQuote]
  else if arg == str "true" || arg == str "false" || arg == str "nan" || arg == str "inf" then arg
  else if !(str "0x").isPrefixOf arg && !(str "0X").isPrefixOf arg && parsesDouble arg then arg
  else if arg.length = 1 then characterQuote :: (arg ++ [characterQuote])
  else if hexOctBin arg then arg
  else if !arg.contains stringQuote then stringQuote :: (arg ++ [stringQuote])
  else characterQuote :: (arg ++ [characterQuote])


/-- Non-whitespace characters that can occur in a token accepted by
`parsesDouble`: digits, hex digits, signs, point, and the letters of the
grammar words, case-folded. -/
def bodyChar (c : Char) : Bool :=
  c.isDigit || isHexD c || (str "+-.xepinftya").contains c.toLower

/-- Characters that can occur anywhere in a token accepted by
`parsesDouble`: leading whitespace or a `bodyChar`. -/
def doubleChar (c : Char) : Bool :=
  isSpaceChar c || bodyChar c

theorem bodyChar_of_toLower_mem {c : Char}
    (h : (str "+-.xepinftya").contains c.toLower = true) : bodyChar c = true := by
  unfold bodyChar
  rw [h]
  simp

theorem bodyChar_of_digit {c : Char} (h : c.isDigit = true) : bodyChar c = true := by
  unfold bodyChar
  rw [h]
  simp

theorem bodyChar_of_hexD {c : Char} (h : isHexD c = true) : bodyChar c = true := by
  unfold bodyChar
  rw [h]
  simp

theorem bodyChar_of_takeWhile_digits (s : Str) :
    ∀ c ∈ s.takeWhile Char.isDigit, bodyChar c = true := fun _ hc =>
  bodyChar_of_digit (List.mem_takeWhile_imp hc)

theorem bodyChar_of_takeWhile_hex (s : Str) :
    ∀ c ∈ s.takeWhile isHexD, bodyChar c = true := fun _ hc =>
  bodyChar_of_hexD (List.mem_takeWhile_imp hc)

theorem bodyChar_of_allDigits1 {s : Str} (h : allDigits1 s = true) :
    ∀ c ∈ s, bodyChar c = true := fun c hc =>
  bodyChar_of_digit (List.all_eq_true.mp (Bool.and_eq_true_iff.mp h).2 c hc)

theorem bodyChar_of_sign_part {s : Str} {c : Char}
    (hc : c ∈ s) (hd : c ∉ dropSign s) : bodyChar c = true := by
  cases s with
  | nil => cases hc
  | cons a r =>
    simp only [dropSign] at hd
    by_cases ha : (a = '+' || a = '-') = true
    · rw [if_pos ha] at hd
      rcases List.mem_cons.mp hc with rfl | hmem
      · rcases Bool.or_eq_true_iff.mp ha with h1 | h1 <;>
          · rw [of_decide_eq_true h1]
            decide
      · exact absurd hmem hd
    · rw [if_neg ha] at hd
      exact absurd hc hd

theorem mem_dropSign {s : Str} {c : Char} (hc : c ∈ dropSign s) : c ∈ s := by
  cases s with
  | nil => exact hc
  | cons a r =>
    simp only [dropSign] at hc
    by_cases ha : (a = '+' || a = '-') = true
    · rw [if_pos ha] at hc
      exact List.mem_cons_of_mem a hc
    · rwa [if_neg ha] at hc

theorem bodyChar_of_sign_digits {s : Str} (h : allDigits1 (dropSign s) = true) :
    ∀ c ∈ s, bodyChar c = true := by
  intro c hc
  by_cases hmem : c ∈ dropSign s
  · exact bodyChar_of_allDigits1 h c hmem
  · exact bodyChar_of_sign_part hc hmem

theorem bodyChar_of_expTail {s : Str} (h : expTail s = true) :
    ∀ c ∈ s, bodyChar c = true := by
  intro c hc
  cases s with
  | nil => cases hc
  | cons a r =>
    unfold expTail at h
    have h1 := (Bool.and_eq_true_iff.mp h).1
    have h2 := (Bool.and_eq_true_iff.mp h).2
    rcases List.mem_cons.mp hc with rfl | hc
    · rcases Bool.or_eq_true_iff.mp h1 with h3 | h3 <;>
        · rw [of_decide_eq_true h3]
          decide
    · exact bodyChar_of_sign_digits h2 c hc

theorem bodyChar_of_pExpTail {s : Str} (h : pExpTail s = true) :
    ∀ c ∈ s, bodyChar c = true := by
  intro c hc
  cases s with
  | nil => cases hc
  | cons a r =>
    unfold pExpTail at h
    have h1 := (Bool.and_eq_true_iff.mp h).1
    have h2 := (Bool.and_eq_true_iff.mp h).2
    rcases List.mem_cons.mp hc with rfl | hc
    · rcases Bool.or_eq_true_iff.mp h1 with h3 | h3 <;>
        · rw [of_decide_eq_true h3]
          decide
    · exact bodyChar_of_sign_digits h2 c hc

theorem bodyChar_of_decTail {s : Str} (h : decTail s = true) :
    ∀ c ∈ s, bodyChar c = true := by
  intro c hc
  unfold decTail at h
  rw [← List.takeWhile_append_dropWhile (p := Char.isDigit) (l := s)] at hc
  rcases List.mem_append.mp hc with hc1 | hc2
  · exact bodyChar_of_takeWhile_digits s c hc1
  · by_cases hdot : (s.dropWhile Char.isDigit).head? = some '.'
    · rw [if_pos hdot] at h
      have h2 := (Bool.and_eq_true_iff.mp h).2
      cases hr : s.dropWhile Char.isDigit with
      | nil => rw [hr] at hc2; cases hc2
      | cons b t =>
        rw [hr] at hdot hc2
        have hb : b = '.' := by simpa using hdot
        rcases List.mem_cons.mp hc2 with rfl | hc2
        · rw [hb]; decide
        · have ht : t = t.takeWhile Char.isDigit ++ t.dropWhile Char.isDigit :=
            (List.takeWhile_append_dropWhile (p := Char.isDigit) (l := t)).symm
          rw [ht] at hc2
          rw [hr] at h2
          rcases List.mem_append.mp hc2 with hc3 | hc3
          · exact bodyChar_of_takeWhile_digits t c hc3
          · exact bodyChar_of_expTail (by simpa using h2) c hc3
    · rw [if_neg hdot] at h
      exact bodyChar_of_expTail (Bool.and_eq_true_iff.mp h).2 c hc2

theorem bodyChar_of_hexTail {s : Str} (h : hexTail s = true) :
    ∀ c ∈ s, bodyChar c = true := by
  intro c hc
  cases s with
  | nil => cases hc
  | cons a s1 =>
    cases s1 with
    | nil => exact absurd h (by simp [hexTail])
    | cons b r =>
      unfold hexTail at h
      have ha := (Bool.and_eq_true_iff.mp (Bool.and_eq_true_iff.mp h).1).1
      have hb := (Bool.and_eq_true_iff.mp (Bool.and_eq_true_iff.mp h).1).2
      have hrest := (Bool.and_eq_true_iff.mp h).2
      rcases List.mem_cons.mp hc with rfl | hc
      · rw [of_decide_eq_true ha]
        decide
      rcases List.mem_cons.mp hc with rfl | hc
      · rcases Bool.or_eq_true_iff.mp hb with h3 | h3 <;>
          · rw [of_decide_eq_true h3]
            decide
      · rw [← List.takeWhile_append_dropWhile (p := isHexD) (l := r)] at hc
        rcases List.mem_append.mp hc with hc1 | hc2
        · exact bodyChar_of_takeWhile_hex r c hc1
        · by_cases hdot : (r.dropWhile isHexD).head? = some '.'
          · rw [if_pos hdot] at hrest
            have h2 := (Bool.and_eq_true_iff.mp hrest).2
            cases hr : r.dropWhile isHexD with
            | nil => rw [hr] at hc2; cases hc2
            | cons d t =>
              rw [hr] at hdot hc2
              have hd : d = '.' := by simpa using hdot
              rcases List.mem_cons.mp hc2 with rfl | hc2
              · rw [hd]; decide
              · have ht : t = t.takeWhile isHexD ++ t.dropWhile isHexD :=
                  (List.takeWhile_append_dropWhile (p := isHexD) (l := t)).symm
                rw [ht] at hc2
                rw [hr] at h2
                rcases List.mem_append.mp hc2 with hc3 | hc3
                · exact bodyChar_of_takeWhile_hex t c hc3
                · exact bodyChar_of_pExpTail (by simpa using h2) c hc3
          · rw [if_neg hdot] at hrest
            exact bodyChar_of_pExpTail (Bool.and_eq_true_iff.mp hrest).2 c hc2

theorem bodyChar_of_infNanTail {s : Str} (h : infNanTail s = true) :
    ∀ c ∈ s, bodyChar c = true := by
  intro c hc
  unfold infNanTail at h
  have hl : c.toLower ∈ toLowerStr s := List.mem_map_of_mem Char.toLower hc
  apply bodyChar_of_toLower_mem
  rcases Bool.or_eq_true_iff.mp h with h1 | h2
  · rcases Bool.or_eq_true_iff.mp h1 with h3 | h4
    · rw [of_decide_eq_true h3] at hl
      have hl2 : c.toLower = 'i' ∨ c.toLower = 'n' ∨ c.toLower = 'f' := by
        simpa [str] using hl
      rcases hl2 with h5 | h5 | h5 <;>
        · rw [h5]
          decide
    · rw [of_decide_eq_true h4] at hl
      have hl2 : c.toLower = 'i' ∨ c.toLower = 'n' ∨ c.toLower = 'f' ∨ c.toLower = 't' ∨
          c.toLower = 'y' := by
        have := List.mem_cons.mp hl
        simp [str] at hl
        tauto
      rcases hl2 with h5 | h5 | h5 | h5 | h5 <;>
        · rw [h5]
          decide
  · rw [of_decide_eq_true h2] at hl
    have hl2 : c.toLower = 'n' ∨ c.toLower = 'a' := by
      simp [str] at hl
      tauto
    rcases hl2 with h5 | h5 <;>
      · rw [h5]
        decide

/-- Every character of a token accepted by `parsesDouble` is a `doubleChar`,
and the non-leading-whitespace part consists of `bodyChar`s. -/
theorem doubleChar_of_parsesDouble {arg : Str} (h : parsesDouble arg = true) :
    ∀ c ∈ arg, doubleChar c = true := by
  intro c hc
  unfold parsesDouble at h
  rw [← List.takeWhile_append_dropWhile (p := isSpaceChar) (l := arg)] at hc
  rcases List.mem_append.mp hc with hc1 | hc2
  · have := List.mem_takeWhile_imp hc1
    simp [doubleChar, this]
  · have hbody : bodyChar c = true := by
      by_cases hmem : c ∈ dropSign (arg.dropWhile isSpaceChar)
      · rcases Bool.or_eq_true_iff.mp h with h1 | h2
        · rcases Bool.or_eq_true_iff.mp h1 with h3 | h4
          · exact bodyChar_of_decTail h3 c hmem
          · exact bodyChar_of_hexTail h4 c hmem
        · exact bodyChar_of_infNanTail h2 c hmem
      · exact bodyChar_of_sign_part hc2 hmem
    simp [doubleChar, hbody]

/-- A token containing the double-quote character never parses as a double. -/
theorem parsesDouble_eq_false_of_quote {arg : Str} (h : '"' ∈ arg) :
    parsesDouble arg = false := by
  cases hp : parsesDouble arg
  · rfl
  · have := doubleChar_of_parsesDouble hp '"' h
    exact absurd this (by decide)

/-- A token containing the double-quote character never passes the
hex/octal/binary passthrough. -/
theorem hexOctBin_eq_false_of_quote {arg : Str} (h : '"' ∈ arg) :
    hexOctBin arg = false := by
  cases hx : hexOctBin arg
  · rfl
  · exfalso
    cases arg with
    | nil => cases h
    | cons a s1 =>
      cases s1 with
      | nil => exact absurd hx (by simp [hexOctBin])
      | cons b rest =>
        unfold hexOctBin at hx
        have ha := of_decide_eq_true (Bool.and_eq_true_iff.mp hx).1
        have hb := (Bool.and_eq_true_iff.mp hx).2
        rcases List.mem_cons.mp h with ha2 | h2
        · rw [ha] at ha2
          exact absurd ha2 (by decide)
        rcases List.mem_cons.mp h2 with hb2 | h3
        · rw [← hb2] at hb
          simp at hb
        · by_cases hbx : b = 'x'
          · rw [if_pos hbx] at hb
            have := List.all_eq_true.mp hb _ h3
            exact absurd this (by decide)
          · rw [if_neg hbx] at hb
            by_cases hbo : b = 'o'
            · rw [if_pos hbo] at hb
              have := List.all_eq_true.mp hb _ h3
              exact absurd this (by decide)
            · rw [if_neg hbo] at hb
              by_cases hbb : b = 'b'
              · rw [if_pos hbb] at hb
                have := List.all_eq_true.mp hb _ h3
                exact absurd this (by decide)
              · rw [if_neg hbb] at hb
                exact absurd hb (by decide)

/-- C2: `convert_arg_for_ini` applies the classification rules in order with
first match winning: the empty token emits as two string-quote characters;
`true` emits unquoted; `3.14` emits unquoted; `0x1F` emits unquoted; `x`
emits character-quoted; `hello world` emits string-quoted; and every token
containing the string-quote character emits character-quoted instead of
string-quoted. -/
theorem C2_quote_classification :
    convert_arg_for_ini (str "") '"' squote = ['"', '"'] ∧
    convert_arg_for_ini (str "true") '"' squote = str "true" ∧
    convert_arg_for_ini (str "3.14") '"' squote = str "3.14" ∧
    convert_arg_for_ini (str "0x1F") '"' squote = str "0x1F" ∧
    convert_arg_for_ini (str "x") '"' squote = squote :: (str "x" ++ [squote]) ∧
    convert_arg_for_ini (str "hello world") '"' squote = '"' :: (str "hello world" ++ ['"']) ∧
    ∀ arg : Str, '"' ∈ arg →
      convert_arg_for_ini arg '"' squote = squote :: (arg ++ [squote]) := by
  refine ⟨by decide, by decide, by decide, by decide, by decide, by decide, ?_⟩
  intro arg h
  have h0 : arg.isEmpty = false := by
    cases arg
    · cases h
    · rfl
  have hkw : (arg == str "true" || arg == str "false" || arg == str "nan" ||
      arg == str "inf") = false := by
    rw [Bool.or_eq_false_iff, Bool.or_eq_false_iff, Bool.or_eq_false_iff]
    refine ⟨⟨⟨?_, ?_⟩, ?_⟩, ?_⟩ <;>
      · rw [beq_eq_false_iff_ne]
        intro he
        rw [he] at h
        revert h
        decide
  have hpd : parsesDouble arg = false := parsesDouble_eq_false_of_quote h
  have hhob : hexOctBin arg = false := hexOctBin_eq_false_of_quote h
  unfold convert_arg_for_ini
  rw [h0, hkw, hpd, hhob]
  simp only [Bool.false_eq_true, if_false, Bool.and_false, Bool.false_and]
  by_cases hlen : arg.length = 1
  · rw [if_pos hlen]
  · rw [if_neg hlen]
    have hcont : arg.contains '"' = true := by
      rw [List.contains_eq_any_beq]
      exact List.any_eq_true.mpr ⟨'"', h, by decide⟩
    rw [hcont]
    simp

/-- Witness for the universal part of `C2_quote_classification` at the
concrete token `ab"c`. -/
theorem C2_quote_classification_witness :
    convert_arg_for_ini (str "ab\"c") '"' squote = squote :: (str "ab\"c" ++ [squote]) :=
  C2_quote_classification.2.2.2.2.2.2 (str "ab\"c") (by decide)

/-- Modelled from the spec: `detail::join` of `StringTools.hpp` (not under
`src/`): join the elements with the delimiter between them. -/
def joinStrs : List Str → Str → Str
  | [], _ => []
  | [x], _ => x
  | x :: y :: t, sep => x ++ sep ++ joinStrs (y :: t) sep

/-- `ConfigItem` (`ConfigFwd.hpp` lines 28-44): one configuration record. -/
structure ConfigItem where
  parents : List Str := []
  name : Str := []
  inputs : List Str := []
deriving DecidableEq, Inhabited

/-- `ConfigItem::fullname` (`ConfigFwd.hpp` lines 39-43): parents and name
joined by a dot. -/
def ConfigItem.fullname (item : ConfigItem) : Str :=
  joinStrs (item.parents ++ [item.name]) (str ".")

/-- Modelled from the spec: `ConversionError::TooManyInputsFlag` of
`Error.hpp` (not under `src/`): the conversion error raised by
`Config::to_flag`, carrying the item's fullname. -/
inductive CLIError where
  | tooManyInputsFlag (fullname : Str)
deriving DecidableEq

/-- `Config::to_flag` (`ConfigFwd.hpp` lines 59-64): return the single input,
otherwise throw `TooManyInputsFlag` with the item's fullname. -/
def to_flag (item : ConfigItem) : Except CLIError Str :=
  match item.inputs with
  | [x] => .ok x
  | _ => .error (.tooManyInputsFlag item.fullname)

/-- C10: `Config::to_flag` returns the single input token when the item has
exactly one input, and throws `TooManyInputsFlag` naming the item's fullname
for every other input count, including zero inputs. -/
theorem C10_to_flag_single_or_error (item : ConfigItem) :
    (∀ x, item.inputs = [x] → to_flag item = .ok x) ∧
    (item.inputs.length ≠ 1 → to_flag item = .error (.tooManyInputsFlag item.fullname)) := by
  constructor
  · intro x hx
    simp [to_flag, hx]
  · intro hlen
    unfold to_flag
    match hm : item.inputs with
    | [] => rfl
    | [x] => rw [hm] at hlen; simp at hlen
    | x :: y :: rest => rfl

/-- Witness for `C10_to_flag_single_or_error`: a one-input item returns its
token, and a zero-input item raises `TooManyInputsFlag` with the fullname. -/
theorem C10_to_flag_witness :
    to_flag ⟨[], str "f", [str "a"]⟩ = .ok (str "a") ∧
    to_flag ⟨[str "p"], str "g", []⟩ = .error (.tooManyInputsFlag (str "p.g")) := by
  constructor
  · exact (C10_to_flag_single_or_error ⟨[], str "f", [str "a"]⟩).1 (str "a") rfl
  · have h := (C10_to_flag_single_or_error ⟨[str "p"], str "g", []⟩).2 (by decide)
    rw [h]
    rw [show ConfigItem.fullname ⟨[str "p"], str "g", []⟩ = str "p.g" from by decide]

/-- Modelled from the spec: `detail::split` of `StringTools.hpp` (not under
`src/`): split on a delimiter with `std::getline` semantics — the empty
string yields one empty piece, and a trailing delimiter does not produce a
trailing empty piece. -/
def cppSplit (s : Str) (delim : Char) : List Str :=
  if s.isEmpty then [[]]
  else
    let ps := List.splitOn delim s
    if s.getLast? = some delim then ps.dropLast else ps

/-- Modelled from the spec: the external TOML library's generic value tree
(toml11, out of scope per spec section 1). Floating and date/time values
carry the text the library and `std::to_string` render for them, since the
claims do not depend on numeric formatting. `uninit` is a default-constructed
(uninitialized) value. -/
inductive TomlVal where
  | boolean (b : Bool)
  | strv (s : Str)
  | integer (n : Int)
  | floating (rendered : Str)
  | datetime (rendered : Str)
  | array (xs : List TomlVal)
  | table (entries : List (Str × TomlVal))
  | uninit
deriving Inhabited

/-- `std::to_string` applied to a C++ `bool` (integral promotion). -/
def cppBoolStr (b : Bool) : Str := if b then str "1" else str "0"

/-- `std::to_string` applied to a C++ integer. -/
def cppIntStr (n : Int) : Str := (toString n).toList

/-- `ConfigTOML::parse_toml_array` (`Config.hpp` lines 680-737): flatten a
TOML array to a token list; a table element is a hard error, nested arrays
flatten recursively. -/
def parse_toml_array (arr : List TomlVal) (key : Str) : Except Str (List Str) :=
  match arr with
  | [] => .ok []
  | v :: rest =>
    match v with
    | .table _ =>
        .error (str "TOML arrays of tables are not supported for conversion to ConfigItem")
    | .boolean b => do
        let tl ← parse_toml_array rest key
        pure (cppBoolStr b :: tl)
    | .strv s => do
        let tl ← parse_toml_array rest key
        pure (s :: tl)
    | .integer n => do
        let tl ← parse_toml_array rest key
        pure (cppIntStr n :: tl)
    | .floating r => do
        let tl ← parse_toml_array rest key
        pure (r :: tl)
    | .datetime r => do
        let tl ← parse_toml_array rest key
        pure (r :: tl)
    | .array xs => do
        let hd ← parse_toml_array xs key
        let tl ← parse_toml_array rest key
        pure (hd ++ tl)
    | .uninit =>
        .error (str "Could not convert an element of the array \"" ++ key ++
          str "\" from any known TOML type.")
termination_by sizeOf arr
decreasing_by all_goals simp_wf <;> omega

/-- The entry walk of `ConfigTOML::_from_config` (`Config.hpp` lines
602-678): each scalar or array entry becomes one `ConfigItem` under the
accumulated parent chain, a sub-table recurses with its key appended, and an
uninitialized entry is skipped. -/
def fromTomlEntries (entries : List (Str × TomlVal)) (pfx : List Str) :
    Except Str (List ConfigItem) :=
  match entries with
  | [] => .ok []
  | (key, v) :: rest =>
    match v with
    | .uninit => fromTomlEntries rest pfx
    | .table es => do
        let sub ← fromTomlEntries es (pfx ++ [key])
        let tl ← fromTomlEntries rest pfx
        pure (sub ++ tl)
    | .boolean b => do
        let tl ← fromTomlEntries rest pfx
        pure (⟨pfx, key, [cppBoolStr b]⟩ :: tl)
    | .strv s => do
        let tl ← fromTomlEntries rest pfx
        pure (⟨pfx, key, [s]⟩ :: tl)
    | .integer n => do
        let tl ← fromTomlEntries rest pfx
        pure (⟨pfx, key, [cppIntStr n]⟩ :: tl)
    | .floating r => do
        let tl ← fromTomlEntries rest pfx
        pure (⟨pfx, key, [r]⟩ :: tl)
    | .datetime r => do
        let tl ← fromTomlEntries rest pfx
        pure (⟨pfx, key, [r]⟩ :: tl)
    | .array xs => do
        let inputs ← parse_toml_array xs key
        let tl ← fromTomlEntries rest pfx
        pure (⟨pfx, key, inputs⟩ :: tl)
termination_by sizeOf entries
decreasing_by all_goals simp_wf <;> omega

/-- `ConfigTOML::_from_config` (`Config.hpp` lines 602-678): the parsed TOML
value tree is read as a table (`as_table` throws a library type error on
anything else) and its entries are walked. -/
def toml_from_config (j : TomlVal) : Except Str (List ConfigItem) :=
  match j with
  | .table es => fromTomlEntries es []
  | _ => .error (str "toml11 type error: as_table on a non-table value")

/-- Whether a TOML array (transitively through nested arrays) has a table
element — the situation `parse_toml_array` rejects. -/
def arrayHasTable (xs : List TomlVal) : Bool :=
  match xs with
  | [] => false
  | v :: rest =>
    (match v with
     | .table _ => true
     | .array ys => arrayHasTable ys
     | _ => false) || arrayHasTable rest
termination_by sizeOf xs
decreasing_by all_goals simp_wf <;> omega

mutual
/-- Whether a TOML value tree contains, anywhere, an array having a table
element. -/
def treeHasBadArray (v : TomlVal) : Bool :=
  match v with
  | .array xs => arrayHasTable xs
  | .table es => entriesHaveBadArray es
  | _ => false
termination_by sizeOf v

/-- `treeHasBadArray` over the entries of a table. -/
def entriesHaveBadArray (es : List (Str × TomlVal)) : Bool :=
  match es with
  | [] => false
  | (_, v) :: rest => treeHasBadArray v || entriesHaveBadArray rest
termination_by sizeOf es
end

theorem parse_toml_array_error_of_table :
    ∀ xs key, arrayHasTable xs = true → ∃ msg, parse_toml_array xs key = .error msg := by
  intro xs key h
  induction xs, key using parse_toml_array.induct with
  | case1 key => simp [arrayHasTable] at h
  | case2 key rest entries =>
    exact ⟨str "TOML arrays of tables are not supported for conversion to ConfigItem",
      by rw [parse_toml_array]⟩
  | case3 key rest b ih =>
    simp only [arrayHasTable, Bool.false_or] at h
    obtain ⟨msg, hmsg⟩ := ih h
    exact ⟨msg, by rw [parse_toml_array, hmsg]; rfl⟩
  | case4 key rest s ih =>
    simp only [arrayHasTable, Bool.false_or] at h
    obtain ⟨msg, hmsg⟩ := ih h
    exact ⟨msg, by rw [parse_toml_array, hmsg]; rfl⟩
  | case5 key rest n ih =>
    simp only [arrayHasTable, Bool.false_or] at h
    obtain ⟨msg, hmsg⟩ := ih h
    exact ⟨msg, by rw [parse_toml_array, hmsg]; rfl⟩
  | case6 key rest r ih =>
    simp only [arrayHasTable, Bool.false_or] at h
    obtain ⟨msg, hmsg⟩ := ih h
    exact ⟨msg, by rw [parse_toml_array, hmsg]; rfl⟩
  | case7 key rest r ih =>
    simp only [arrayHasTable, Bool.false_or] at h
    obtain ⟨msg, hmsg⟩ := ih h
    exact ⟨msg, by rw [parse_toml_array, hmsg]; rfl⟩
  | case8 key rest xs ih1 ih2 =>
    simp only [arrayHasTable] at h
    rcases Bool.or_eq_true_iff.mp h with h1 | h2
    · obtain ⟨msg, hmsg⟩ := ih1 h1
      exact ⟨msg, by rw [parse_toml_array, hmsg]; rfl⟩
    · cases hxs : parse_toml_array xs key with
      | error e => exact ⟨e, by rw [parse_toml_array, hxs]; rfl⟩
      | ok l =>
        obtain ⟨msg, hmsg⟩ := ih2 h2
        exact ⟨msg, by rw [parse_toml_array, hxs, hmsg]; rfl⟩
  | case9 key rest =>
    exact ⟨str "Could not convert an element of the array \"" ++ key ++
      str "\" from any known TOML type.", by rw [parse_toml_array]⟩

theorem fromTomlEntries_error_of_bad :
    ∀ es pfx, entriesHaveBadArray es = true → ∃ msg, fromTomlEntries es pfx = .error msg := by
  intro es pfx h
  induction es, pfx using fromTomlEntries.induct with
  | case1 pfx => simp [entriesHaveBadArray] at h
  | case2 pfx key rest ih =>
    simp only [entriesHaveBadArray, treeHasBadArray, Bool.false_or] at h
    obtain ⟨msg, hmsg⟩ := ih h
    exact ⟨msg, by rw [fromTomlEntries, hmsg]⟩
  | case3 pfx key rest es2 ih1 ih2 =>
    simp only [entriesHaveBadArray, treeHasBadArray] at h
    rcases Bool.or_eq_true_iff.mp h with h1 | h2
    · obtain ⟨msg, hmsg⟩ := ih1 h1
      exact ⟨msg, by rw [fromTomlEntries, hmsg]; rfl⟩
    · cases hsub : fromTomlEntries es2 (pfx ++ [key]) with
      | error e => exact ⟨e, by rw [fromTomlEntries, hsub]; rfl⟩
      | ok l =>
        obtain ⟨msg, hmsg⟩ := ih2 h2
        exact ⟨msg, by rw [fromTomlEntries, hsub, hmsg]; rfl⟩
  | case4 pfx key rest b ih =>
    simp only [entriesHaveBadArray, treeHasBadArray, Bool.false_or] at h
    obtain ⟨msg, hmsg⟩ := ih h
    exact ⟨msg, by rw [fromTomlEntries, hmsg]; rfl⟩
  | case5 pfx key rest s ih =>
    simp only [entriesHaveBadArray, treeHasBadArray, Bool.false_or] at h
    obtain ⟨msg, hmsg⟩ := ih h
    exact ⟨msg, by rw [fromTomlEntries, hmsg]; rfl⟩
  | case6 pfx key rest n ih =>
    simp only [entriesHaveBadArray, treeHasBadArray, Bool.false_or] at h
    obtain ⟨msg, hmsg⟩ := ih h
    exact ⟨msg, by rw [fromTomlEntries, hmsg]; rfl⟩
  | case7 pfx key rest r ih =>
    simp only [entriesHaveBadArray, treeHasBadArray, Bool.false_or] at h
    obtain ⟨msg, hmsg⟩ := ih h
    exact ⟨msg, by rw [fromTomlEntries, hmsg]; rfl⟩
  | case8 pfx key rest r ih =>
    simp only [entriesHaveBadArray, treeHasBadArray, Bool.false_or] at h
    obtain ⟨msg, hmsg⟩ := ih h
    exact ⟨msg, by rw [fromTomlEntries, hmsg]; rfl⟩
  | case9 pfx key rest xs ih =>
    simp only [entriesHaveBadArray, treeHasBadArray] at h
    rcases Bool.or_eq_true_iff.mp h with h1 | h2
    · obtain ⟨msg, hmsg⟩ := parse_toml_array_error_of_table xs key h1
      exact ⟨msg, by rw [fromTomlEntries, hmsg]; rfl⟩
    · cases harr : parse_toml_array xs key with
      | error e => exact ⟨e, by rw [fromTomlEntries, harr]; rfl⟩
      | ok l =>
        obtain ⟨msg, hmsg⟩ := ih h2
        exact ⟨msg, by rw [fromTomlEntries, harr, hmsg]; rfl⟩

/-- C5 counterexample: for the tree with key `mykey` bound to an array
containing a table, `from_config` fails, but the error message is the fixed
arrays-of-tables text; it does not name the offending key, contradicting the
claim that the message names the key. -/
theorem C5_counterexample_message_lacks_key :
    toml_from_config (.table [(str "mykey", .array [.table []])]) =
      .error (str "TOML arrays of tables are not supported for conversion to ConfigItem") ∧
    ¬ List.IsInfix (str "mykey")
      (str "TOML arrays of tables are not supported for conversion to ConfigItem") := by
  constructor
  · show fromTomlEntries [(str "mykey", .array [.table []])] [] = _
    rw [fromTomlEntries]
    rw [show parse_toml_array [.table []] (str "mykey") =
      .error (str "TOML arrays of tables are not supported for conversion to ConfigItem") from
        by rw [parse_toml_array]]
    rfl
  · decide

/-- C5 amended: for every TOML value tree containing an array with a table
element, `parse_toml_array` fails with a conversion error, `from_config`
fails with a conversion error (the fixed arrays-of-tables text, or the text
for an earlier unconvertible element — not naming the key), and hence no
array of tables is ever converted to a `ConfigItem`. -/
theorem C5_array_of_tables_rejected :
    (∀ xs key, arrayHasTable xs = true → ∃ msg, parse_toml_array xs key = .error msg) ∧
    (∀ j, treeHasBadArray j = true → ∃ msg, toml_from_config j = .error msg) := by
  refine ⟨parse_toml_array_error_of_table, ?_⟩
  intro j hj
  cases j with
  | table es => exact fromTomlEntries_error_of_bad es [] (by simpa [treeHasBadArray] using hj)
  | boolean b => exact ⟨_, rfl⟩
  | strv s => exact ⟨_, rfl⟩
  | integer n => exact ⟨_, rfl⟩
  | floating r => exact ⟨_, rfl⟩
  | datetime r => exact ⟨_, rfl⟩
  | array xs => exact ⟨_, rfl⟩
  | uninit => exact ⟨_, rfl⟩

/-- Witness for `C5_array_of_tables_rejected` at a doubly nested array of
tables. -/
theorem C5_array_of_tables_witness :
    ∃ msg, toml_from_config (.table [(str "k", .array [.array [.table []]])]) = .error msg :=
  C5_array_of_tables_rejected.2 (.table [(str "k", .array [.array [.table []]])])
    (by rw [treeHasBadArray, entriesHaveBadArray, treeHasBadArray, arrayHasTable,
          arrayHasTable, arrayHasTable]
        rfl)

/-- Modelled from the spec (section 6): the per-option data consumed from the
external App/Option collaborator — names, category group, configurability,
arity class, results, default text, delimiter and description. -/
structure COption where
  lnames : List Str := []
  snames : List Str := []
  single_name : Str := []
  group : Str := []
  configurable : Bool := true
  results : List Str := []
  reduced_results : List Str := []
  default_str : Str := []
  expected_min : Nat := 1
  run_callback_for_default : Bool := false
  type_size : Int := 1
  delimiter : Char := Char.ofNat 0
  descr : Str := []

/-- Modelled from the spec (section 6): the per-command data consumed from the
external App collaborator — name, description, group list, options, child
commands, configurability, and whether the command was actually invoked. -/
inductive CApp where
  | mk (name : Str) (descr : Str) (grp : Str) (groups : List Str) (options : List COption)
       (subcommands : List CApp) (configurable : Bool) (invoked : Bool)

/-- The name of a command. -/
def CApp.name : CApp → Str
  | .mk n _ _ _ _ _ _ _ => n

/-- The description of a command. -/
def CApp.descr : CApp → Str
  | .mk _ d _ _ _ _ _ _ => d

/-- The group of a command (`App::get_group`). -/
def CApp.grp : CApp → Str
  | .mk _ _ g _ _ _ _ _ => g

/-- The group list of a command (`App::get_groups`). -/
def CApp.groups : CApp → List Str
  | .mk _ _ _ g _ _ _ _ => g

/-- The options of a command. -/
def CApp.options : CApp → List COption
  | .mk _ _ _ _ o _ _ _ => o

/-- The child commands of a command. -/
def CApp.subcommands : CApp → List CApp
  | .mk _ _ _ _ _ s _ _ => s

/-- Whether the command is marked configurable. -/
def CApp.configurable : CApp → Bool
  | .mk _ _ _ _ _ _ c _ => c

/-- Whether the command was actually invoked (`got_subcommand` on its
parent). -/
def CApp.invoked : CApp → Bool
  | .mk _ _ _ _ _ _ _ i => i

/-- The option name the TOML writer uses: first long name if any, else first
short name (`Config.hpp` line 483). -/
def optName (o : COption) : Str :=
  if !o.lnames.isEmpty then o.lnames.headD [] else o.snames.headD []

/-- Insert-or-assign into a TOML table entry list (`toml_value::operator[]`
followed by assignment). -/
def tomlUpsert (es : List (Str × TomlVal)) (k : Str) (v : TomlVal) : List (Str × TomlVal) :=
  match es with
  | [] => [(k, v)]
  | (k2, v2) :: rest => if k2 = k then (k2, v) :: rest else (k2, v2) :: tomlUpsert rest k v

/-- `j[name] = v` on a possibly uninitialized toml value: an uninitialized or
non-table value becomes a fresh table. -/
def tomlInsert (j : Option TomlVal) (k : Str) (v : TomlVal) : Option TomlVal :=
  match j with
  | some (.table es) => some (.table (tomlUpsert es k v))
  | _ => some (.table [(k, v)])

/-- The recursion core of `detail::_split_result_str` (`Config.hpp` lines
177-207), with explicit fuel: every recursive call is on a strict substring,
so fuel `length + 1` always suffices. -/
def splitResultGo (fuel : Nat) (result : Str) (delim : Char) : List Str :=
  match fuel with
  | 0 => []
  | fuel + 1 =>
    if !result.isEmpty && result.head? = some '[' && result.getLast? = some ']' then
      let interior := (result.dropLast).drop 1
      ((cppSplit interior ',').filter (fun v => !v.isEmpty)).flatMap
        (fun v => splitResultGo fuel v delim)
    else if delim = Char.ofNat 0 then [result]
    else if result.contains delim then (cppSplit result delim).filter (fun v => !v.isEmpty)
    else [result]

/-- `detail::_split_result_str` (`Config.hpp` lines 177-207): split one
result string into tokens, recursing into bracketed vector literals. -/
def _split_result_str (result : Str) (delim : Char) : List Str :=
  splitResultGo (result.length + 1) result delim

/-- The per-option body of the `get_values` lambda of `ConfigTOML::to_config`
(`Config.hpp` lines 477-534): insert the option value into the TOML table
being built, or leave the table unchanged for a missing entry. -/
def processOpt (j : Option TomlVal) (o : COption) (d : Bool) : Option TomlVal :=
  if (!o.lnames.isEmpty || !o.snames.isEmpty) && o.configurable then
    let name := optName o
    if o.type_size ≠ 0 then
      if o.results.length = 1 then tomlInsert j name (.strv (o.results.headD []))
      else if o.results.length > 1 then tomlInsert j name (.array (o.results.map .strv))
      else if d && !o.default_str.isEmpty then
        let dv := _split_result_str o.default_str o.delimiter
        if dv.length = 1 then tomlInsert j name (.strv (dv.headD []))
        else tomlInsert j name (.array (dv.map .strv))
      else if d then tomlInsert j name (.strv [])
      else j
    else
      if o.results.length = 1 then tomlInsert j name (.array (o.results.map .strv))
      else if o.results.length > 1 then tomlInsert j name (.integer o.results.length)
      else if d then tomlInsert j name (.strv o.default_str)
      else tomlInsert j name (.boolean false)
  else j

mutual
/-- The `get_values` lambda of `ConfigTOML::to_config` (`Config.hpp` lines
469-554): build the TOML value tree for a command; `none` is toml11's
uninitialized value (the description comments it attaches are presentation
metadata and are not modelled). -/
def getValues (app : CApp) (d : Bool) : Option TomlVal :=
  match app with
  | .mk _ _ _ _ opts subs _ _ =>
      getValuesSubs subs d (opts.foldl (fun j o => processOpt j o d) none)
termination_by sizeOf app

/-- The subcommand loop of `get_values` (`Config.hpp` lines 536-540): insert
each child tree that is initialized. -/
def getValuesSubs (subs : List CApp) (d : Bool) (j : Option TomlVal) : Option TomlVal :=
  match subs with
  | [] => j
  | sub :: rest =>
      getValuesSubs rest d
        (match getValues sub d with
         | some v => tomlInsert j sub.name v
         | none => j)
termination_by sizeOf subs
end

mutual
/-- Modelled from the spec: the external toml11 serializer (out of scope per
spec section 1); any total rendering serves the claims, which concern only
the uninitialized-value failure path. -/
def renderTomlV (v : TomlVal) : Str :=
  match v with
  | .strv s => '"' :: (s ++ ['"'])
  | .boolean b => if b then str "true" else str "false"
  | .integer n => cppIntStr n
  | .floating r => r
  | .datetime r => r
  | .array xs => '[' :: (renderTomlList xs ++ [']'])
  | .table es => renderTomlTable es
  | .uninit => []
termination_by sizeOf v

/-- Render the elements of a TOML array, comma separated. -/
def renderTomlList (xs : List TomlVal) : Str :=
  match xs with
  | [] => []
  | [x] => renderTomlV x
  | x :: rest => renderTomlV x ++ str ", " ++ renderTomlList rest
termination_by sizeOf xs

/-- Render the entries of a TOML table as key = value lines. -/
def renderTomlTable (es : List (Str × TomlVal)) : Str :=
  match es with
  | [] => []
  | (k, v) :: rest => k ++ str " = " ++ renderTomlV v ++ ['\n'] ++ renderTomlTable rest
termination_by sizeOf es
end

/-- The error text of `ConfigTOML::to_config` when the TOML tree is
uninitialized (`Config.hpp` lines 567-570). -/
def tomlEmptyMsg : Str :=
  str "No configuration present to save to TOML file.\nTry either running with default_also==TRUE\nor with some command line arguments.\nTOML configuration file will be empty."

/-- `ConfigTOML::to_config` (`Config.hpp` lines 455-583): build the TOML tree
via `get_values`; streaming an uninitialized tree throws, caught and rethrown
as a conversion error with guidance. -/
def tomlToConfig (app : CApp) (default_also _write_description : Bool) (_p : Str) :
    Except Str Str :=
  match getValues app default_also with
  | none => .error tomlEmptyMsg
  | some v => .ok (renderTomlV v)

/-- Whether `get_values` inserts an entry for this option: it is named and
configurable, and is a flag, or has results, or defaults are requested. -/
def optInserts (o : COption) (d : Bool) : Bool :=
  (!o.lnames.isEmpty || !o.snames.isEmpty) && o.configurable &&
    (o.type_size == 0 || (decide (1 ≤ o.results.length) || d))

mutual
/-- Nothing-to-serialize predicate for the TOML writer: no option of the
command inserts an entry and, recursively, no subcommand serializes
anything. -/
def nothingToSerialize (app : CApp) (d : Bool) : Bool :=
  match app with
  | .mk _ _ _ _ opts subs _ _ =>
      opts.all (fun o => !optInserts o d) && subsNothingToSerialize subs d
termination_by sizeOf app

/-- `nothingToSerialize` over a subcommand list. -/
def subsNothingToSerialize (subs : List CApp) (d : Bool) : Bool :=
  match subs with
  | [] => true
  | sub :: rest => nothingToSerialize sub d && subsNothingToSerialize rest d
termination_by sizeOf subs
end

theorem tomlInsert_isSome (j : Option TomlVal) (k : Str) (v : TomlVal) :
    ∃ es, tomlInsert j k v = some (.table es) := by
  unfold tomlInsert
  match j with
  | none => exact ⟨_, rfl⟩
  | some (.table es) => exact ⟨_, rfl⟩
  | some (.boolean b) => exact ⟨_, rfl⟩
  | some (.strv s) => exact ⟨_, rfl⟩
  | some (.integer n) => exact ⟨_, rfl⟩
  | some (.floating r) => exact ⟨_, rfl⟩
  | some (.datetime r) => exact ⟨_, rfl⟩
  | some (.array xs) => exact ⟨_, rfl⟩
  | some .uninit => exact ⟨_, rfl⟩

theorem processOpt_of_not_inserts {o : COption} {d : Bool} (h : optInserts o d = false)
    (j : Option TomlVal) : processOpt j o d = j := by
  unfold optInserts at h
  unfold processOpt
  by_cases hc : ((!o.lnames.isEmpty || !o.snames.isEmpty) && o.configurable) = true
  · rw [hc] at h
    simp only [Bool.true_and] at h
    rw [if_pos hc]
    have hts : (o.type_size == 0) = false := by
      cases hx : (o.type_size == 0) <;> simp [hx] at h ⊢
    have hlen : decide (1 ≤ o.results.length) = false := by
      cases hx : decide (1 ≤ o.results.length) <;> simp [hx] at h ⊢
    have hd : d = false := by
      cases hx : d <;> simp [hx] at h ⊢
    have hts2 : o.type_size ≠ 0 := by
      intro hx
      rw [hx] at hts
      simp at hts
    rw [if_pos hts2]
    have hlen0 : o.results.length = 0 := by
      have := of_decide_eq_false hlen
      omega
    rw [if_neg (by omega), if_neg (by omega), hd]
    simp
  · have hc2 : ((!o.lnames.isEmpty || !o.snames.isEmpty) && o.configurable) = false :=
      Bool.not_eq_true _ ▸ Bool.eq_false_iff.mpr hc
    rw [if_neg hc]

theorem processOpt_of_inserts {o : COption} {d : Bool} (h : optInserts o d = true)
    (j : Option TomlVal) : ∃ es, processOpt j o d = some (.table es) := by
  unfold optInserts at h
  have hc := (Bool.and_eq_true_iff.mp h).1
  have hrest := (Bool.and_eq_true_iff.mp h).2
  unfold processOpt
  rw [if_pos hc]
  by_cases hts : o.type_size ≠ 0
  · rw [if_pos hts]
    by_cases h1 : o.results.length = 1
    · rw [if_pos h1]
      exact tomlInsert_isSome _ _ _
    · rw [if_neg h1]
      by_cases h2 : o.results.length > 1
      · rw [if_pos h2]
        exact tomlInsert_isSome _ _ _
      · rw [if_neg h2]
        have hd : d = true := by
          rcases Bool.or_eq_true_iff.mp hrest with hx | hx
          · exact absurd (by simpa using hx) hts
          · rcases Bool.or_eq_true_iff.mp hx with hy | hy
            · have := of_decide_eq_true hy
              omega
            · exact hy
        rw [hd]
        by_cases h3 : !o.default_str.isEmpty
        · rw [h3]
          simp only [Bool.true_and, if_true]
          by_cases h4 : (_split_result_str o.default_str o.delimiter).length = 1
          · rw [if_pos h4]
            exact tomlInsert_isSome _ _ _
          · rw [if_neg h4]
            exact tomlInsert_isSome _ _ _
        · have h3f : (!o.default_str.isEmpty) = false := by
            cases hx : (!o.default_str.isEmpty)
            · rfl
            · exact absurd hx h3
          rw [h3f]
          simp only [Bool.and_false, Bool.false_eq_true, if_false, if_true]
          exact tomlInsert_isSome _ _ _
  · rw [if_neg hts]
    by_cases h1 : o.results.length = 1
    · rw [if_pos h1]
      exact tomlInsert_isSome _ _ _
    · rw [if_neg h1]
      by_cases h2 : o.results.length > 1
      · rw [if_pos h2]
        exact tomlInsert_isSome _ _ _
      · rw [if_neg h2]
        by_cases hd : d = true
        · rw [hd]
          simp only [if_true]
          exact tomlInsert_isSome _ _ _
        · rw [Bool.not_eq_true] at hd
          rw [hd]
          simp only [Bool.false_eq_true, if_false]
          exact tomlInsert_isSome _ _ _

theorem processOpt_some {o : COption} {d : Bool} {es : List (Str × TomlVal)} :
    ∃ es2, processOpt (some (.table es)) o d = some (.table es2) := by
  by_cases h : optInserts o d = true
  · exact processOpt_of_inserts h _
  · rw [Bool.not_eq_true] at h
    exact ⟨es, processOpt_of_not_inserts h _⟩

theorem foldl_processOpt_some {opts : List COption} {d : Bool} {es : List (Str × TomlVal)} :
    ∃ es2, opts.foldl (fun j o => processOpt j o d) (some (.table es)) = some (.table es2) := by
  induction opts generalizing es with
  | nil => exact ⟨es, rfl⟩
  | cons o rest ih =>
    obtain ⟨es1, h1⟩ := @processOpt_some o d es
    rw [List.foldl_cons, h1]
    exact ih

theorem foldl_processOpt_none_iff {opts : List COption} {d : Bool} :
    opts.foldl (fun j o => processOpt j o d) none = none ↔
      opts.all (fun o => !optInserts o d) = true := by
  induction opts with
  | nil => simp
  | cons o rest ih =>
    rw [List.foldl_cons, List.all_cons]
    by_cases h : optInserts o d = true
    · obtain ⟨es, hes⟩ := processOpt_of_inserts h none
      rw [hes]
      obtain ⟨es2, hes2⟩ := @foldl_processOpt_some rest d es
      rw [hes2]
      simp [h]
    · rw [Bool.not_eq_true] at h
      rw [processOpt_of_not_inserts h none, h]
      simpa using ih

theorem getValuesSubs_some {subs : List CApp} {d : Bool} {es : List (Str × TomlVal)} :
    ∃ es2, getValuesSubs subs d (some (.table es)) = some (.table es2) := by
  induction subs generalizing es with
  | nil => exact ⟨es, by rw [getValuesSubs]⟩
  | cons sub rest ih =>
    rw [getValuesSubs]
    cases hg : getValues sub d with
    | none => exact ih
    | some v =>
      dsimp only
      obtain ⟨es1, h1⟩ := tomlInsert_isSome (some (.table es)) sub.name v
      rw [h1]
      exact ih

theorem getValues_none_iff (app : CApp) (d : Bool) :
    getValues app d = none ↔ nothingToSerialize app d = true := by
  refine getValues.induct
    (fun app d => getValues app d = none ↔ nothingToSerialize app d = true)
    (fun subs d j => getValuesSubs subs d j = none ↔
      (j = none ∧ subsNothingToSerialize subs d = true))
    ?_ ?_ ?_ app d
  · intro d n de gr gs opts subs c i ih
    rw [getValues, nothingToSerialize]
    rw [ih]
    rw [foldl_processOpt_none_iff]
    constructor
    · rintro ⟨h1, h2⟩
      rw [h1, h2]
      rfl
    · intro h
      exact ⟨(Bool.and_eq_true_iff.mp h).1, (Bool.and_eq_true_iff.mp h).2⟩
  · intro d j
    rw [getValuesSubs, subsNothingToSerialize]
    simp
  · intro d j sub rest ih1 ih2
    rw [getValuesSubs, subsNothingToSerialize]
    cases hg : getValues sub d with
    | none =>
      rw [hg] at ih2
      dsimp only at ih2 ⊢
      rw [ih2]
      have hsub : nothingToSerialize sub d = true := ih1.mp hg
      rw [hsub]
      simp
    | some v =>
      rw [hg] at ih2
      dsimp only at ih2 ⊢
      constructor
      · intro hnone
        exfalso
        obtain ⟨es1, h1⟩ := tomlInsert_isSome j sub.name v
        rw [h1] at hnone
        obtain ⟨es2, h2⟩ := @getValuesSubs_some rest d es1
        rw [h2] at hnone
        cases hnone
      · intro h
        exfalso
        have hsub := (Bool.and_eq_true_iff.mp h.2).1
        have := ih1.mpr hsub
        rw [hg] at this
        cases this

/-- Modelled from the spec: `detail::remove_quotes` of `StringTools.hpp` (not
under `src/`): strip one pair of matching surrounding quote characters. -/
def remove_quotes (s : Str) : Str :=
  if 1 < s.length ∧ (s.head? = some '"' ∨ s.head? = some squote) ∧ s.head? = s.getLast? then
    (s.dropLast).drop 1
  else s

/-- Scan for the closing quote character: a candidate closer preceded by a
backslash is skipped. Returns the content before the closer and the
remainder after it, or `none` when the quote is never closed. -/
def findCloseQuote (q : Char) (prev : Char) (s : Str) : Option (Str × Str) :=
  match s with
  | [] => none
  | c :: t =>
      if c = q ∧ prev ≠ bslash then some ([], t)
      else (findCloseQuote q c t).map (fun p => (c :: p.1, p.2))

/-- Replace each escaped quote (backslash followed by the quote character)
with the bare quote character, scanning left to right. -/
def replaceEscGo (q : Char) (s : Str) : Str :=
  match s with
  | [] => []
  | [c] => [c]
  | c :: c2 :: t2 =>
      if c = bslash ∧ c2 = q then q :: replaceEscGo q t2
      else c :: replaceEscGo q (c2 :: t2)

/-- The loop body of `detail::split_up`, with explicit fuel: every iteration
consumes at least one character, so fuel `length + 1` always suffices. -/
def split_upGo (fuel : Nat) (s : Str) (delim : Char) : List Str :=
  match fuel with
  | 0 => []
  | fuel + 1 =>
    match s with
    | [] => []
    | c :: rest =>
      if c = '"' ∨ c = squote then
        match findCloseQuote c c rest with
        | some (content, after) =>
            let content2 := if content.contains c then replaceEscGo c content else content
            content2 :: split_upGo fuel (trimStr (after.drop 1)) delim
        | none =>
            let content2 := if rest.contains c then replaceEscGo c rest else rest
            [content2]
      else
        let fw := fun x => if delim = Char.ofNat 0 then isSpaceChar x else x == delim
        let value := s.takeWhile (fun x => !fw x)
        let rest2 := s.dropWhile (fun x => !fw x)
        match rest2 with
        | [] => [value]
        | _ :: tail => value :: split_upGo fuel (trimStr tail) delim

/-- Modelled from the spec: `detail::split_up` of `StringTools.hpp` (not
under `src/`): split on the delimiter (whitespace when the delimiter is the
null character), keeping quoted segments together, stripping their quotes,
and unescaping embedded escaped quotes. -/
def split_up (s : Str) (delim : Char) : List Str :=
  let t := trimStr s
  split_upGo (t.length + 1) t delim

/-- `detail::generate_parents` (`Config.hpp` lines 102-124): derive the
parent chain from the section name and a possibly dotted item name; returns
the parents and the resolved name. -/
def generate_parents (sec : Str) (name : Str) (sep : Char) : List Str × Str :=
  let parents :=
    if toLowerStr sec ≠ str "default" then
      if sec.contains sep then cppSplit sec sep else [sec]
    else []
  let pr :=
    if name.contains sep then
      let plist := cppSplit name sep
      (parents ++ plist.dropLast, remove_quotes (plist.getLast?.getD []))
    else (parents, name)
  (pr.1.map remove_quotes, pr.2)

/-- The close-marker duplication loop of `checkParentSegments` (`Config.hpp`
lines 134-137 and 151-154) and of the end-of-input close (lines 350-353),
on the reversed output list: starting from marker `b`, push a copy with one
parent popped while the top's parent chain is at least `msize` long. The
result lists the pushed markers most-recent-first, with `b` last. The
`0 < msize` guard (every caller passes `msize ≥ 2`) only excludes the
non-terminating `msize = 0` run of the C++ loop. -/
def whileCloseGo (fuel : Nat) (b : ConfigItem) (msize : Nat) : List ConfigItem :=
  match fuel with
  | 0 => [b]
  | fuel + 1 =>
      if 0 < msize ∧ msize ≤ b.parents.length then
        whileCloseGo fuel { b with parents := b.parents.dropLast } msize ++ [b]
      else [b]

/-- The close-marker duplication loop, with fuel `length + 1`: each iteration
shortens the top parent chain by one, so the fuel always suffices. -/
def whileClose (b : ConfigItem) (msize : Nat) : List ConfigItem :=
  whileCloseGo (b.parents.length + 1) b msize

/-- The common-prefix count of `checkParentSegments` (`Config.hpp` lines
140-147): matching leading segments, compared up to `mpair`. -/
def commonPrefixLen (a b : List Str) (mpair : Nat) : Nat :=
  match mpair, a, b with
  | 0, _, _ => 0
  | _ + 1, [], _ => 0
  | _ + 1, _, [] => 0
  | m + 1, x :: xs, y :: ys => if x = y then commonPrefixLen xs ys m + 1 else 0

/-- The open markers emitted by `checkParentSegments` (`Config.hpp` lines
156-160 and 163-167): one per segment from `common` to the next-to-last,
each carrying the cumulative parent chain, listed most-recent-first for the
reversed output list. -/
def opensFor (parents : List Str) (common : Nat) : List ConfigItem :=
  ((List.range' common (parents.length - 1 - common)).map
    (fun ii => (⟨parents.take (ii + 1), str "++", []⟩ : ConfigItem))).reverse

/-- `detail::checkParentSegments` (`Config.hpp` lines 127-174) on the
reversed output list (most recent record first): reconcile the trailing
markers with the parent chain of the newly entered section, then append the
section's own open marker. -/
def checkParentSegments (outRev : List ConfigItem) (currentSection : Str) (sep : Char) :
    List ConfigItem :=
  let parents := (generate_parents currentSection [] sep).1
  let outRev2 :=
    match outRev with
    | b :: rest =>
      if b.name = str "--" then
        let msize := if 1 < parents.length then parents.length else 2
        let outW := whileClose b msize ++ rest
        if 1 < parents.length then
          let back := (whileClose b msize).headD b
          let mpair := min back.parents.length (parents.length - 1)
          let common := commonPrefixLen back.parents parents mpair
          let outPop :=
            if common = mpair then outW.drop 1
            else whileClose back (common + 2) ++ outW.drop 1
          opensFor parents common ++ outPop
        else outW
      else
        if 1 < parents.length then opensFor parents 0 ++ outRev else outRev
    | [] =>
      if 1 < parents.length then opensFor parents 0 else []
  ⟨parents, str "++", []⟩ :: outRev2

/-- The format knobs of `ConfigBase` (`ConfigFwd.hpp` lines 80-104), with
their default member values. -/
structure ConfigCfg where
  commentChar : Char := '#'
  arrayStart : Char := '['
  arrayEnd : Char := ']'
  arraySeparator : Char := ','
  valueDelimiter : Char := '='
  stringQuote : Char := '"'
  characterQuote : Char := squote
  maximumLayers : Nat := 255
  parentSeparatorChar : Char := '.'
  configIndex : Int := -1
  configSection : Str := []

/-- `isDefaultArray` of `ConfigBase::from_config` (`Config.hpp` line 231). -/
def ConfigCfg.isDefaultArray (cfg : ConfigCfg) : Bool :=
  cfg.arrayStart == '[' && cfg.arrayEnd == ']' && cfg.arraySeparator == ','

/-- `isINIArray` of `ConfigBase::from_config` (`Config.hpp` line 232). -/
def ConfigCfg.isINIArray (cfg : ConfigCfg) : Bool :=
  (cfg.arrayStart == Char.ofNat 0 || cfg.arrayStart == ' ') && cfg.arrayStart == cfg.arrayEnd

/-- `aStart` of `ConfigBase::from_config` (`Config.hpp` line 234). -/
def ConfigCfg.aStart (cfg : ConfigCfg) : Char :=
  if cfg.isINIArray then '[' else cfg.arrayStart

/-- `aEnd` of `ConfigBase::from_config` (`Config.hpp` line 235). -/
def ConfigCfg.aEnd (cfg : ConfigCfg) : Char :=
  if cfg.isINIArray then ']' else cfg.arrayEnd

/-- `aSep` of `ConfigBase::from_config` (`Config.hpp` line 236). -/
def ConfigCfg.aSep (cfg : ConfigCfg) : Char :=
  if cfg.isINIArray && cfg.arraySeparator == ' ' then ',' else cfg.arraySeparator

/-- The loop state of `ConfigBase::from_config` (`Config.hpp` lines
227-237): current and previous section, restricted-section flag, section
repeat index, the output list (kept most-recent-first here), and the pending
multiline array continuation (name plus accumulated item text), explicit
state standing for the inner `getline` loop of lines 291-294. -/
structure ParseState where
  currentSection : Str := str "default"
  previousSection : Str := str "default"
  inSection : Bool := false
  currentSectionIndex : Int := 0
  outRev : List ConfigItem := []
  pending : Option (Str × Str) := none
deriving DecidableEq, Inhabited

/-- Split a string at the first occurrence of a character: the part before
it and the part after it (`std::string::find` followed by `substr`). -/
def breakAtChar (c : Char) : Str → Option (Str × Str)
  | [] => none
  | a :: t => if a = c then some ([], t) else (breakAtChar c t).map (fun p => (a :: p.1, p.2))

/-- First occurrence split of a line at the value delimiter
(`line.find(valueDelimiter)` of `Config.hpp` line 281). -/
def findSplit (line : Str) (c : Char) : Option (Str × Str) := breakAtChar c line

/-- Inline comment stripping (`Config.hpp` lines 285-289 and 305-309): erase
from the first comment character and trim. -/
def stripComment (cfg : ConfigCfg) (item : Str) : Str :=
  match breakAtChar cfg.commentChar item with
  | some p => trimStr p.1
  | none => item

/-- The quote cleanup and parent resolution applied to a key line
(`Config.hpp` lines 313-315 and 321). -/
def resolveParents (cfg : ConfigCfg) (sec : Str) (name0 : Str) : List Str × Str :=
  let name1 := if !name0.contains cfg.parentSeparatorChar then remove_quotes name0 else name0
  generate_parents sec name1 cfg.parentSeparatorChar

/-- The merge-or-append of `ConfigBase::from_config` (`Config.hpp` lines
335-342) on the reversed output list: extend the previous record's inputs
when name and parents coincide, otherwise start a new record. -/
def appendRecord (outRev : List ConfigItem) (parents : List Str) (name : Str)
    (items : List Str) : List ConfigItem :=
  match outRev with
  | b :: rest =>
      if name = b.name ∧ parents = b.parents then
        { b with inputs := b.inputs ++ items } :: rest
      else ⟨parents, name, items⟩ :: b :: rest
  | [] => [⟨parents, name, items⟩]

/-- The record store logic of `ConfigBase::from_config` (`Config.hpp` lines
313-342): quote cleanup, parent resolution, depth limit, restricted-section
filter, and merge-or-append into the output. -/
def storeKeyed (cfg : ConfigCfg) (st : ParseState) (name0 : Str) (items0 : List Str) :
    ParseState :=
  let items := items0.map remove_quotes
  let pr := resolveParents cfg st.currentSection name0
  if pr.1.length > cfg.maximumLayers then { st with pending := none }
  else
    let fl :=
      if !cfg.configSection.isEmpty && !st.inSection then
        if pr.1.isEmpty then none
        else if pr.1.headD [] ≠ cfg.configSection then none
        else if cfg.configIndex ≥ 0 ∧ st.currentSectionIndex ≠ cfg.configIndex then none
        else some (pr.1.drop 1, true)
      else some (pr.1, st.inSection)
    match fl with
    | none => { st with pending := none }
    | some pi =>
      { st with outRev := appendRecord st.outRev pi.1 pr.2 items, inSection := pi.2,
                pending := none }

/-- The section-header branch of `ConfigBase::from_config` (`Config.hpp`
lines 248-272): close the outgoing section, strip brackets (twice for the
double-bracket TOML form), normalize `default`, reconcile markers, reset the
in-section flag, and track the per-section repeat index. -/
def stepSection (cfg : ConfigCfg) (st : ParseState) (line : Str) : ParseState :=
  let outRev :=
    if st.currentSection ≠ str "default" then
      (⟨(generate_parents st.currentSection [] cfg.parentSeparatorChar).1, str "--", []⟩ :
        ConfigItem) :: st.outRev
    else st.outRev
  let sec0 := (line.drop 1).dropLast
  let sec1 :=
    if 1 < sec0.length ∧ sec0.head? = some '[' ∧ sec0.getLast? = some ']' then
      (sec0.drop 1).dropLast
    else sec0
  let co :=
    if toLowerStr sec1 = str "default" then (str "default", outRev)
    else (sec1, checkParentSegments outRev sec1 cfg.parentSeparatorChar)
  let ip :=
    if co.1 = st.previousSection then (st.currentSectionIndex + 1, st.previousSection)
    else (0, co.1)
  { currentSection := co.1, previousSection := ip.2, inSection := false,
    currentSectionIndex := ip.1, outRev := co.2, pending := none }

/-- The non-array value tokenizations of `ConfigBase::from_config`
(`Config.hpp` lines 296-302). -/
def tokensNoArray (cfg : ConfigCfg) (item : Str) : List Str :=
  if (cfg.isDefaultArray || cfg.isINIArray) && item.contains cfg.aSep then
    split_up item cfg.aSep
  else if (cfg.isDefaultArray || cfg.isINIArray) && item.contains ' ' then
    split_up item (Char.ofNat 0)
  else [item]

/-- Finalize a (possibly multiline) array value (`Config.hpp` line 295):
strip the array brackets and split on the array separator. -/
def finalizePending (cfg : ConfigCfg) (st : ParseState) (name item : Str) : ParseState :=
  storeKeyed cfg st name (split_up ((item.drop 1).dropLast) cfg.aSep)

/-- One raw line consumed while an array value is being continued
(`Config.hpp` lines 291-294): append the trimmed line and finalize once the
accumulated item ends with the array-end character. -/
def stepPending (cfg : ConfigCfg) (st : ParseState) (name item : Str) (rawLine : Str) :
    ParseState :=
  let item2 := item ++ trimStr rawLine
  if item2.getLast? ≠ some cfg.aEnd then { st with pending := some (name, item2) }
  else finalizePending cfg st name item2

/-- The key/value branch of `ConfigBase::from_config` (`Config.hpp` lines
280-312): split at the first value delimiter, strip inline comments, detect
array values (possibly starting a multiline continuation), tokenize, and
store; a line with no delimiter is a bare boolean key. -/
def stepKeyLine (cfg : ConfigCfg) (st : ParseState) (line : Str) : ParseState :=
  match findSplit line cfg.valueDelimiter with
  | some lr =>
      let name := trimStr lr.1
      let item := stripComment cfg (trimStr lr.2)
      if 1 < item.length ∧ item.head? = some cfg.aStart then
        if item.getLast? ≠ some cfg.aEnd then { st with pending := some (name, item) }
        else storeKeyed cfg st name (split_up ((item.drop 1).dropLast) cfg.aSep)
      else storeKeyed cfg st name (tokensNoArray cfg item)
  | none =>
      let name := stripComment cfg (trimStr line)
      storeKeyed cfg st name [str "true"]

/-- One line of `ConfigBase::from_config` (`Config.hpp` lines 238-343):
pending continuation first, then trimming, the minimum-length filter,
section headers, comment lines, and key lines. -/
def stepLine (cfg : ConfigCfg) (st : ParseState) (rawLine : Str) : ParseState :=
  match st.pending with
  | some ni => stepPending cfg st ni.1 ni.2 rawLine
  | none =>
    let line := trimStr rawLine
    if line.length < 3 then st
    else if line.head? = some '[' ∧ line.getLast? = some ']' then stepSection cfg st line
    else if line.head? = some ';' ∨ line.head? = some '#' ∨ line.head? = some cfg.commentChar
      then st
    else stepKeyLine cfg st line

/-- `ConfigBase::from_config` (`Config.hpp` lines 226-356) over the line
sequence of the stream: fold the per-line step, finalize a pending array at
end of input, then close any open section down to the root. -/
def fromLines (cfg : ConfigCfg) (lines : List Str) : List ConfigItem :=
  let st := lines.foldl (stepLine cfg) {}
  let st2 :=
    match st.pending with
    | some ni => finalizePending cfg st ni.1 ni.2
    | none => st
  let outRev :=
    if st2.currentSection ≠ str "default" then
      whileClose
        ⟨(generate_parents st2.currentSection [] cfg.parentSeparatorChar).1, str "--", []⟩ 2 ++
        st2.outRev
    else st2.outRev
  outRev.reverse

/-- The line sequence `std::getline` yields for a character stream: split on
newlines, with no final empty line after a trailing newline. -/
def splitLines (text : Str) : List Str :=
  match text with
  | [] => []
  | c :: rest =>
      if c = '\n' then [] :: splitLines rest
      else
        match splitLines rest with
        | [] => [[c]]
        | l :: ls => (c :: l) :: ls

/-- `ConfigBase::from_config` on stream text. -/
def from_config (cfg : ConfigCfg) (text : Str) : List ConfigItem :=
  fromLines cfg (splitLines text)

/-- The default `ConfigBase` format knobs. -/
def defaultCfg : ConfigCfg := {}

/-- C3: reading the header sequence `[a]`, `[a.b]`, `[a.c]`, `[x]` emits
markers that open `a`, open `a.b`, close `b` (as `a.b`) before opening `a.c`
while `a` stays open (`a` is not re-closed between `[a]` and `[a.b]`), and
close `a.c` and then `a` down to the root before opening `x`. -/
theorem C3_section_reconciliation :
    from_config defaultCfg (str "[a]\n[a.b]\n[a.c]\n[x]\n") =
      [⟨[str "a"], str "++", []⟩, ⟨[str "a", str "b"], str "++", []⟩,
       ⟨[str "a", str "b"], str "--", []⟩, ⟨[str "a", str "c"], str "++", []⟩,
       ⟨[str "a", str "c"], str "--", []⟩, ⟨[str "a"], str "--", []⟩,
       ⟨[str "x"], str "++", []⟩, ⟨[str "x"], str "--", []⟩] := by
  decide

/-- C9: parsing `"[sub]\nkey = 1, 2, 3\n"` with the default configuration
yields exactly one non-marker record, with parents `["sub"]`, name `"key"`,
and inputs `["1","2","3"]`. -/
theorem C9_default_array_scenario :
    (from_config defaultCfg (str "[sub]\nkey = 1, 2, 3\n")).filter
      (fun r => r.name ≠ str "++" ∧ r.name ≠ str "--") =
      [⟨[str "sub"], str "key", [str "1", str "2", str "3"]⟩] := by
  decide

/-- C4 counterexample: with restricted section `sec`, the input
`"[sec]\nonekey=1\ntwokey=2\n"` stores the second line with parents
`["sec"]` — the matching leading segment is not stripped — contradicting the
claim that every stored line has the leading segment stripped: only the
first matching line of a section is stripped, which also sets the in-section
flag that bypasses the filter for the following lines. -/
theorem C4_counterexample_second_line_unstripped :
    from_config { defaultCfg with configSection := str "sec" }
      (str "[sec]\nonekey=1\ntwokey=2\n") =
      [⟨[str "sec"], str "++", []⟩, ⟨[], str "onekey", [str "1"]⟩,
       ⟨[str "sec"], str "twokey", [str "2"]⟩, ⟨[str "sec"], str "--", []⟩] := by
  decide

/-- C4 amended: with a restricted-section filter configured, a key line
processed while the in-section flag is clear is dropped when its resolved
leading segment does not match the configured section (or, with an instance
index configured, when the repeat index does not match), and is otherwise
stored with the leading segment stripped, setting the in-section flag; a key
line processed with the flag already set (any line after the first stored
one in the current section) is stored without filtering or stripping. -/
theorem C4_restricted_section_filter (cfg : ConfigCfg) (st : ParseState)
    (name0 : Str) (items0 : List Str)
    (hcs : cfg.configSection ≠ [])
    (hdepth : ¬ (resolveParents cfg st.currentSection name0).1.length > cfg.maximumLayers) :
    (st.inSection = false →
      ((resolveParents cfg st.currentSection name0).1 = [] ∨
          (resolveParents cfg st.currentSection name0).1.headD [] ≠ cfg.configSection →
        storeKeyed cfg st name0 items0 = { st with pending := none }) ∧
      (cfg.configIndex ≥ 0 → st.currentSectionIndex ≠ cfg.configIndex →
        storeKeyed cfg st name0 items0 = { st with pending := none }) ∧
      ((resolveParents cfg st.currentSection name0).1 ≠ [] →
        (resolveParents cfg st.currentSection name0).1.headD [] = cfg.configSection →
        (cfg.configIndex < 0 ∨ st.currentSectionIndex = cfg.configIndex) →
        storeKeyed cfg st name0 items0 =
          { st with
            outRev := appendRecord st.outRev
              ((resolveParents cfg st.currentSection name0).1.drop 1)
              (resolveParents cfg st.currentSection name0).2 (items0.map remove_quotes),
            inSection := true, pending := none })) ∧
    (st.inSection = true →
      storeKeyed cfg st name0 items0 =
        { st with
          outRev := appendRecord st.outRev (resolveParents cfg st.currentSection name0).1
            (resolveParents cfg st.currentSection name0).2 (items0.map remove_quotes),
          pending := none }) := by
  have hcsb : cfg.configSection.isEmpty = false := by
    cases hx : cfg.configSection
    · exact absurd rfl (hx ▸ hcs)
    · rfl
  constructor
  · intro hin
    unfold storeKeyed
    rw [if_neg hdepth]
    rw [hcsb, hin]
    simp only [Bool.not_false, Bool.and_self, if_true]
    refine ⟨?_, ?_, ?_⟩
    · rintro (h1 | h1)
      · rw [if_pos (List.isEmpty_iff.mpr h1)]
      · by_cases he : (resolveParents cfg st.currentSection name0).1.isEmpty = true
        · rw [if_pos he]
        · rw [if_neg he, if_pos h1]
    · intro hidx hne
      by_cases he : (resolveParents cfg st.currentSection name0).1.isEmpty = true
      · rw [if_pos he]
      · rw [if_neg he]
        by_cases hf : (resolveParents cfg st.currentSection name0).1.headD [] ≠ cfg.configSection
        · rw [if_pos hf]
        · rw [if_neg hf, if_pos ⟨hidx, hne⟩]
    · intro hne hfront hidx
      rw [if_neg (by simpa [List.isEmpty_iff] using hne)]
      rw [if_neg (not_not_intro hfront)]
      rw [if_neg (by
        rintro ⟨h1, h2⟩
        rcases hidx with h3 | h3
        · omega
        · exact h2 h3)]
  · intro hin
    unfold storeKeyed
    rw [if_neg hdepth]
    rw [hin]
    simp only [Bool.not_true, Bool.and_false, Bool.false_eq_true, if_false]

/-- Witness for `C4_restricted_section_filter`: a matching line stored while
the flag is clear is stripped and arms the flag. -/
theorem C4_restricted_section_witness :
    storeKeyed { defaultCfg with configSection := str "sec" }
      { currentSection := str "sec" } (str "k") [str "1"] =
      { currentSection := str "sec", outRev := [⟨[], str "k", [str "1"]⟩],
        inSection := true } := by
  have h := ((C4_restricted_section_filter { defaultCfg with configSection := str "sec" }
      { currentSection := str "sec" } (str "k") [str "1"] (by decide) (by decide)).1
      rfl).2.2 (by decide) (by decide) (Or.inl (by decide))
  rw [h]
  decide

/-- C7: when the immediately preceding stored record has the same resolved
name and parent chain as the new line (and the line survives the depth and
section filters), the new line's tokens are appended to that record's input
list in order, and no second record is created. -/
theorem C7_repeated_keys_accumulate (cfg : ConfigCfg) (st : ParseState)
    (name0 : Str) (items0 : List Str) (P : List Str) (n : Str) (ins : List Str)
    (rest : List ConfigItem)
    (hout : st.outRev = ⟨P, n, ins⟩ :: rest)
    (hres : resolveParents cfg st.currentSection name0 = (P, n))
    (hdepth : ¬ P.length > cfg.maximumLayers)
    (hfilter : cfg.configSection = [] ∨ st.inSection = true) :
    (storeKeyed cfg st name0 items0).outRev =
      ⟨P, n, ins ++ items0.map remove_quotes⟩ :: rest ∧
    (storeKeyed cfg st name0 items0).outRev.length = st.outRev.length := by
  have hmain : (storeKeyed cfg st name0 items0).outRev =
      ⟨P, n, ins ++ items0.map remove_quotes⟩ :: rest := by
    unfold storeKeyed
    rw [hres]
    rw [if_neg hdepth]
    have hflb : (!cfg.configSection.isEmpty && !st.inSection) = false := by
      rcases hfilter with h1 | h1
      · rw [h1]
        rfl
      · rw [h1]
        simp
    rw [hflb]
    simp only [Bool.false_eq_true, if_false]
    rw [hout]
    unfold appendRecord
    dsimp only
    rw [if_pos ⟨rfl, rfl⟩]
  refine ⟨hmain, ?_⟩
  rw [hmain, hout]
  simp

/-- Witness for `C7_repeated_keys_accumulate`: a second `key` line under the
same (root) parent chain extends the existing record. -/
theorem C7_repeated_keys_witness :
    (storeKeyed defaultCfg { outRev := [⟨[], str "key", [str "1"]⟩] }
      (str "key") [str "2"]).outRev = [⟨[], str "key", [str "1", str "2"]⟩] := by
  have h := (C7_repeated_keys_accumulate defaultCfg { outRev := [⟨[], str "key", [str "1"]⟩] }
      (str "key") [str "2"] [] (str "key") [str "1"] [] rfl (by decide) (by decide)
      (Or.inl rfl)).1
  rw [h]
  decide

/-- C8: a key line whose resolved parent chain is longer than the configured
maximum number of layers produces no record and raises no error — the
store step returns the state unchanged (its pending slot cleared) and the
total parse continues with the following lines. -/
theorem C8_depth_limit_drops (cfg : ConfigCfg) (st : ParseState)
    (name0 : Str) (items0 : List Str)
    (hdeep : (resolveParents cfg st.currentSection name0).1.length > cfg.maximumLayers) :
    storeKeyed cfg st name0 items0 = { st with pending := none } ∧
    (storeKeyed cfg st name0 items0).outRev = st.outRev := by
  have hmain : storeKeyed cfg st name0 items0 = { st with pending := none } := by
    unfold storeKeyed
    rw [if_pos hdeep]
  exact ⟨hmain, by rw [hmain]⟩

/-- Witness for `C8_depth_limit_drops`: with a zero layer limit, a dotted
key is silently dropped. -/
theorem C8_depth_limit_witness :
    storeKeyed { defaultCfg with maximumLayers := 0 } {} (str "a.b") [str "1"] =
      ({} : ParseState) := by
  have h := (C8_depth_limit_drops { defaultCfg with maximumLayers := 0 } {}
      (str "a.b") [str "1"] (by decide)).1
  rw [h]

/-- `detail::ini_join` (`Config.hpp` lines 76-100): quote each token, join
with the separator (adding a space after a non-whitespace separator), and
bracket the result when there is more than one token and brackets are
configured. -/
def ini_join (args : List Str) (sepChar arrayStart arrayEnd stringQuote characterQuote : Char) :
    Str :=
  (if 1 < args.length ∧ arrayStart ≠ Char.ofNat 0 then [arrayStart] else []) ++
  joinStrs (args.map (fun a => convert_arg_for_ini a stringQuote characterQuote))
    (if isSpaceChar sepChar then [sepChar] else [sepChar, ' ']) ++
  (if 1 < args.length ∧ arrayEnd ≠ Char.ofNat 0 then [arrayEnd] else [])

/-- The comment leader of `ConfigBase::to_config` (`Config.hpp` lines
361-363): the comment character followed by a space. -/
def commentLead (cfg : ConfigCfg) : Str := [cfg.commentChar, ' ']

/-- Modelled from the spec: `detail::fix_newlines` of `StringTools.hpp` (not
under `src/`): insert the comment leader after every newline so description
continuation lines stay commented. -/
def fix_newlines (lead : Str) (s : Str) : Str :=
  s.flatMap (fun c => if c = '\n' then '\n' :: lead else [c])

/-- Whether an option belongs to the group pass (`Config.hpp` lines
385-389): its own group, with the `Options` pass absorbing uncategorized
options. -/
def optMatchesGroup (o : COption) (g : Str) : Bool :=
  o.group == g || (g == str "Options" && o.group == [])

/-- The per-option emission of `ConfigBase::to_config` (`Config.hpp` lines
390-410): compute the value from the reduced results (synthesizing from the
default when requested), and emit `name = value` with an optional
description comment; a valueless option emits nothing. -/
def optLine (cfg : ConfigCfg) (d w : Bool) (pfx : Str) (o : COption) : Str :=
  let name := pfx ++ o.single_name
  let value0 := ini_join o.reduced_results cfg.arraySeparator cfg.arrayStart cfg.arrayEnd
    cfg.stringQuote cfg.characterQuote
  let value :=
    if value0.isEmpty ∧ d then
      if ¬ o.default_str.isEmpty then
        convert_arg_for_ini o.default_str cfg.stringQuote cfg.characterQuote
      else if o.expected_min = 0 then str "false"
      else if o.run_callback_for_default then str "\"\""
      else []
    else value0
  if ¬ value.isEmpty then
    (if w ∧ ¬ o.descr.isEmpty then
      '\n' :: (commentLead cfg ++ fix_newlines (commentLead cfg) o.descr ++ ['\n'])
     else []) ++
    name ++ [cfg.valueDelimiter] ++ value ++ ['\n']
  else []

/-- One group pass of `ConfigBase::to_config` (`Config.hpp` lines 381-412):
every configurable option matching the group emits its line. -/
def emitGroup (cfg : ConfigCfg) (d w : Bool) (pfx : Str) (opts : List COption) (g : Str) :
    Str :=
  (opts.map (fun o => if o.configurable && optMatchesGroup o g then optLine cfg d w pfx o
    else [])).flatten

/-- The group loop of `ConfigBase::to_config` (`Config.hpp` lines 371-413),
with the `defaultUsed` flag deduplicating the `Options`/empty passes, and
the group header comment for named groups when descriptions are written. -/
def groupsFold (cfg : ConfigCfg) (d w : Bool) (pfx : Str) (opts : List COption)
    (gs : List Str) (defaultUsed : Bool) : Str :=
  match gs with
  | [] => []
  | g :: rest =>
      if g == str "Options" || g.isEmpty then
        if defaultUsed then groupsFold cfg d w pfx opts rest defaultUsed
        else emitGroup cfg d w pfx opts g ++ groupsFold cfg d w pfx opts rest true
      else
        (if w then '\n' :: (commentLead cfg ++ g ++ str " Options" ++ ['\n']) else []) ++
        emitGroup cfg d w pfx opts g ++ groupsFold cfg d w pfx opts rest defaultUsed

mutual
/-- `ConfigBase::to_config` (`Config.hpp` lines 358-447). `anc` is the chain
of ancestor names, nearest first (`get_parent` walks); the C++ takes the
`App` pointer whose parent chain this stands for. -/
def iniToConfig (anc : List Str) (cfg : ConfigCfg) (app : CApp) (d w : Bool) (pfx : Str) :
    Str :=
  match app with
  | .mk nm de _ gs opts subs cfgable _ =>
      (if w ∧ (cfgable = true ∨ anc = [] ∨ nm = []) then
        commentLead cfg ++ fix_newlines (commentLead cfg) de ++ ['\n']
       else []) ++
      groupsFold cfg d w pfx opts (str "Options" :: gs) false ++
      iniSubsUnnamed (nm :: anc) cfg subs d w pfx ++
      iniSubsNamed anc nm (nm :: anc) cfg subs d w pfx
termination_by sizeOf app

/-- The unnamed-subcommand loop of `ConfigBase::to_config` (`Config.hpp`
lines 414-422): recurse inline at the current prefix. -/
def iniSubsUnnamed (anc2 : List Str) (cfg : ConfigCfg) (subs : List CApp) (d w : Bool)
    (pfx : Str) : Str :=
  match subs with
  | [] => []
  | sub :: rest =>
      (if sub.name.isEmpty then
        (if w ∧ ¬ sub.grp.isEmpty then
          '\n' :: (commentLead cfg ++ sub.grp ++ str " Options" ++ ['\n'])
         else []) ++
        iniToConfig anc2 cfg sub d w pfx
       else []) ++
      iniSubsUnnamed anc2 cfg rest d w pfx
termination_by sizeOf subs

/-- The named-subcommand loop of `ConfigBase::to_config` (`Config.hpp` lines
424-444): configurable invoked subcommands get a bracket header (with the
full dotted path computed from the parent walk when the prefix is empty below
the root) and restart with an empty prefix; other named subcommands are
flattened into the parent's namespace. -/
def iniSubsNamed (anc : List Str) (nm : Str) (anc2 : List Str) (cfg : ConfigCfg)
    (subs : List CApp) (d w : Bool) (pfx : Str) : Str :=
  match subs with
  | [] => []
  | sub :: rest =>
      (if ¬ sub.name.isEmpty then
        if sub.configurable = true ∧ sub.invoked = true then
          (if ¬ pfx.isEmpty ∨ anc = [] then
            '[' :: (pfx ++ sub.name ++ str "]" ++ ['\n'])
           else
            '[' :: (joinStrs (anc.dropLast.reverse ++ [nm, sub.name])
              [cfg.parentSeparatorChar] ++ str "]" ++ ['\n'])) ++
          iniToConfig anc2 cfg sub d w []
        else
          iniToConfig anc2 cfg sub d w (pfx ++ sub.name ++ [cfg.parentSeparatorChar])
       else []) ++
      iniSubsNamed anc nm anc2 cfg rest d w pfx
termination_by sizeOf subs
end

mutual
/-- Whether the INI-style writer, called without default synthesis and
without descriptions, has nothing to emit: every configurable option has no
reduced results, no named subcommand is both configurable and invoked (which
would emit a bracket header), and all subcommands are recursively quiet. -/
def iniQuiet (app : CApp) : Bool :=
  match app with
  | .mk _ _ _ _ opts subs _ _ =>
      opts.all (fun o => !o.configurable || o.reduced_results.isEmpty) && iniQuietSubs subs
termination_by sizeOf app

/-- `iniQuiet` over a subcommand list. -/
def iniQuietSubs (subs : List CApp) : Bool :=
  match subs with
  | [] => true
  | s :: rest =>
      (s.name.isEmpty || !(s.configurable && s.invoked)) && iniQuiet s && iniQuietSubs rest
termination_by sizeOf subs
end

theorem optLine_empty {cfg : ConfigCfg} {w : Bool} {pfx : Str} {o : COption}
    (h : o.reduced_results = []) : optLine cfg false w pfx o = [] := by
  simp [optLine, h, ini_join, joinStrs, List.intercalate]

theorem emitGroup_empty {cfg : ConfigCfg} {w : Bool} {pfx : Str} {opts : List COption}
    (h : ∀ o ∈ opts, o.configurable = true → o.reduced_results = []) (g : Str) :
    emitGroup cfg false w pfx opts g = [] := by
  unfold emitGroup
  induction opts with
  | nil => rfl
  | cons o rest ih =>
    rw [List.map_cons, List.flatten_cons]
    rw [ih (fun x hx hcfg => h x (List.mem_cons_of_mem o hx) hcfg)]
    by_cases hc : o.configurable = true
    · rw [optLine_empty (h o (List.mem_cons_self o rest) hc)]
      simp
    · have : o.configurable = false := Bool.not_eq_true _ ▸ Bool.eq_false_iff.mpr hc
      rw [this]
      simp

theorem groupsFold_empty {cfg : ConfigCfg} {pfx : Str} {opts : List COption}
    (h : ∀ o ∈ opts, o.configurable = true → o.reduced_results = []) :
    ∀ (gs : List Str) (du : Bool), groupsFold cfg false false pfx opts gs du = [] := by
  intro gs
  induction gs with
  | nil => intro du; rfl
  | cons g rest ih =>
    intro du
    unfold groupsFold
    by_cases hg : (g == str "Options" || g.isEmpty) = true
    · rw [hg]
      simp only [if_true]
      by_cases hdu : du = true
      · rw [hdu]
        simp only [if_true]
        exact ih true
      · rw [Bool.not_eq_true] at hdu
        rw [hdu]
        simp only [Bool.false_eq_true, if_false]
        rw [emitGroup_empty h g, ih true]
        rfl
    · have hg2 : (g == str "Options" || g.isEmpty) = false :=
        Bool.not_eq_true _ ▸ Bool.eq_false_iff.mpr hg
      rw [hg2]
      simp only [Bool.false_eq_true, if_false]
      rw [emitGroup_empty h g, ih du]
      simp

theorem iniQuiet_output_empty :
    ∀ (anc : List Str) (cfg : ConfigCfg) (app : CApp) (p : Str),
      iniQuiet app = true → iniToConfig anc cfg app false false p = [] := by
  have main : ∀ (anc : List Str) (cfg : ConfigCfg) (app : CApp) (d w : Bool) (p : Str),
      d = false → w = false → iniQuiet app = true → iniToConfig anc cfg app d w p = [] := by
    intro anc cfg app d w p
    refine iniToConfig.induct
      (fun anc cfg app d w pfx => d = false → w = false → iniQuiet app = true →
        iniToConfig anc cfg app d w pfx = [])
      (fun anc nm anc2 cfg subs d w pfx => d = false → w = false →
        iniQuietSubs subs = true → iniSubsNamed anc nm anc2 cfg subs d w pfx = [])
      (fun anc2 cfg subs d w pfx => d = false → w = false →
        iniQuietSubs subs = true → iniSubsUnnamed anc2 cfg subs d w pfx = [])
      ?_ ?_ ?_ ?_ ?_ anc cfg app d w p
    · intro anc cfg d w pfx n de gr gs opts subs c i ih3 ih2 hd hw hq
      subst hd
      subst hw
      rw [iniToConfig]
      rw [iniQuiet] at hq
      have hopts := (Bool.and_eq_true_iff.mp hq).1
      have hsubs := (Bool.and_eq_true_iff.mp hq).2
      have hopts2 : ∀ o ∈ opts, o.configurable = true → o.reduced_results = [] := by
        intro o ho hc
        have := List.all_eq_true.mp hopts o ho
        rw [hc] at this
        simp only [Bool.not_true, Bool.false_or] at this
        exact List.isEmpty_iff.mp this
      rw [groupsFold_empty hopts2, ih3 rfl rfl hsubs, ih2 rfl rfl hsubs]
      simp
    · intro anc nm anc2 cfg d w pfx hd hw hq
      rw [iniSubsNamed]
    · intro anc nm anc2 cfg d w pfx sub rest ih1 ih1b ih2 hd hw hq
      subst hd
      subst hw
      rw [iniQuietSubs] at hq
      have h1 := (Bool.and_eq_true_iff.mp (Bool.and_eq_true_iff.mp hq).1).1
      have hqs := (Bool.and_eq_true_iff.mp (Bool.and_eq_true_iff.mp hq).1).2
      have hrest := (Bool.and_eq_true_iff.mp hq).2
      rw [iniSubsNamed]
      rw [ih2 rfl rfl hrest]
      by_cases hn : sub.name.isEmpty = true
      · rw [if_neg (by simpa using hn)]
        rfl
      · have hn2 : sub.name.isEmpty = false := Bool.not_eq_true _ ▸ Bool.eq_false_iff.mpr hn
        rw [if_pos (by simpa using hn)]
        have hci : (sub.configurable && sub.invoked) = false := by
          rw [hn2] at h1
          simp only [Bool.false_or] at h1
          cases hx : (sub.configurable && sub.invoked)
          · rfl
          · simp [hx] at h1
        rw [if_neg (by
          rintro ⟨hc, hi⟩
          rw [hc, hi] at hci
          cases hci)]
        rw [ih1b rfl rfl hqs]
        rfl
    · intro anc2 cfg d w pfx hd hw hq
      rw [iniSubsUnnamed]
    · intro anc2 cfg d w pfx sub rest ih1 ih3 hd hw hq
      subst hd
      subst hw
      rw [iniQuietSubs] at hq
      have hqs := (Bool.and_eq_true_iff.mp (Bool.and_eq_true_iff.mp hq).1).2
      have hrest := (Bool.and_eq_true_iff.mp hq).2
      rw [iniSubsUnnamed]
      rw [ih3 rfl rfl hrest]
      by_cases hn : sub.name.isEmpty = true
      · rw [if_pos hn]
        rw [ih1 rfl rfl hqs]
        simp
      · have hn2 : sub.name.isEmpty = false := Bool.not_eq_true _ ▸ Bool.eq_false_iff.mpr hn
        rw [hn2]
        simp
  intro anc cfg app p hq
  exact main anc cfg app false false p rfl rfl hq

/-- C6 counterexample: an option tree with no values at all, but with a
configurable invoked named subcommand, makes the INI-style writer emit a
section header line — absence of values does not yield absence of lines (an
empty string), contradicting that half of the claim. -/
theorem C6_counterexample_header_without_values :
    iniToConfig [] defaultCfg
        (.mk [] [] [] [] [] [.mk (str "s") [] [] [] [] [] true true] true true)
        false false [] = str "[s]\n" ∧
    str "[s]\n" ≠ ([] : Str) := by
  constructor
  · rw [iniToConfig, iniSubsUnnamed, iniSubsUnnamed, iniSubsNamed, iniSubsNamed,
      iniToConfig, iniSubsUnnamed, iniSubsNamed]
    simp [CApp.name, CApp.configurable, CApp.invoked, groupsFold, emitGroup, joinStrs, str,
      defaultCfg]
  · decide

/-- C6 amended: when the TOML writer has nothing to serialize (no option
inserts an entry and no subcommand serializes anything), it fails with the
fixed conversion-error guidance (enable default-inclusion or supply
arguments) instead of returning output; the INI-style writer is total (its
embedding returns a string for every input, never an error), and, called
without default synthesis and without descriptions, an option tree with no
values and no configurable invoked named subcommand yields the empty string
— though a configurable invoked named subcommand still emits its header
line. -/
theorem C6_empty_serialization (app : CApp) (d w : Bool) (p : Str) (anc : List Str)
    (cfg : ConfigCfg) (p2 : Str) :
    (nothingToSerialize app d = true → tomlToConfig app d w p = .error tomlEmptyMsg) ∧
    (iniQuiet app = true → iniToConfig anc cfg app false false p2 = []) := by
  constructor
  · intro h
    unfold tomlToConfig
    rw [(getValues_none_iff app d).mpr h]
  · intro h
    exact iniQuiet_output_empty anc cfg app p2 h

/-- Witness for `C6_empty_serialization` at the empty root command: the TOML
writer errors with the guidance text and the INI writer yields the empty
string. -/
theorem C6_empty_serialization_witness :
    tomlToConfig (.mk [] [] [] [] [] [] true true) false false [] = .error tomlEmptyMsg ∧
    iniToConfig [] defaultCfg (.mk [] [] [] [] [] [] true true) false false [] = [] := by
  constructor
  · exact (C6_empty_serialization (.mk [] [] [] [] [] [] true true) false false [] []
      defaultCfg []).1 (by rw [nothingToSerialize, subsNothingToSerialize]; rfl)
  · exact (C6_empty_serialization (.mk [] [] [] [] [] [] true true) false false [] []
      defaultCfg []).2 (by rw [iniQuiet, iniQuietSubs]; rfl)

/-- Characters allowed in a well-formed option or command name: letters,
digits, underscore, dash. -/
def safeChar (c : Char) : Bool := c.isAlphanum || c = '_' || c = '-'

/-- A well-formed option or command name: nonempty, of safe characters, not
the close-marker sentinel, and not the reserved section name `default`. -/
def safeName (n : Str) : Bool :=
  !n.isEmpty && n.all safeChar && n ≠ str "--" && toLowerStr n ≠ str "default"

/-- A well-formed value token: free of newlines, carriage returns, the
comment character, the character-quote character and backslashes; not itself
wrapped in double quotes; and, when it parses as a double (and so is written
bare), without a leading whitespace that the reader would trim away. -/
def safeTok (t : Str) : Bool :=
  t.all (fun c => !(c = '\n' || c = '\r' || c = '#' || c = squote || c = bslash)) &&
  !(decide (2 ≤ t.length) && (t.head? == some '"') && (t.getLast? == some '"')) &&
  (!(parsesDouble t) || !(isSpaceChar (t.headD 'a')))

/-- Characters that may appear in a bare (unquoted) piece of a written
value: anything except whitespace, the array separator, the comment leader,
the quote characters, the array-start character and backslash. -/
def plainChar (c : Char) : Bool :=
  !(isSpaceChar c || c = ',' || c = '#' || c = '"' || c = squote || c = '[' || c = bslash)

/-- A bare piece: nonempty and of plain characters. -/
def bareOk (p : Str) : Bool := !p.isEmpty && p.all plainChar

theorem isSpaceChar_cases {c : Char} (h : isSpaceChar c = true) :
    c = ' ' ∨ c = '\t' ∨ c = '\n' ∨ c = Char.ofNat 11 ∨ c = Char.ofNat 12 ∨ c = '\r' := by
  unfold isSpaceChar at h
  rcases Bool.or_eq_true_iff.mp h with h1 | h6
  rcases Bool.or_eq_true_iff.mp h1 with h1 | h5
  rcases Bool.or_eq_true_iff.mp h1 with h1 | h4
  rcases Bool.or_eq_true_iff.mp h1 with h1 | h3
  rcases Bool.or_eq_true_iff.mp h1 with h1 | h2
  · exact Or.inl (of_decide_eq_true h1)
  · exact Or.inr (Or.inl (of_decide_eq_true h2))
  · exact Or.inr (Or.inr (Or.inl (of_decide_eq_true h3)))
  · exact Or.inr (Or.inr (Or.inr (Or.inl (of_decide_eq_true h4))))
  · exact Or.inr (Or.inr (Or.inr (Or.inr (Or.inl (of_decide_eq_true h5)))))
  · exact Or.inr (Or.inr (Or.inr (Or.inr (Or.inr (of_decide_eq_true h6)))))

theorem plainChar_of_bodyChar {c : Char} (h : bodyChar c = true) : plainChar c = true := by
  have hs : isSpaceChar c = false := by
    cases hx : isSpaceChar c
    · rfl
    · exfalso
      rcases isSpaceChar_cases hx with rfl | rfl | rfl | rfl | rfl | rfl <;> revert h <;> decide
  have hcm : (decide (c = ',')) = false :=
    decide_eq_false (fun hh => by subst hh; exact absurd h (by decide))
  have hhash : (decide (c = '#')) = false :=
    decide_eq_false (fun hh => by subst hh; exact absurd h (by decide))
  have hdq : (decide (c = '"')) = false :=
    decide_eq_false (fun hh => by subst hh; exact absurd h (by decide))
  have hsq : (decide (c = squote)) = false :=
    decide_eq_false (fun hh => by subst hh; exact absurd h (by decide))
  have hbr : (decide (c = '[')) = false :=
    decide_eq_false (fun hh => by subst hh; exact absurd h (by decide))
  have hbs : (decide (c = bslash)) = false :=
    decide_eq_false (fun hh => by subst hh; exact absurd h (by decide))
  unfold plainChar
  rw [hs, hcm, hhash, hdq, hsq, hbr, hbs]
  rfl

theorem plainChar_of_hexD {c : Char} (h : isHexD c = true) : plainChar c = true :=
  plainChar_of_bodyChar (bodyChar_of_hexD h)

theorem bodyChar_of_parsesDouble_noLeadWS {arg : Str} (h : parsesDouble arg = true)
    (hws : arg.dropWhile isSpaceChar = arg) : ∀ c ∈ arg, bodyChar c = true := by
  intro c hc
  unfold parsesDouble at h
  rw [hws] at h
  by_cases hmem : c ∈ dropSign arg
  · rcases Bool.or_eq_true_iff.mp h with h1 | h2
    · rcases Bool.or_eq_true_iff.mp h1 with h3 | h4
      · exact bodyChar_of_decTail h3 c hmem
      · exact bodyChar_of_hexTail h4 c hmem
    · exact bodyChar_of_infNanTail h2 c hmem
  · exact bodyChar_of_sign_part hc hmem

theorem safeTok_not_mem {t : Str} (h : safeTok t = true) :
    squote ∉ t ∧ bslash ∉ t ∧ '\n' ∉ t ∧ '#' ∉ t ∧ '\r' ∉ t := by
  have hall := (Bool.and_eq_true_iff.mp (Bool.and_eq_true_iff.mp h).1).1
  refine ⟨?_, ?_, ?_, ?_, ?_⟩ <;>
    · intro hmem
      have := List.all_eq_true.mp hall _ hmem
      revert this
      decide

theorem remove_quotes_eq_self {t : Str} (h : safeTok t = true) : remove_quotes t = t := by
  unfold remove_quotes
  rw [if_neg]
  rintro ⟨h1, h2, h3⟩
  have hq2 := (Bool.and_eq_true_iff.mp (Bool.and_eq_true_iff.mp h).1).2
  rcases h2 with h2 | h2
  · rw [h2] at h3
    have : (decide (2 ≤ t.length) && (t.head? == some '"') && (t.getLast? == some '"')) =
        true := by
      rw [Bool.and_eq_true_iff, Bool.and_eq_true_iff]
      refine ⟨⟨decide_eq_true (by omega), ?_⟩, ?_⟩
      · rw [h2]
        rfl
      · rw [← h3]
        rfl
    rw [this] at hq2
    cases hq2
  · have : squote ∈ t := by
      cases t with
      | nil => cases h2
      | cons a r =>
        have ha : a = squote := by simpa using h2
        rw [ha]
        exact List.mem_cons_self _ _
    exact absurd this (safeTok_not_mem h).1

theorem plainChar_of_range07 {x : Char} (h1 : decide ('0' ≤ x) = true)
    (h2 : decide (x ≤ '7') = true) : plainChar x = true := by
  have hs : isSpaceChar x = false := by
    cases hy : isSpaceChar x
    · rfl
    · exfalso
      rcases isSpaceChar_cases hy with rfl | rfl | rfl | rfl | rfl | rfl <;>
        exact absurd h1 (by decide)
  unfold plainChar
  have hcm : (decide (x = ',')) = false :=
    decide_eq_false (fun hh => by subst hh; exact absurd h1 (by decide))
  have hhash : (decide (x = '#')) = false :=
    decide_eq_false (fun hh => by subst hh; exact absurd h1 (by decide))
  have hdq : (decide (x = '"')) = false :=
    decide_eq_false (fun hh => by subst hh; exact absurd h1 (by decide))
  have hsq : (decide (x = squote)) = false :=
    decide_eq_false (fun hh => by subst hh; exact absurd h1 (by decide))
  have hbr : (decide (x = '[')) = false :=
    decide_eq_false (fun hh => by subst hh; exact absurd h2 (by decide))
  have hbs : (decide (x = bslash)) = false :=
    decide_eq_false (fun hh => by subst hh; exact absurd h2 (by decide))
  rw [hs, hcm, hhash, hdq, hsq, hbr, hbs]
  rfl

theorem hexOctBin_bareOk {t : Str} (h : hexOctBin t = true) : bareOk t = true := by
  cases t with
  | nil => exact absurd h (by simp [hexOctBin])
  | cons a s1 =>
    cases s1 with
    | nil => exact absurd h (by simp [hexOctBin])
    | cons b rest =>
      unfold hexOctBin at h
      have ha := of_decide_eq_true (Bool.and_eq_true_iff.mp h).1
      have hb := (Bool.and_eq_true_iff.mp h).2
      subst ha
      unfold bareOk
      rw [Bool.and_eq_true_iff]
      refine ⟨rfl, ?_⟩
      rw [List.all_cons, List.all_cons]
      rw [Bool.and_eq_true_iff, Bool.and_eq_true_iff]
      by_cases hbx : b = 'x'
      · subst hbx
        rw [if_pos rfl] at hb
        refine ⟨by decide, by decide, ?_⟩
        exact List.all_eq_true.mpr (fun x hx =>
          plainChar_of_hexD (List.all_eq_true.mp hb x hx))
      · rw [if_neg hbx] at hb
        by_cases hbo : b = 'o'
        · subst hbo
          rw [if_pos rfl] at hb
          refine ⟨by decide, by decide, ?_⟩
          refine List.all_eq_true.mpr (fun x hx => ?_)
          have h07 := Bool.and_eq_true_iff.mp (List.all_eq_true.mp hb x hx)
          exact plainChar_of_range07 h07.1 h07.2
        · rw [if_neg hbo] at hb
          by_cases hbb : b = 'b'
          · subst hbb
            rw [if_pos rfl] at hb
            refine ⟨by decide, by decide, ?_⟩
            refine List.all_eq_true.mpr (fun x hx => ?_)
            rcases Bool.or_eq_true_iff.mp (List.all_eq_true.mp hb x hx) with h0 | h1
            · rw [of_decide_eq_true h0]
              decide
            · rw [of_decide_eq_true h1]
              decide
          · rw [if_neg hbb] at hb
            cases hb

/-- Shape of a safely written token: either it is emitted bare (and is a
plain nonempty piece), or it is wrapped in one of the two quote characters
that does not occur inside it. -/
theorem convert_shape {t : Str} (h : safeTok t = true) :
    (convert_arg_for_ini t '"' squote = t ∧ bareOk t = true) ∨
    ((convert_arg_for_ini t '"' squote = '"' :: (t ++ ['"']) ∧ t.contains '"' = false) ∨
     (convert_arg_for_ini t '"' squote = squote :: (t ++ [squote]) ∧
       t.contains squote = false)) := by
  have hnosq : t.contains squote = false := by
    cases hx : t.contains squote
    · rfl
    · obtain ⟨a, ha, hbeq⟩ := List.contains_iff_exists_mem_beq.mp hx
      rw [← eq_of_beq hbeq] at ha
      exact absurd ha (safeTok_not_mem h).1
  unfold convert_arg_for_ini
  by_cases he : t.isEmpty = true
  · rw [if_pos he]
    obtain rfl : t = [] := List.isEmpty_iff.mp he
    exact Or.inr (Or.inl ⟨rfl, rfl⟩)
  · rw [if_neg he]
    by_cases hk : (t == str "true" || t == str "false" || t == str "nan" || t == str "inf") =
        true
    · rw [if_pos hk]
      refine Or.inl ⟨rfl, ?_⟩
      rcases Bool.or_eq_true_iff.mp hk with hk1 | hk4
      rcases Bool.or_eq_true_iff.mp hk1 with hk1 | hk3
      rcases Bool.or_eq_true_iff.mp hk1 with hk1 | hk2
      · rw [eq_of_beq hk1]; decide
      · rw [eq_of_beq hk2]; decide
      · rw [eq_of_beq hk3]; decide
      · rw [eq_of_beq hk4]; decide
    · rw [if_neg hk]
      by_cases hdb : (!(str "0x").isPrefixOf t && !(str "0X").isPrefixOf t && parsesDouble t) =
          true
      · rw [if_pos hdb]
        refine Or.inl ⟨rfl, ?_⟩
        have hpd := (Bool.and_eq_true_iff.mp hdb).2
        have hnws := (Bool.and_eq_true_iff.mp h).2
        rw [hpd] at hnws
        simp only [Bool.not_true, Bool.false_or] at hnws
        unfold bareOk
        rw [Bool.and_eq_true_iff]
        refine ⟨by
          cases hx : t.isEmpty
          · rfl
          · exact absurd hx (by rw [Bool.not_eq_true] at he; rw [he]; exact Bool.false_ne_true), ?_⟩
        have hdw : t.dropWhile isSpaceChar = t := by
          cases t with
          | nil => rfl
          | cons a r =>
            rw [List.dropWhile_cons]
            rw [show (List.headD (a :: r) 'a') = a from rfl] at hnws
            rw [Bool.not_eq_true'] at hnws
            rw [hnws]
            simp
        exact List.all_eq_true.mpr (fun c hc =>
          plainChar_of_bodyChar (bodyChar_of_parsesDouble_noLeadWS hpd hdw c hc))
      · rw [if_neg hdb]
        by_cases hlen : t.length = 1
        · rw [if_pos hlen]
          exact Or.inr (Or.inr ⟨rfl, hnosq⟩)
        · rw [if_neg hlen]
          by_cases hob : hexOctBin t = true
          · rw [if_pos hob]
            exact Or.inl ⟨rfl, hexOctBin_bareOk hob⟩
          · rw [if_neg hob]
            by_cases hdq : t.contains '"' = true
            · rw [if_neg (by rw [hdq]; exact fun hh => by cases hh)]
              exact Or.inr (Or.inr ⟨rfl, hnosq⟩)
            · have hdq2 : t.contains '"' = false := by
                cases hx : t.contains '"'
                · rfl
                · exact absurd hx hdq
              rw [if_pos (by rw [hdq2]; rfl)]
              exact Or.inr (Or.inl ⟨rfl, hdq2⟩)

theorem dropWhile_eq_self_of_head {p : Char → Bool} {s : Str}
    (h : ∀ c, s.head? = some c → p c = false) : s.dropWhile p = s := by
  cases s with
  | nil => rfl
  | cons a t =>
    rw [List.dropWhile_cons, h a rfl]
    simp

theorem trimStr_eq_self {s : Str}
    (hh : ∀ c, s.head? = some c → isSpaceChar c = false)
    (hl : ∀ c, s.getLast? = some c → isSpaceChar c = false) : trimStr s = s := by
  unfold trimStr
  rw [dropWhile_eq_self_of_head hh]
  rw [dropWhile_eq_self_of_head (by
    intro c hc
    rw [List.head?_reverse] at hc
    exact hl c hc)]
  exact List.reverse_reverse s

theorem breakAtChar_of_not_mem {c : Char} {l : Str} (h : c ∉ l) : breakAtChar c l = none := by
  induction l with
  | nil => rfl
  | cons a t ih =>
    rw [breakAtChar]
    rw [if_neg (fun hh => h (by rw [← hh]; exact List.mem_cons_self a t))]
    rw [ih (fun hh => h (List.mem_cons_of_mem a hh))]
    rfl

theorem breakAtChar_append {c : Char} {a b : Str} (h : c ∉ a) :
    breakAtChar c (a ++ c :: b) = some (a, b) := by
  induction a with
  | nil => simp [breakAtChar]
  | cons x t ih =>
    rw [List.cons_append, breakAtChar]
    rw [if_neg (fun hh => h (by rw [← hh]; exact List.mem_cons_self x t))]
    rw [ih (fun hh => h (List.mem_cons_of_mem x hh))]
    rfl

theorem findCloseQuote_append {q prev : Char} {content rest : Str}
    (hq : q ∉ content) (hbs : bslash ∉ content) (hprev : prev ≠ bslash) :
    findCloseQuote q prev (content ++ q :: rest) = some (content, rest) := by
  induction content generalizing prev with
  | nil =>
    rw [List.nil_append, findCloseQuote]
    rw [if_pos ⟨rfl, hprev⟩]
  | cons a t ih =>
    rw [List.cons_append, findCloseQuote]
    rw [if_neg (by
      rintro ⟨h1, _⟩
      exact hq (h1 ▸ List.mem_cons_self a t))]
    rw [ih (fun hh => hq (List.mem_cons_of_mem a hh))
        (fun hh => hbs (List.mem_cons_of_mem a hh))
        (fun hh => hbs (hh ▸ List.mem_cons_self a t))]
    rfl

theorem contains_eq_false_of_not_mem {c : Char} {l : Str} (h : c ∉ l) :
    l.contains c = false := by
  cases hx : l.contains c
  · rfl
  · obtain ⟨a, ha, hbeq⟩ := List.contains_iff_exists_mem_beq.mp hx
    rw [← eq_of_beq hbeq] at ha
    exact absurd ha h

theorem not_mem_of_all_plainChar {c : Char} {l : Str} (hall : l.all plainChar = true)
    (hc : plainChar c = false) : c ∉ l := fun hmem => by
  have := List.all_eq_true.mp hall c hmem
  rw [this] at hc
  cases hc

theorem takeWhile_eq_self_of_all {p : Char → Bool} {l : Str}
    (h : ∀ c ∈ l, p c = true) : l.takeWhile p = l := by
  induction l with
  | nil => rfl
  | cons a t ih =>
    rw [List.takeWhile_cons, h a (List.mem_cons_self a t)]
    rw [ih (fun c hc => h c (List.mem_cons_of_mem a hc))]
    simp

theorem dropWhile_eq_nil_of_all {p : Char → Bool} {l : Str}
    (h : ∀ c ∈ l, p c = true) : l.dropWhile p = [] := by
  induction l with
  | nil => rfl
  | cons a t ih =>
    rw [List.dropWhile_cons, h a (List.mem_cons_self a t)]
    simp only [if_true]
    exact ih (fun c hc => h c (List.mem_cons_of_mem a hc))

theorem takeWhile_append_stop {p : Char → Bool} {a : Str} {b : Char} {c : Str}
    (ha : ∀ x ∈ a, p x = true) (hb : p b = false) :
    (a ++ b :: c).takeWhile p = a := by
  induction a with
  | nil =>
    rw [List.nil_append, List.takeWhile_cons, hb]
    simp
  | cons x t ih =>
    rw [List.cons_append, List.takeWhile_cons, ha x (List.mem_cons_self x t)]
    rw [ih (fun y hy => ha y (List.mem_cons_of_mem x hy))]
    simp

theorem dropWhile_append_stop {p : Char → Bool} {a : Str} {b : Char} {c : Str}
    (ha : ∀ x ∈ a, p x = true) (hb : p b = false) :
    (a ++ b :: c).dropWhile p = b :: c := by
  induction a with
  | nil =>
    rw [List.nil_append, List.dropWhile_cons, hb]
    simp
  | cons x t ih =>
    rw [List.cons_append, List.dropWhile_cons, ha x (List.mem_cons_self x t)]
    simp only [if_true]
    exact ih (fun y hy => ha y (List.mem_cons_of_mem x hy))

theorem getLast?_append_right {a b : Str} (hb : b ≠ []) :
    (a ++ b).getLast? = b.getLast? := by
  rw [← List.head?_reverse, ← List.head?_reverse]
  rw [List.reverse_append]
  cases hbr : b.reverse with
  | nil => exact absurd (List.reverse_eq_nil_iff.mp hbr) hb
  | cons x t => rw [List.cons_append]; rfl

/-- The written piece for one token. -/
def pieceFor (t : Str) : Str := convert_arg_for_ini t '"' squote

theorem pieceFor_ne_nil {t : Str} (h : safeTok t = true) : pieceFor t ≠ [] := by
  rcases convert_shape h with ⟨hc, hb⟩ | ⟨hc, _⟩ | ⟨hc, _⟩ <;> rw [pieceFor, hc]
  · intro hnil
    rw [hnil] at hb
    cases (Bool.and_eq_true_iff.mp hb).1
  · exact List.cons_ne_nil _ _
  · exact List.cons_ne_nil _ _

theorem plainChar_split {c : Char} (h : plainChar c = true) :
    isSpaceChar c = false ∧ c ≠ ',' ∧ c ≠ '#' ∧ c ≠ '"' ∧ c ≠ squote ∧ c ≠ '[' ∧
      c ≠ bslash := by
  unfold plainChar at h
  rw [Bool.not_eq_true'] at h
  rw [Bool.or_eq_false_iff, Bool.or_eq_false_iff, Bool.or_eq_false_iff, Bool.or_eq_false_iff,
    Bool.or_eq_false_iff, Bool.or_eq_false_iff] at h
  exact ⟨h.1.1.1.1.1.1, of_decide_eq_false h.1.1.1.1.1.2, of_decide_eq_false h.1.1.1.1.2,
    of_decide_eq_false h.1.1.1.2, of_decide_eq_false h.1.1.2, of_decide_eq_false h.1.2,
    of_decide_eq_false h.2⟩

theorem joinStrs_cons_head {p : Str} {ps : List Str} {sep : Str} (hp : p ≠ []) :
    (joinStrs (p :: ps) sep).head? = p.head? := by
  cases ps with
  | nil => rfl
  | cons y t =>
    rw [joinStrs]
    cases p with
    | nil => exact absurd rfl hp
    | cons a r => rw [List.cons_append, List.cons_append]; rfl

theorem joinStrs_cons_ne_nil {p : Str} {ps : List Str} {sep : Str} (hp : p ≠ []) :
    joinStrs (p :: ps) sep ≠ [] := by
  intro hh
  have := @joinStrs_cons_head p ps sep hp
  rw [hh] at this
  cases p with
  | nil => exact hp rfl
  | cons a r => cases this

theorem joinStrs_last {ps : List Str} {sep : Str} (hall : ∀ p ∈ ps, p ≠ []) (hne : ps ≠ []) :
    ∃ plast ∈ ps, (joinStrs ps sep).getLast? = plast.getLast? := by
  induction ps with
  | nil => exact absurd rfl hne
  | cons x t ih =>
    cases t with
    | nil => exact ⟨x, List.mem_cons_self x [], rfl⟩
    | cons y t2 =>
      obtain ⟨pl, hpl, heq⟩ := ih (fun p hp => hall p (List.mem_cons_of_mem x hp))
        (List.cons_ne_nil y t2)
      refine ⟨pl, List.mem_cons_of_mem x hpl, ?_⟩
      rw [joinStrs, List.append_assoc]
      rw [getLast?_append_right (by
        intro hh
        rcases List.append_eq_nil.mp hh with ⟨_, h2⟩
        exact joinStrs_cons_ne_nil (hall y (List.mem_cons_of_mem x (List.mem_cons_self y t2))) h2)]
      rw [getLast?_append_right (joinStrs_cons_ne_nil
        (hall y (List.mem_cons_of_mem x (List.mem_cons_self y t2))))]
      exact heq

theorem pieceFor_head_facts {t : Str} (h : safeTok t = true) :
    ∃ c, (pieceFor t).head? = some c ∧ isSpaceChar c = false ∧ c ≠ ',' ∧ c ≠ '[' := by
  rcases convert_shape h with ⟨hc, hb⟩ | ⟨hc, _⟩ | ⟨hc, _⟩ <;> rw [pieceFor, hc]
  · obtain ⟨hne, hall⟩ := Bool.and_eq_true_iff.mp hb
    cases t with
    | nil => cases hne
    | cons a r =>
      obtain ⟨hws, hcm, _, _, _, hbr, _⟩ :=
        plainChar_split (List.all_eq_true.mp hall a (List.mem_cons_self a r))
      exact ⟨a, rfl, hws, hcm, hbr⟩
  · exact ⟨'"', rfl, by decide, by decide, by decide⟩
  · exact ⟨squote, rfl, by decide, by decide, by decide⟩

theorem pieceFor_last_facts {t : Str} (h : safeTok t = true) :
    ∃ c, (pieceFor t).getLast? = some c ∧ isSpaceChar c = false := by
  rcases convert_shape h with ⟨hc, hb⟩ | ⟨hc, _⟩ | ⟨hc, _⟩ <;> rw [pieceFor, hc]
  · obtain ⟨hne, hall⟩ := Bool.and_eq_true_iff.mp hb
    cases ht : t.getLast? with
    | none =>
      rw [List.getLast?_eq_none_iff] at ht
      rw [ht] at hne
      cases hne
    | some c =>
      have hrev : t.reverse.head? = some c := by rw [List.head?_reverse]; exact ht
      have hmem : c ∈ t := by
        cases hr : t.reverse with
        | nil => rw [hr] at hrev; cases hrev
        | cons x r =>
          rw [hr] at hrev
          cases hrev
          rw [← List.mem_reverse, hr]
          exact List.mem_cons_self _ _
      exact ⟨c, rfl, (plainChar_split (List.all_eq_true.mp hall c hmem)).1⟩
  · refine ⟨'"', ?_, by decide⟩
    rw [← List.cons_append, getLast?_append_right (List.cons_ne_nil _ _)]
    rfl
  · refine ⟨squote, ?_, by decide⟩
    rw [← List.cons_append, getLast?_append_right (List.cons_ne_nil _ _)]
    rfl

theorem interior_head_facts {toks : List Str} (hne : toks ≠ [])
    (hsafe : ∀ t ∈ toks, safeTok t = true) :
    ∃ c, (joinStrs (toks.map pieceFor) (str ", ")).head? = some c ∧ isSpaceChar c = false := by
  cases toks with
  | nil => exact absurd rfl hne
  | cons t ts =>
    obtain ⟨c, hc, hws, _, _⟩ := pieceFor_head_facts (hsafe t (List.mem_cons_self t ts))
    refine ⟨c, ?_, hws⟩
    rw [List.map_cons, joinStrs_cons_head (pieceFor_ne_nil (hsafe t (List.mem_cons_self t ts)))]
    exact hc

theorem interior_last_facts {toks : List Str} (hne : toks ≠ [])
    (hsafe : ∀ t ∈ toks, safeTok t = true) :
    ∃ c, (joinStrs (toks.map pieceFor) (str ", ")).getLast? = some c ∧
      isSpaceChar c = false := by
  obtain ⟨pl, hpl, heq⟩ := @joinStrs_last (toks.map pieceFor) (str ", ")
    (by
      intro p hp
      obtain ⟨t, ht, rfl⟩ := List.mem_map.mp hp
      exact pieceFor_ne_nil (hsafe t ht))
    (by
      intro hh
      rw [List.map_eq_nil_iff] at hh
      exact hne hh)
  obtain ⟨t, ht, rfl⟩ := List.mem_map.mp hpl
  obtain ⟨c, hc, hws⟩ := pieceFor_last_facts (hsafe t ht)
  exact ⟨c, heq ▸ hc, hws⟩

theorem trimStr_space_cons {tt : Str}
    (hh : ∀ c, tt.head? = some c → isSpaceChar c = false)
    (hl : ∀ c, tt.getLast? = some c → isSpaceChar c = false) :
    trimStr (' ' :: tt) = tt := by
  unfold trimStr
  rw [List.dropWhile_cons]
  rw [show isSpaceChar ' ' = true from rfl]
  simp only [if_true]
  rw [dropWhile_eq_self_of_head hh]
  rw [dropWhile_eq_self_of_head (by
    intro c hc
    rw [List.head?_reverse] at hc
    exact hl c hc)]
  exact List.reverse_reverse tt

/-- A section marker record: the open (`++`) and close (`--`) sentinels. -/
def isMarker (r : ConfigItem) : Bool := r.name == str "++" || r.name == str "--"

/-- The value text written for a token list under the default format knobs
(`ini_join` at the `ConfigBase` defaults). -/
def iniValue (toks : List Str) : Str := ini_join toks ',' '[' ']' '"' squote

/-- The names of the options that emit a value line: configurable with a
nonempty reduced result list. -/
def emittedNames (opts : List COption) : List Str :=
  (opts.filter (fun o => o.configurable && !o.reduced_results.isEmpty)).map
    (fun o => o.single_name)

/-- Pairwise distinctness of a list of strings, by executable recursion. -/
def nodupStrs : List Str → Bool
  | [] => true
  | x :: t => !t.contains x && nodupStrs t

/-- The parent chain the reader resolves for a plain key under a section
(`generate_parents` with an empty name). -/
def secParents (sec : Str) : List Str := (generate_parents sec [] '.').1

/-- Join lines into stream text, one newline after each line. -/
def joinNL (ls : List Str) : Str := ls.flatMap (fun l => l ++ ['\n'])

theorem joinNL_cons {l : Str} {ls : List Str} :
    joinNL (l :: ls) = l ++ '\n' :: joinNL ls := by
  rw [joinNL, List.flatMap_cons, List.append_assoc]
  rfl

theorem joinNL_append {a b : List Str} : joinNL (a ++ b) = joinNL a ++ joinNL b :=
  List.flatMap_append a b (fun l => l ++ ['\n'])

theorem splitLines_line {l s : Str} (h : '\n' ∉ l) :
    splitLines (l ++ '\n' :: s) = l :: splitLines s := by
  induction l with
  | nil =>
    rw [List.nil_append, splitLines]
    rw [if_pos rfl]
  | cons c t ih =>
    rw [List.cons_append, splitLines]
    rw [if_neg (fun hh => h (by rw [← hh]; exact List.mem_cons_self c t))]
    rw [ih (fun hh => h (List.mem_cons_of_mem c hh))]

theorem splitLines_joinNL {ls : List Str} (h : ∀ l ∈ ls, '\n' ∉ l) :
    splitLines (joinNL ls) = ls := by
  induction ls with
  | nil => rfl
  | cons l rest ih =>
    rw [joinNL_cons, splitLines_line (h l (List.mem_cons_self l rest))]
    rw [ih (fun x hx => h x (List.mem_cons_of_mem l hx))]

theorem safeChar_facts {c : Char} (h : safeChar c = true) :
    isSpaceChar c = false ∧ c ≠ '[' ∧ c ≠ ']' ∧ c ≠ '=' ∧ c ≠ '#' ∧ c ≠ ';' ∧
      c ≠ '.' ∧ c ≠ '"' ∧ c ≠ squote ∧ c ≠ ',' ∧ c ≠ bslash ∧ c ≠ '+' := by
  unfold safeChar at h
  rcases Bool.or_eq_true_iff.mp h with h1 | hd
  rcases Bool.or_eq_true_iff.mp h1 with ha | hu
  · refine ⟨?_, ?_, ?_, ?_, ?_, ?_, ?_, ?_, ?_, ?_, ?_, ?_⟩
    · cases hx : isSpaceChar c
      · rfl
      · exfalso
        rcases isSpaceChar_cases hx with rfl | rfl | rfl | rfl | rfl | rfl <;>
          exact absurd ha (by decide)
    all_goals exact fun hh => by subst hh; exact absurd ha (by decide)
  · obtain rfl := of_decide_eq_true hu
    exact ⟨by decide, by decide, by decide, by decide, by decide, by decide, by decide,
      by decide, by decide, by decide, by decide, by decide⟩
  · obtain rfl := of_decide_eq_true hd
    exact ⟨by decide, by decide, by decide, by decide, by decide, by decide, by decide,
      by decide, by decide, by decide, by decide, by decide⟩

theorem safeName_parts {n : Str} (h : safeName n = true) :
    n ≠ [] ∧ (∀ c ∈ n, safeChar c = true) ∧ n ≠ str "--" ∧ toLowerStr n ≠ str "default" := by
  unfold safeName at h
  rw [Bool.and_eq_true_iff, Bool.and_eq_true_iff, Bool.and_eq_true_iff] at h
  refine ⟨?_, List.all_eq_true.mp h.1.1.2, of_decide_eq_true h.1.2, of_decide_eq_true h.2⟩
  intro hn
  rw [hn] at h
  cases h.1.1.1

theorem safeName_ne_markers {n : Str} (h : safeName n = true) :
    n ≠ str "++" ∧ n ≠ str "--" := by
  obtain ⟨_, hall, hdash, _⟩ := safeName_parts h
  refine ⟨?_, hdash⟩
  intro hn
  have := hall '+' (by rw [hn]; exact List.mem_cons_self _ _)
  exact absurd this (by decide)

theorem remove_quotes_of_safeName {n : Str} (h : safeName n = true) :
    remove_quotes n = n := by
  obtain ⟨hne, hall, _, _⟩ := safeName_parts h
  unfold remove_quotes
  rw [if_neg]
  rintro ⟨_, h2, _⟩
  cases n with
  | nil => exact hne rfl
  | cons a t =>
    have ha := safeChar_facts (hall a (List.mem_cons_self a t))
    rcases h2 with h2 | h2
    · exact ha.2.2.2.2.2.2.2.1 (Option.some.inj h2)
    · exact ha.2.2.2.2.2.2.2.2.1 (Option.some.inj h2)

theorem trimStr_of_safeName {n : Str} (h : safeName n = true) : trimStr n = n := by
  obtain ⟨hne, hall, _, _⟩ := safeName_parts h
  refine trimStr_eq_self ?_ ?_
  · intro c hc
    cases n with
    | nil => cases hc
    | cons a t =>
      exact (safeChar_facts (hall c (by
        rw [← Option.some.inj hc]
        exact List.mem_cons_self a t))).1
  · intro c hc
    have hrev : n.reverse.head? = some c := by rw [List.head?_reverse]; exact hc
    cases hr : n.reverse with
    | nil => rw [hr] at hrev; cases hrev
    | cons x r =>
      rw [hr] at hrev
      cases hrev
      have : c ∈ n := by
        rw [← List.mem_reverse, hr]
        exact List.mem_cons_self _ _
      exact (safeChar_facts (hall c this)).1

theorem map_eq_self_of_mem {f : Str → Str} {l : List Str} (h : ∀ x ∈ l, f x = x) :
    l.map f = l := by
  induction l with
  | nil => rfl
  | cons a t ih =>
    rw [List.map_cons, h a (List.mem_cons_self a t),
      ih (fun x hx => h x (List.mem_cons_of_mem a hx))]

theorem contains_eq_true_of_mem {c : Char} {l : Str} (h : c ∈ l) : l.contains c = true :=
  List.contains_iff_exists_mem_beq.mpr ⟨c, h, beq_self_eq_true c⟩

theorem containsStrs_eq_true_of_mem {x : Str} {l : List Str} (h : x ∈ l) :
    l.contains x = true :=
  List.contains_iff_exists_mem_beq.mpr ⟨x, h, beq_self_eq_true x⟩

theorem nodupStrs_parts {x : Str} {t : List Str} (h : nodupStrs (x :: t) = true) :
    x ∉ t ∧ nodupStrs t = true := by
  rw [nodupStrs, Bool.and_eq_true_iff] at h
  refine ⟨?_, h.2⟩
  intro hmem
  have := h.1
  rw [containsStrs_eq_true_of_mem hmem] at this
  cases this

theorem not_mem_of_contains_eq_false {c : Char} {l : Str} (h : l.contains c = false) :
    c ∉ l := fun hm => by
  rw [contains_eq_true_of_mem hm] at h
  cases h

theorem split_upGo_nil {fuel : Nat} {d : Char} : split_upGo fuel [] d = [] := by
  cases fuel <;> rfl

theorem toks_length_le_interior {toks : List Str} (hsafe : ∀ t ∈ toks, safeTok t = true) :
    toks.length ≤ (joinStrs (toks.map pieceFor) (str ", ")).length := by
  induction toks with
  | nil => exact Nat.zero_le _
  | cons t rest ih =>
    cases rest with
    | nil =>
      rw [List.map_cons, List.map_nil]
      have := List.length_pos.mpr (pieceFor_ne_nil (hsafe t (List.mem_cons_self t [])))
      rw [show joinStrs [pieceFor t] (str ", ") = pieceFor t from rfl]
      simp only [List.length_cons, List.length_nil]
      omega
    | cons r rs =>
      rw [List.map_cons, List.map_cons, joinStrs]
      have h1 := List.length_pos.mpr (pieceFor_ne_nil (hsafe t (List.mem_cons_self t _)))
      have h2 := ih (fun x hx => hsafe x (List.mem_cons_of_mem t hx))
      rw [List.map_cons] at h2
      rw [List.length_append, List.length_append,
        show List.length (str ", ") = 2 from rfl]
      simp only [List.length_cons] at h2 ⊢
      omega

theorem plainChar_ne_comma_beq {x : Char} (h : plainChar x = true) :
    (!(x == ',')) = true := by
  rw [beq_eq_false_iff_ne.mpr (plainChar_split h).2.1]
  rfl

theorem split_upGo_pieces (toks : List Str) (fuel : Nat) (hne : toks ≠ [])
    (hsafe : ∀ t ∈ toks, safeTok t = true) (hfuel : toks.length ≤ fuel) :
    split_upGo fuel (joinStrs (toks.map pieceFor) (str ", ")) ',' = toks := by
  induction toks generalizing fuel with
  | nil => exact absurd rfl hne
  | cons t rest ih =>
    cases fuel with
    | zero => exact absurd hfuel (by rw [List.length_cons]; omega)
    | succ f =>
      have hst := hsafe t (List.mem_cons_self t rest)
      have hsr : ∀ x ∈ rest, safeTok x = true :=
        fun x hx => hsafe x (List.mem_cons_of_mem t hx)
      have hrfuel : rest.length ≤ f := by
        rw [List.length_cons] at hfuel
        omega
      rcases convert_shape hst with ⟨hc, hb⟩ | ⟨hc, hq⟩ | ⟨hc, hq⟩
      · -- bare piece
        obtain ⟨hne2, hall⟩ := Bool.and_eq_true_iff.mp hb
        have hplain := List.all_eq_true.mp hall
        have hbne : t ≠ [] := by
          intro hh
          rw [hh] at hne2
          cases hne2
        obtain ⟨a, t2, rfl⟩ := List.exists_cons_of_ne_nil hbne
        have hahead := plainChar_split (hplain a (List.mem_cons_self a t2))
        cases rest with
        | nil =>
          rw [List.map_cons, List.map_nil,
            show joinStrs [pieceFor (a :: t2)] (str ", ") = pieceFor (a :: t2) from rfl,
            pieceFor, hc]
          rw [split_upGo]
          rw [if_neg (by
            rintro (rfl | rfl)
            · exact hahead.2.2.2.1 rfl
            · exact hahead.2.2.2.2.1 rfl)]
          simp only [if_neg (show ¬(',' : Char) = Char.ofNat 0 by decide)]
          rw [takeWhile_eq_self_of_all (fun x hx => plainChar_ne_comma_beq (hplain x hx))]
          rw [dropWhile_eq_nil_of_all (fun x hx => plainChar_ne_comma_beq (hplain x hx))]
        | cons r rs =>
          rw [List.map_cons, List.map_cons, joinStrs, pieceFor, hc]
          rw [show str ", " = [',', ' '] from rfl, List.append_assoc]
          rw [show ((a :: t2 : Str) ++ ([',', ' '] ++
              joinStrs (pieceFor r :: List.map pieceFor rs) [',', ' ']))
            = a :: (t2 ++ ([',', ' '] ++
              joinStrs (pieceFor r :: List.map pieceFor rs) [',', ' '])) from rfl]
          rw [split_upGo]
          rw [if_neg (by
            rintro (rfl | rfl)
            · exact hahead.2.2.2.1 rfl
            · exact hahead.2.2.2.2.1 rfl)]
          simp only [if_neg (show ¬(',' : Char) = Char.ofNat 0 by decide)]
          rw [← List.cons_append]
          rw [show ([',', ' '] ++ joinStrs (pieceFor r :: List.map pieceFor rs) [',', ' '])
            = ',' :: (' ' :: joinStrs (pieceFor r :: List.map pieceFor rs) [',', ' '])
            from rfl]
          rw [takeWhile_append_stop (fun x hx => plainChar_ne_comma_beq (hplain x hx))
            (by decide)]
          rw [dropWhile_append_stop (fun x hx => plainChar_ne_comma_beq (hplain x hx))
            (by decide)]
          dsimp only
          obtain ⟨ch, hch, hchws⟩ := interior_head_facts (List.cons_ne_nil r rs) hsr
          obtain ⟨cl, hcl, hclws⟩ := interior_last_facts (List.cons_ne_nil r rs) hsr
          rw [List.map_cons, show str ", " = [',', ' '] from rfl] at hch hcl
          rw [trimStr_space_cons
            (fun c0 h0 => by rw [h0] at hch; cases hch; exact hchws)
            (fun c0 h0 => by rw [h0] at hcl; cases hcl; exact hclws)]
          have := ih f (List.cons_ne_nil r rs) hsr hrfuel
          rw [List.map_cons, show str ", " = [',', ' '] from rfl] at this
          rw [this]
      · -- double-quoted piece
        have hnm : ('"' : Char) ∉ t := not_mem_of_contains_eq_false hq
        have hbs : bslash ∉ t := (safeTok_not_mem hst).2.1
        cases rest with
        | nil =>
          rw [List.map_cons, List.map_nil,
            show joinStrs [pieceFor t] (str ", ") = pieceFor t from rfl, pieceFor, hc]
          rw [split_upGo]
          rw [if_pos (Or.inl rfl)]
          rw [findCloseQuote_append hnm hbs (by decide)]
          dsimp only
          rw [hq]
          rw [if_neg Bool.false_ne_true]
          rw [show ([] : Str).drop 1 = [] from rfl,
            show trimStr [] = [] from rfl, split_upGo_nil]
        | cons r rs =>
          rw [List.map_cons, List.map_cons, joinStrs, pieceFor, hc]
          rw [show str ", " = [',', ' '] from rfl]
          rw [List.append_assoc, List.cons_append, List.append_assoc]
          rw [List.singleton_append]
          rw [split_upGo]
          rw [if_pos (Or.inl rfl)]
          rw [findCloseQuote_append hnm hbs (by decide)]
          dsimp only
          rw [hq]
          rw [if_neg Bool.false_ne_true]
          rw [show (([',', ' '] ++
              joinStrs (pieceFor r :: List.map pieceFor rs) [',', ' ']).drop 1)
            = ' ' :: joinStrs (pieceFor r :: List.map pieceFor rs) [',', ' '] from rfl]
          obtain ⟨ch, hch, hchws⟩ := interior_head_facts (List.cons_ne_nil r rs) hsr
          obtain ⟨cl, hcl, hclws⟩ := interior_last_facts (List.cons_ne_nil r rs) hsr
          rw [List.map_cons, show str ", " = [',', ' '] from rfl] at hch hcl
          rw [trimStr_space_cons
            (fun c0 h0 => by rw [h0] at hch; cases hch; exact hchws)
            (fun c0 h0 => by rw [h0] at hcl; cases hcl; exact hclws)]
          have := ih f (List.cons_ne_nil r rs) hsr hrfuel
          rw [List.map_cons, show str ", " = [',', ' '] from rfl] at this
          rw [this]
      · -- character-quoted piece
        have hnm : squote ∉ t := not_mem_of_contains_eq_false hq
        have hbs : bslash ∉ t := (safeTok_not_mem hst).2.1
        cases rest with
        | nil =>
          rw [List.map_cons, List.map_nil,
            show joinStrs [pieceFor t] (str ", ") = pieceFor t from rfl, pieceFor, hc]
          rw [split_upGo]
          rw [if_pos (Or.inr rfl)]
          rw [findCloseQuote_append hnm hbs (by decide)]
          dsimp only
          rw [hq]
          rw [if_neg Bool.false_ne_true]
          rw [show ([] : Str).drop 1 = [] from rfl,
            show trimStr [] = [] from rfl, split_upGo_nil]
        | cons r rs =>
          rw [List.map_cons, List.map_cons, joinStrs, pieceFor, hc]
          rw [show str ", " = [',', ' '] from rfl]
          rw [List.append_assoc, List.cons_append, List.append_assoc]
          rw [List.singleton_append]
          rw [split_upGo]
          rw [if_pos (Or.inr rfl)]
          rw [findCloseQuote_append hnm hbs (by decide)]
          dsimp only
          rw [hq]
          rw [if_neg Bool.false_ne_true]
          rw [show (([',', ' '] ++
              joinStrs (pieceFor r :: List.map pieceFor rs) [',', ' ']).drop 1)
            = ' ' :: joinStrs (pieceFor r :: List.map pieceFor rs) [',', ' '] from rfl]
          obtain ⟨ch, hch, hchws⟩ := interior_head_facts (List.cons_ne_nil r rs) hsr
          obtain ⟨cl, hcl, hclws⟩ := interior_last_facts (List.cons_ne_nil r rs) hsr
          rw [List.map_cons, show str ", " = [',', ' '] from rfl] at hch hcl
          rw [trimStr_space_cons
            (fun c0 h0 => by rw [h0] at hch; cases hch; exact hchws)
            (fun c0 h0 => by rw [h0] at hcl; cases hcl; exact hclws)]
          have := ih f (List.cons_ne_nil r rs) hsr hrfuel
          rw [List.map_cons, show str ", " = [',', ' '] from rfl] at this
          rw [this]

theorem split_up_pieces {toks : List Str} (hne : toks ≠ [])
    (hsafe : ∀ t ∈ toks, safeTok t = true) :
    split_up (joinStrs (toks.map pieceFor) (str ", ")) ',' = toks := by
  unfold split_up
  obtain ⟨ch, hch, hchws⟩ := interior_head_facts hne hsafe
  obtain ⟨cl, hcl, hclws⟩ := interior_last_facts hne hsafe
  rw [trimStr_eq_self
    (fun c0 h0 => by rw [h0] at hch; cases hch; exact hchws)
    (fun c0 h0 => by rw [h0] at hcl; cases hcl; exact hclws)]
  exact split_upGo_pieces toks _ hne hsafe
    (Nat.le_succ_of_le (toks_length_le_interior hsafe))

theorem split_up_quoted_single {q : Char} {t : Str} {delim : Char}
    (hq : q = '"' ∨ q = squote) (hnm : q ∉ t) (hbs : bslash ∉ t) :
    split_up (q :: (t ++ [q])) delim = [t] := by
  have hqs : isSpaceChar q = false := by
    rcases hq with rfl | rfl <;> decide
  unfold split_up
  rw [trimStr_eq_self (fun c0 h0 => by cases h0; exact hqs)
    (fun c0 h0 => by
      rw [← List.cons_append, getLast?_append_right (List.cons_ne_nil q [])] at h0
      cases h0
      exact hqs)]
  dsimp only
  rw [show (q :: (t ++ [q])).length + 1 = (t.length + 2) + 1 from by
    rw [List.length_cons, List.length_append, List.length_cons, List.length_nil]]
  rw [split_upGo]
  rw [if_pos hq]
  rw [findCloseQuote_append hnm hbs (by rcases hq with rfl | rfl <;> decide)]
  dsimp only
  rw [contains_eq_false_of_not_mem hnm]
  rw [if_neg Bool.false_ne_true]
  rw [show ([] : Str).drop 1 = [] from rfl, show trimStr [] = [] from rfl, split_upGo_nil]

theorem remove_quotes_piece {q : Char} {t : Str} (hq : q = '"' ∨ q = squote) :
    remove_quotes (q :: (t ++ [q])) = t := by
  unfold remove_quotes
  rw [if_pos]
  · rw [show (q :: (t ++ [q])) = (q :: t) ++ [q] from by rw [List.cons_append]]
    rw [List.dropLast_concat]
    rfl
  · refine ⟨?_, ?_, ?_⟩
    · rw [List.length_cons, List.length_append, List.length_cons, List.length_nil]
      omega
    · rcases hq with rfl | rfl
      · exact Or.inl rfl
      · exact Or.inr rfl
    · rw [show ((q :: (t ++ [q])) : Str).head? = some q from rfl]
      rw [← List.cons_append, getLast?_append_right (List.cons_ne_nil q [])]
      rfl

theorem mem_joinStrs {x : Char} {ps : List Str} {sep : Str}
    (h : x ∈ joinStrs ps sep) : (∃ p ∈ ps, x ∈ p) ∨ x ∈ sep := by
  induction ps with
  | nil => cases h
  | cons a t ih =>
    cases t with
    | nil => exact Or.inl ⟨a, List.mem_cons_self a [], h⟩
    | cons b t2 =>
      rw [joinStrs, List.append_assoc] at h
      rcases List.mem_append.mp h with h1 | h2
      · exact Or.inl ⟨a, List.mem_cons_self _ _, h1⟩
      · rcases List.mem_append.mp h2 with h3 | h4
        · exact Or.inr h3
        · rcases ih h4 with ⟨p, hp, hx⟩ | hs
          · exact Or.inl ⟨p, List.mem_cons_of_mem a hp, hx⟩
          · exact Or.inr hs

theorem mem_pieceFor {x : Char} {t : Str} (hst : safeTok t = true)
    (h : x ∈ pieceFor t) : x ∈ t ∨ x = '"' ∨ x = squote := by
  rcases convert_shape hst with ⟨hc, _⟩ | ⟨hc, _⟩ | ⟨hc, _⟩ <;> rw [pieceFor, hc] at h
  · exact Or.inl h
  · rcases List.mem_cons.mp h with rfl | h
    · exact Or.inr (Or.inl rfl)
    · rcases List.mem_append.mp h with h1 | h2
      · exact Or.inl h1
      · rw [List.mem_singleton.mp h2]
        exact Or.inr (Or.inl rfl)
  · rcases List.mem_cons.mp h with rfl | h
    · exact Or.inr (Or.inr rfl)
    · rcases List.mem_append.mp h with h1 | h2
      · exact Or.inl h1
      · rw [List.mem_singleton.mp h2]
        exact Or.inr (Or.inr rfl)

theorem mem_iniValue {x : Char} {toks : List Str}
    (hsafe : ∀ t ∈ toks, safeTok t = true) (h : x ∈ iniValue toks) :
    (∃ t ∈ toks, x ∈ t) ∨ x = '[' ∨ x = ']' ∨ x = ',' ∨ x = ' ' ∨ x = '"' ∨ x = squote := by
  unfold iniValue ini_join at h
  rcases List.mem_append.mp h with h1 | hend
  rcases List.mem_append.mp h1 with hstart | hmid
  · by_cases hcond : 1 < toks.length ∧ ('[' : Char) ≠ Char.ofNat 0
    · rw [if_pos hcond] at hstart
      rw [List.mem_singleton.mp hstart]
      exact Or.inr (Or.inl rfl)
    · rw [if_neg hcond] at hstart
      cases hstart
  · rw [if_neg (show ¬isSpaceChar ',' = true by decide)] at hmid
    rcases mem_joinStrs hmid with ⟨p, hp, hx⟩ | hs
    · obtain ⟨t, ht, rfl⟩ := List.mem_map.mp hp
      rcases mem_pieceFor (hsafe t ht) hx with hx | rfl | rfl
      · exact Or.inl ⟨t, ht, hx⟩
      · exact Or.inr (Or.inr (Or.inr (Or.inr (Or.inr (Or.inl rfl)))))
      · exact Or.inr (Or.inr (Or.inr (Or.inr (Or.inr (Or.inr rfl)))))
    · rcases List.mem_cons.mp hs with rfl | hs2
      · exact Or.inr (Or.inr (Or.inr (Or.inl rfl)))
      · rw [List.mem_singleton.mp hs2]
        exact Or.inr (Or.inr (Or.inr (Or.inr (Or.inl rfl))))
  · by_cases hcond : 1 < toks.length ∧ (']' : Char) ≠ Char.ofNat 0
    · rw [if_pos hcond] at hend
      rw [List.mem_singleton.mp hend]
      exact Or.inr (Or.inr (Or.inl rfl))
    · rw [if_neg hcond] at hend
      cases hend

theorem mem_of_contains_eq_true {c : Char} {l : Str} (h : l.contains c = true) : c ∈ l := by
  obtain ⟨a, ha, hbeq⟩ := List.contains_iff_exists_mem_beq.mp h
  rw [eq_of_beq hbeq]
  exact ha

theorem iniValue_single {t : Str} : iniValue [t] = pieceFor t := by
  unfold iniValue ini_join
  rw [if_neg (show ¬(1 < ([t] : List Str).length ∧ ('[' : Char) ≠ Char.ofNat 0) from
    fun hh => by have := hh.1; rw [List.length_cons, List.length_nil] at this; omega)]
  rw [if_neg (show ¬(1 < ([t] : List Str).length ∧ (']' : Char) ≠ Char.ofNat 0) from
    fun hh => by have := hh.1; rw [List.length_cons, List.length_nil] at this; omega)]
  rw [List.map_cons, List.map_nil, List.nil_append, List.append_nil]
  rfl

theorem iniValue_multi {toks : List Str} (h : 1 < toks.length) :
    iniValue toks = '[' :: (joinStrs (toks.map pieceFor) (str ", ") ++ [']']) := by
  unfold iniValue ini_join
  rw [if_pos (show 1 < toks.length ∧ ('[' : Char) ≠ Char.ofNat 0 from ⟨h, by decide⟩)]
  rw [if_pos (show 1 < toks.length ∧ (']' : Char) ≠ Char.ofNat 0 from ⟨h, by decide⟩)]
  rw [List.singleton_append, List.cons_append]
  rfl

theorem tokensNoArrayPiece {t : Str} (hst : safeTok t = true) :
    (tokensNoArray defaultCfg (pieceFor t)).map remove_quotes = [t] := by
  unfold tokensNoArray
  rw [show (defaultCfg.isDefaultArray || defaultCfg.isINIArray) = true from rfl]
  rw [Bool.true_and, Bool.true_and]
  rw [show defaultCfg.aSep = ',' from rfl]
  by_cases hcomma : (pieceFor t).contains ',' = true
  · rw [hcomma]
    rw [if_pos rfl]
    have hs := @split_up_pieces [t] (List.cons_ne_nil t [])
      (fun x hx => by rw [List.mem_singleton.mp hx]; exact hst)
    rw [List.map_cons, List.map_nil,
      show joinStrs [pieceFor t] (str ", ") = pieceFor t from rfl] at hs
    rw [hs, List.map_cons, List.map_nil, remove_quotes_eq_self hst]
  · rw [Bool.not_eq_true] at hcomma
    rw [hcomma]
    rw [if_neg Bool.false_ne_true]
    by_cases hsp : (pieceFor t).contains ' ' = true
    · rw [hsp]
      rw [if_pos rfl]
      rcases convert_shape hst with ⟨hc, hb⟩ | ⟨hc, hq⟩ | ⟨hc, hq⟩
      · exfalso
        have hmem := mem_of_contains_eq_true hsp
        rw [pieceFor, hc] at hmem
        have := List.all_eq_true.mp (Bool.and_eq_true_iff.mp hb).2 ' ' hmem
        exact absurd this (by decide)
      · rw [pieceFor, hc, split_up_quoted_single (Or.inl rfl)
          (not_mem_of_contains_eq_false hq) (safeTok_not_mem hst).2.1]
        rw [List.map_cons, List.map_nil, remove_quotes_eq_self hst]
      · rw [pieceFor, hc, split_up_quoted_single (Or.inr rfl)
          (not_mem_of_contains_eq_false hq) (safeTok_not_mem hst).2.1]
        rw [List.map_cons, List.map_nil, remove_quotes_eq_self hst]
    · rw [Bool.not_eq_true] at hsp
      rw [hsp]
      rw [if_neg Bool.false_ne_true]
      rw [List.map_cons, List.map_nil]
      rcases convert_shape hst with ⟨hc, _⟩ | ⟨hc, _⟩ | ⟨hc, _⟩ <;> rw [pieceFor, hc]
      · rw [remove_quotes_eq_self hst]
      · rw [remove_quotes_piece (Or.inl rfl)]
      · rw [remove_quotes_piece (Or.inr rfl)]

theorem resolveParents_safeName {sec nm : Str} (hn : safeName nm = true) :
    resolveParents defaultCfg sec nm = (secParents sec, nm) := by
  have hdot : ('.' : Char) ∉ nm := by
    intro hmem
    exact (safeChar_facts ((safeName_parts hn).2.1 '.' hmem)).2.2.2.2.2.2.1 rfl
  unfold resolveParents secParents generate_parents
  rw [show defaultCfg.parentSeparatorChar = '.' from rfl]
  dsimp only
  rw [contains_eq_false_of_not_mem hdot]
  rw [show (!(false : Bool)) = true from rfl]
  rw [if_pos rfl]
  rw [remove_quotes_of_safeName hn]
  rw [contains_eq_false_of_not_mem hdot]
  rw [if_neg Bool.false_ne_true]
  rw [show (List.contains ([] : Str) '.') = false from rfl]
  rw [if_neg Bool.false_ne_true]

theorem appendRecord_fresh {outRev : List ConfigItem} {parents : List Str} {name : Str}
    {items : List Str}
    (h : ∀ b, outRev.head? = some b → ¬(name = b.name ∧ parents = b.parents)) :
    appendRecord outRev parents name items = ⟨parents, name, items⟩ :: outRev := by
  cases outRev with
  | nil => rfl
  | cons b rest =>
    rw [appendRecord]
    rw [if_neg (h b rfl)]

theorem storeKeyed_default (st : ParseState) (name0 : Str) (items0 : List Str)
    (hlen : (resolveParents defaultCfg st.currentSection name0).1.length ≤ 255) :
    storeKeyed defaultCfg st name0 items0 =
      { st with
        outRev := appendRecord st.outRev (resolveParents defaultCfg st.currentSection name0).1
          (resolveParents defaultCfg st.currentSection name0).2 (items0.map remove_quotes),
        pending := none } := by
  unfold storeKeyed
  rw [if_neg (by
    rw [show defaultCfg.maximumLayers = 255 from rfl]
    omega)]
  rw [show (!defaultCfg.configSection.isEmpty && !st.inSection) = false from rfl]
  rw [if_neg Bool.false_ne_true]

theorem iniValue_ne_nil {toks : List Str} (hne : toks ≠ [])
    (hsafe : ∀ t ∈ toks, safeTok t = true) : iniValue toks ≠ [] := by
  cases toks with
  | nil => exact absurd rfl hne
  | cons t ts =>
    cases ts with
    | nil =>
      rw [iniValue_single]
      exact pieceFor_ne_nil (hsafe t (List.mem_cons_self t []))
    | cons r rs =>
      rw [iniValue_multi (by rw [List.length_cons, List.length_cons]; omega)]
      exact List.cons_ne_nil _ _

theorem iniValue_head_ws {toks : List Str} (hne : toks ≠ [])
    (hsafe : ∀ t ∈ toks, safeTok t = true) :
    ∀ c, (iniValue toks).head? = some c → isSpaceChar c = false := by
  intro c hc
  cases toks with
  | nil => exact absurd rfl hne
  | cons t ts =>
    cases ts with
    | nil =>
      rw [iniValue_single] at hc
      obtain ⟨c2, hc2, hws, _, _⟩ := pieceFor_head_facts (hsafe t (List.mem_cons_self t []))
      rw [hc2] at hc
      cases hc
      exact hws
    | cons r rs =>
      rw [iniValue_multi (by rw [List.length_cons, List.length_cons]; omega)] at hc
      cases hc
      decide

theorem iniValue_last_ws {toks : List Str} (hne : toks ≠ [])
    (hsafe : ∀ t ∈ toks, safeTok t = true) :
    ∀ c, (iniValue toks).getLast? = some c → isSpaceChar c = false := by
  intro c hc
  cases toks with
  | nil => exact absurd rfl hne
  | cons t ts =>
    cases ts with
    | nil =>
      rw [iniValue_single] at hc
      obtain ⟨c2, hc2, hws⟩ := pieceFor_last_facts (hsafe t (List.mem_cons_self t []))
      rw [hc2] at hc
      cases hc
      exact hws
    | cons r rs =>
      rw [iniValue_multi (by rw [List.length_cons, List.length_cons]; omega)] at hc
      rw [← List.cons_append, getLast?_append_right (List.cons_ne_nil ']' [])] at hc
      cases hc
      decide

theorem hash_not_mem_iniValue {toks : List Str} (hsafe : ∀ t ∈ toks, safeTok t = true) :
    ('#' : Char) ∉ iniValue toks := by
  intro hmem
  rcases mem_iniValue hsafe hmem with ⟨t, ht, hx⟩ | h | h | h | h | h | h
  · exact (safeTok_not_mem (hsafe t ht)).2.2.2.1 hx
  all_goals exact absurd h (by decide)

theorem newline_not_mem_iniValue {toks : List Str} (hsafe : ∀ t ∈ toks, safeTok t = true) :
    ('\n' : Char) ∉ iniValue toks := by
  intro hmem
  rcases mem_iniValue hsafe hmem with ⟨t, ht, hx⟩ | h | h | h | h | h | h
  · exact (safeTok_not_mem (hsafe t ht)).2.2.1 hx
  all_goals exact absurd h (by decide)

theorem stepLine_value (st : ParseState) (nm : Str) (toks : List Str)
    (hpend : st.pending = none) (hnm : safeName nm = true)
    (hne : toks ≠ []) (hsafe : ∀ t ∈ toks, safeTok t = true)
    (hdep : (secParents st.currentSection).length ≤ 255) :
    stepLine defaultCfg st (nm ++ '=' :: iniValue toks) =
      { st with
        outRev := appendRecord st.outRev (secParents st.currentSection) nm toks,
        pending := none } := by
  obtain ⟨hnm_ne, hnm_all, _, _⟩ := safeName_parts hnm
  obtain ⟨a, nmt, rfl⟩ := List.exists_cons_of_ne_nil hnm_ne
  have hafacts := safeChar_facts (hnm_all a (List.mem_cons_self a nmt))
  have hv_ne := iniValue_ne_nil hne hsafe
  have hv_head := iniValue_head_ws hne hsafe
  have hv_last := iniValue_last_ws hne hsafe
  have hv_trim : trimStr (iniValue toks) = iniValue toks := trimStr_eq_self hv_head hv_last
  have hline_last : ((a :: nmt) ++ '=' :: iniValue toks).getLast? = (iniValue toks).getLast? := by
    rw [getLast?_append_right (List.cons_ne_nil '=' _)]
    rw [show ('=' :: iniValue toks : Str) = ['='] ++ iniValue toks from rfl]
    rw [getLast?_append_right hv_ne]
  unfold stepLine
  rw [hpend]
  dsimp only
  rw [List.cons_append]
  rw [trimStr_eq_self
    (fun c hc => by cases hc; exact hafacts.1)
    (fun c hc => by
      rw [← List.cons_append, hline_last] at hc
      exact hv_last c hc)]
  rw [if_neg (by
    rw [List.length_cons, List.length_append, List.length_cons]
    have := List.length_pos.mpr hv_ne
    omega)]
  rw [if_neg (by
    rintro ⟨h1, _⟩
    exact hafacts.2.1 (Option.some.inj h1))]
  rw [if_neg (by
    rintro (h1 | h1 | h1)
    · exact hafacts.2.2.2.2.2.1 (Option.some.inj h1)
    · exact hafacts.2.2.2.2.1 (Option.some.inj h1)
    · exact hafacts.2.2.2.2.1 (Option.some.inj h1))]
  unfold stepKeyLine findSplit
  rw [show defaultCfg.valueDelimiter = '=' from rfl]
  rw [← List.cons_append]
  rw [breakAtChar_append (fun hmem => (safeChar_facts (hnm_all '=' hmem)).2.2.2.1 rfl)]
  dsimp only
  rw [trimStr_of_safeName hnm, hv_trim]
  unfold stripComment
  rw [show defaultCfg.commentChar = '#' from rfl]
  rw [breakAtChar_of_not_mem (hash_not_mem_iniValue hsafe)]
  dsimp only
  have hresolve := @resolveParents_safeName st.currentSection (a :: nmt) hnm
  cases toks with
  | nil => exact absurd rfl hne
  | cons t ts =>
    cases ts with
    | nil =>
      rw [iniValue_single]
      obtain ⟨c, hch, hcws, hccm, hcbr⟩ :=
        pieceFor_head_facts (hsafe t (List.mem_cons_self t []))
      rw [if_neg (by
        rintro ⟨_, h2⟩
        rw [show defaultCfg.aStart = '[' from rfl] at h2
        rw [hch] at h2
        exact hcbr (Option.some.inj h2))]
      rw [storeKeyed_default st (a :: nmt) _ (by rw [hresolve]; exact hdep)]
      rw [hresolve]
      rw [tokensNoArrayPiece (hsafe t (List.mem_cons_self t []))]
    | cons r rs =>
      have hlen2 : 1 < (t :: r :: rs).length := by
        rw [List.length_cons, List.length_cons]
        omega
      rw [iniValue_multi hlen2]
      have hglast : ('[' :: (joinStrs ((t :: r :: rs).map pieceFor) (str ", ") ++ [']']) :
          Str).getLast? = some ']' := by
        rw [← List.cons_append, getLast?_append_right (List.cons_ne_nil ']' [])]
        rfl
      rw [if_pos (by
        refine ⟨?_, rfl⟩
        rw [List.length_cons, List.length_append, List.length_cons, List.length_nil]
        omega)]
      rw [if_neg (by
        intro hh
        rw [show defaultCfg.aEnd = ']' from rfl] at hh
        exact hh hglast)]
      rw [show (('[' :: (joinStrs ((t :: r :: rs).map pieceFor) (str ", ") ++ [']']) :
          Str).drop 1) = joinStrs ((t :: r :: rs).map pieceFor) (str ", ") ++ [']'] from rfl]
      rw [List.dropLast_concat]
      rw [show defaultCfg.aSep = ',' from rfl]
      rw [split_up_pieces hne hsafe]
      rw [storeKeyed_default st (a :: nmt) _ (by rw [hresolve]; exact hdep)]
      rw [hresolve]
      rw [map_eq_self_of_mem (fun x hx => remove_quotes_eq_self (hsafe x hx))]

/-- The value lines the INI-style writer emits for one option list (group
loop with every option in the default group, no defaults, no
descriptions). -/
def optLines (opts : List COption) : List Str :=
  opts.flatMap (fun o =>
    if o.configurable && !o.reduced_results.isEmpty then
      [o.single_name ++ '=' :: iniValue o.reduced_results]
    else [])

/-- The records the reader should recover for one option list stored under
parent chain `P`. -/
def itemRecords (P : List Str) (opts : List COption) : List ConfigItem :=
  opts.flatMap (fun o =>
    if o.configurable && !o.reduced_results.isEmpty then
      [⟨P, o.single_name, o.reduced_results⟩]
    else [])

/-- Well-formedness of an option list for the round trip: every option is in
the default group, and every configurable option with values has a
well-formed name and well-formed value tokens. -/
def wfOpts (opts : List COption) : Bool :=
  opts.all (fun o => o.group.isEmpty &&
    (!o.configurable || o.reduced_results.isEmpty ||
      (safeName o.single_name && o.reduced_results.all safeTok)))

theorem isMarker_name {b : ConfigItem} (h : isMarker b = true) :
    b.name = str "++" ∨ b.name = str "--" := by
  rcases Bool.or_eq_true_iff.mp h with h1 | h1
  · exact Or.inl (eq_of_beq h1)
  · exact Or.inr (eq_of_beq h1)

theorem blockOpts (opts : List COption) : ∀ (st : ParseState),
    st.pending = none →
    (secParents st.currentSection).length ≤ 255 →
    wfOpts opts = true →
    nodupStrs (emittedNames opts) = true →
    (∀ b, st.outRev.head? = some b →
      isMarker b = true ∨ b.parents ≠ secParents st.currentSection ∨
        b.name ∉ emittedNames opts) →
    List.foldl (stepLine defaultCfg) st (optLines opts) =
      { st with
        outRev := (itemRecords (secParents st.currentSection) opts).reverse ++ st.outRev,
        pending := none } := by
  induction opts with
  | nil =>
    intro st hpend _ _ _ _
    simp only [optLines, itemRecords, List.flatMap_nil, List.reverse_nil, List.nil_append,
      List.foldl_nil]
    rw [← hpend]
  | cons o rest ih =>
    intro st hpend hdep hwf hnodup hhead
    have hwf0 : _ ∧ _ := Bool.and_eq_true_iff.mp (by rw [wfOpts, List.all_cons] at hwf; exact hwf)
    obtain ⟨hwfo, hwfrest⟩ := hwf0
    by_cases hemit : (o.configurable && !o.reduced_results.isEmpty) = true
    · have hen : emittedNames (o :: rest) = o.single_name :: emittedNames rest := by
        unfold emittedNames
        rw [List.filter_cons, if_pos hemit, List.map_cons]
      have hcfg := (Bool.and_eq_true_iff.mp hemit).1
      have hrne : o.reduced_results ≠ [] := by
        intro hh
        have := (Bool.and_eq_true_iff.mp hemit).2
        rw [hh] at this
        cases this
      have hie : o.reduced_results.isEmpty = false := by
        cases hx : o.reduced_results.isEmpty
        · rfl
        · exact absurd (List.isEmpty_iff.mp hx) hrne
      have hgood : (safeName o.single_name && o.reduced_results.all safeTok) = true := by
        have h2 := (Bool.and_eq_true_iff.mp hwfo).2
        rw [hcfg, hie] at h2
        simp only [Bool.not_true, Bool.false_or] at h2
        exact h2
      have hn := (Bool.and_eq_true_iff.mp hgood).1
      have htoks := fun x hx => List.all_eq_true.mp (Bool.and_eq_true_iff.mp hgood).2 x hx
      have hol : optLines (o :: rest) =
          (o.single_name ++ '=' :: iniValue o.reduced_results) :: optLines rest := by
        rw [optLines, optLines, List.flatMap_cons, if_pos hemit, List.singleton_append]
      have hir : itemRecords (secParents st.currentSection) (o :: rest) =
          (⟨secParents st.currentSection, o.single_name, o.reduced_results⟩ : ConfigItem) ::
            itemRecords (secParents st.currentSection) rest := by
        rw [itemRecords, itemRecords, List.flatMap_cons, if_pos hemit, List.singleton_append]
      rw [hol, List.foldl_cons]
      rw [stepLine_value st o.single_name o.reduced_results hpend hn hrne htoks hdep]
      rw [appendRecord_fresh (fun b hb => by
        rintro ⟨hn1, hp1⟩
        rcases hhead b hb with hm | hp | hnm
        · rcases isMarker_name hm with hbn | hbn
          · exact (safeName_ne_markers hn).1 (hn1.trans hbn)
          · exact (safeName_ne_markers hn).2 (hn1.trans hbn)
        · exact hp hp1.symm
        · rw [hen] at hnm
          exact hnm (by rw [← hn1]; exact List.mem_cons_self _ _))]
      rw [ih { st with
          outRev := (⟨secParents st.currentSection, o.single_name, o.reduced_results⟩ :
            ConfigItem) :: st.outRev,
          pending := none } rfl hdep hwfrest
        (by rw [hen] at hnodup; exact (nodupStrs_parts hnodup).2)
        (fun b hb => by
          have hb2 : (⟨secParents st.currentSection, o.single_name, o.reduced_results⟩ :
              ConfigItem) = b := Option.some.inj hb
          subst hb2
          refine Or.inr (Or.inr ?_)
          rw [hen] at hnodup
          exact (nodupStrs_parts hnodup).1)]
      dsimp only
      rw [hir, List.reverse_cons, List.append_assoc, List.singleton_append]
    · have hen : emittedNames (o :: rest) = emittedNames rest := by
        unfold emittedNames
        rw [List.filter_cons, if_neg hemit]
      have hol : optLines (o :: rest) = optLines rest := by
        rw [optLines, optLines, List.flatMap_cons, if_neg hemit, List.nil_append]
      have hir : itemRecords (secParents st.currentSection) (o :: rest) =
          itemRecords (secParents st.currentSection) rest := by
        rw [itemRecords, itemRecords, List.flatMap_cons, if_neg hemit, List.nil_append]
      rw [hol, hir]
      exact ih st hpend hdep hwfrest (hen ▸ hnodup) (fun b hb => by
        rcases hhead b hb with hm | hp | hnm
        · exact Or.inl hm
        · exact Or.inr (Or.inl hp)
        · exact Or.inr (Or.inr (by rw [hen] at hnm; exact hnm)))

theorem joinStrs_eq_intercalate (ps : List Str) (sep : Str) :
    joinStrs ps sep = List.intercalate sep ps := by
  induction ps with
  | nil => rfl
  | cons a t ih =>
    cases t with
    | nil => simp [joinStrs, List.intercalate]
    | cons b t2 =>
      rw [joinStrs, ih]
      rw [List.intercalate, List.intercalate, List.intersperse_cons_cons,
        List.flatten_cons, List.flatten_cons, List.append_assoc]

theorem joinStrs_ne_nil_of_comps {p : List Str} (hp : p ≠ [])
    (hcomps : ∀ x ∈ p, safeName x = true) : joinStrs p (str ".") ≠ [] := by
  cases p with
  | nil => exact absurd rfl hp
  | cons x t =>
    exact joinStrs_cons_ne_nil (safeName_parts (hcomps x (List.mem_cons_self x t))).1

theorem dot_mem_join {x y : Str} {t : List Str} :
    ('.' : Char) ∈ joinStrs (x :: y :: t) (str ".") := by
  rw [joinStrs, List.append_assoc]
  exact List.mem_append.mpr (Or.inr (List.mem_append.mpr (Or.inl (by
    rw [show str "." = ['.'] from rfl]
    exact List.mem_cons_self '.' []))))

theorem toLower_join_ne_default {p : List Str} (hp : p ≠ [])
    (hcomps : ∀ x ∈ p, safeName x = true) :
    toLowerStr (joinStrs p (str ".")) ≠ str "default" := by
  cases p with
  | nil => exact absurd rfl hp
  | cons x t =>
    cases t with
    | nil => exact (safeName_parts (hcomps x (List.mem_cons_self x []))).2.2.2
    | cons y t2 =>
      intro hh
      have hdot : ('.' : Char) ∈ toLowerStr (joinStrs (x :: y :: t2) (str ".")) := by
        unfold toLowerStr
        exact List.mem_map.mpr ⟨'.', dot_mem_join, by decide⟩
      rw [hh] at hdot
      exact absurd hdot (by decide)

theorem joinStrs_last_ne_dot {p : List Str} (hp : p ≠ [])
    (hcomps : ∀ x ∈ p, safeName x = true) :
    (joinStrs p (str ".")).getLast? ≠ some '.' := by
  obtain ⟨pl, hpl, heq⟩ := @joinStrs_last p (str ".")
    (fun q hq => (safeName_parts (hcomps q hq)).1) hp
  rw [heq]
  intro hh
  obtain ⟨plne, plall, _, _⟩ := safeName_parts (hcomps pl hpl)
  have hrev : pl.reverse.head? = some '.' := by rw [List.head?_reverse]; exact hh
  cases hr : pl.reverse with
  | nil => rw [hr] at hrev; cases hrev
  | cons z r =>
    rw [hr] at hrev
    have hz := Option.some.inj hrev
    have hmem : z ∈ pl := by
      rw [← List.mem_reverse, hr]
      exact List.mem_cons_self z r
    exact (safeChar_facts (plall z hmem)).2.2.2.2.2.2.1 hz

theorem secParents_join {p : List Str} (hp : p ≠ [])
    (hcomps : ∀ x ∈ p, safeName x = true) :
    secParents (joinStrs p (str ".")) = p := by
  unfold secParents generate_parents
  dsimp only
  rw [show (List.contains ([] : Str) '.') = false from rfl]
  rw [if_neg Bool.false_ne_true]
  rw [if_pos (toLower_join_ne_default hp hcomps)]
  cases p with
  | nil => exact absurd rfl hp
  | cons x t =>
    cases t with
    | nil =>
      rw [show joinStrs [x] (str ".") = x from rfl]
      rw [contains_eq_false_of_not_mem (fun hmem =>
        (safeChar_facts ((safeName_parts (hcomps x (List.mem_cons_self x []))).2.1 '.'
          hmem)).2.2.2.2.2.2.1 rfl)]
      rw [if_neg Bool.false_ne_true]
      rw [List.map_cons, List.map_nil,
        remove_quotes_of_safeName (hcomps x (List.mem_cons_self x []))]
    | cons y t2 =>
      rw [contains_eq_true_of_mem dot_mem_join]
      rw [if_pos rfl]
      unfold cppSplit
      rw [if_neg (fun hh => joinStrs_ne_nil_of_comps hp hcomps (List.isEmpty_iff.mp hh))]
      dsimp only
      rw [if_neg (joinStrs_last_ne_dot hp hcomps)]
      rw [joinStrs_eq_intercalate]
      rw [show str "." = ['.'] from rfl]
      rw [List.splitOn_intercalate _ '.'
        (fun l hl hmem =>
          (safeChar_facts ((safeName_parts (hcomps l hl)).2.1 '.' hmem)).2.2.2.2.2.2.1 rfl)
        hp]
      exact map_eq_self_of_mem (fun q hq => remove_quotes_of_safeName (hcomps q hq))


theorem whileCloseGo_name {fuel : Nat} {b : ConfigItem} {msize : Nat} :
    ∀ x ∈ whileCloseGo fuel b msize, x.name = b.name := by
  induction fuel generalizing b with
  | zero =>
    intro x hx
    rw [List.mem_singleton.mp hx]
  | succ f ih =>
    intro x hx
    rw [whileCloseGo] at hx
    by_cases hc : 0 < msize ∧ msize ≤ b.parents.length
    · rw [if_pos hc] at hx
      rcases List.mem_append.mp hx with h1 | h2
      · exact ih (b := { b with parents := b.parents.dropLast }) x h1
      · rw [List.mem_singleton.mp h2]
    · rw [if_neg hc] at hx
      rw [List.mem_singleton.mp hx]

theorem whileCloseGo_ne_nil {fuel : Nat} {b : ConfigItem} {msize : Nat} :
    whileCloseGo fuel b msize ≠ [] := by
  cases fuel with
  | zero => exact List.cons_ne_nil b []
  | succ f =>
    rw [whileCloseGo]
    by_cases hc : 0 < msize ∧ msize ≤ b.parents.length
    · rw [if_pos hc]
      intro hh
      rcases List.append_eq_nil.mp hh with ⟨_, h2⟩
      cases h2
    · rw [if_neg hc]
      exact List.cons_ne_nil b []

theorem filter_app_markers {ms rest : List ConfigItem}
    (h : ∀ m ∈ ms, isMarker m = true) :
    (ms ++ rest).filter (fun r => !isMarker r) = rest.filter (fun r => !isMarker r) := by
  rw [List.filter_append]
  rw [List.filter_eq_nil_iff.mpr (fun m hm => by
    rw [h m hm]
    exact fun hh => by cases hh)]
  rw [List.nil_append]

theorem opensFor_marker {parents : List Str} {common : Nat} :
    ∀ m ∈ opensFor parents common, isMarker m = true := by
  intro m hm
  rw [opensFor, List.mem_reverse] at hm
  obtain ⟨ii, _, rfl⟩ := List.mem_map.mp hm
  rfl

theorem whileClose_close_marker {b : ConfigItem} {msize : Nat} (hb : b.name = str "--") :
    ∀ m ∈ whileClose b msize, isMarker m = true := by
  intro m hm
  have := whileCloseGo_name m hm
  rw [isMarker, this, hb]
  rfl

theorem checkParentSegments_shape (outRev : List ConfigItem) (sec : Str) :
    ∃ out2, checkParentSegments outRev sec '.' =
      (⟨(generate_parents sec [] '.').1, str "++", []⟩ : ConfigItem) :: out2 ∧
      out2.filter (fun r => !isMarker r) = outRev.filter (fun r => !isMarker r) := by
  cases outRev with
  | nil =>
    unfold checkParentSegments
    dsimp only
    refine ⟨_, rfl, ?_⟩
    by_cases hlen : 1 < (generate_parents sec [] '.').1.length
    · rw [if_pos hlen]
      rw [show ([] : List ConfigItem).filter (fun r => !isMarker r) = [] from rfl]
      rw [← List.append_nil (opensFor (generate_parents sec [] '.').1 0)]
      exact filter_app_markers opensFor_marker
    · rw [if_neg hlen]
  | cons b rest =>
    unfold checkParentSegments
    dsimp only
    refine ⟨_, rfl, ?_⟩
    by_cases hbm : b.name = str "--"
    · rw [if_pos hbm]
      have hbmark : isMarker b = true := by
        rw [isMarker, hbm]
        rfl
      have hfb : (b :: rest).filter (fun r => !isMarker r) =
          rest.filter (fun r => !isMarker r) := by
        rw [List.filter_cons, hbmark]
        rw [if_neg (fun hh => by cases hh)]
      by_cases hlen : 1 < (generate_parents sec [] '.').1.length
      · rw [if_pos hlen]
        rw [if_pos hlen]
        obtain ⟨w1, ws, hw⟩ := List.exists_cons_of_ne_nil
          (@whileCloseGo_ne_nil (b.parents.length + 1) b
            ((generate_parents sec [] '.').1.length))
        rw [hfb]
        rw [show whileClose b (generate_parents sec [] '.').1.length = w1 :: ws from hw]
        have hwm : ∀ m ∈ w1 :: ws, isMarker m = true := by
          rw [← hw]
          exact whileClose_close_marker hbm
        have hdrop : ((w1 :: ws) ++ rest).drop 1 = ws ++ rest := rfl
        by_cases hcm : commonPrefixLen ((w1 :: ws).headD b).parents
            (generate_parents sec [] '.').1
            (min ((w1 :: ws).headD b).parents.length
              ((generate_parents sec [] '.').1.length - 1)) =
            min ((w1 :: ws).headD b).parents.length
              ((generate_parents sec [] '.').1.length - 1)
        · rw [if_pos hcm, hdrop]
          rw [filter_app_markers opensFor_marker]
          exact filter_app_markers (fun m hm => hwm m (List.mem_cons_of_mem w1 hm))
        · rw [if_neg hcm, hdrop]
          rw [filter_app_markers opensFor_marker]
          rw [← List.append_assoc]
          rw [filter_app_markers (fun m hm => by
            rcases List.mem_append.mp hm with h1 | h2
            · refine whileClose_close_marker ?_ m h1
              rw [show (w1 :: ws).headD b = w1 from rfl]
              rw [whileCloseGo_name w1 (hw ▸ List.mem_cons_self w1 ws)]
              exact hbm
            · exact hwm m (List.mem_cons_of_mem w1 h2))]
      · rw [if_neg hlen]
        rw [hfb]
        exact filter_app_markers (whileClose_close_marker hbm)
    · rw [if_neg hbm]
      by_cases hlen : 1 < (generate_parents sec [] '.').1.length
      · rw [if_pos hlen]
        exact filter_app_markers opensFor_marker
      · rw [if_neg hlen]

/-- The bracket header line the writer emits for the section at path `p`. -/
def headerFor (p : List Str) : Str := '[' :: (joinStrs p (str ".") ++ str "]")

theorem join_head_safe {p : List Str} (hp : p ≠ [])
    (hcomps : ∀ x ∈ p, safeName x = true) :
    ∃ c, (joinStrs p (str ".")).head? = some c ∧ safeChar c = true := by
  cases p with
  | nil => exact absurd rfl hp
  | cons x t =>
    obtain ⟨hxne, hxall, _, _⟩ := safeName_parts (hcomps x (List.mem_cons_self x t))
    obtain ⟨a, r, rfl⟩ := List.exists_cons_of_ne_nil hxne
    refine ⟨a, ?_, hxall a (List.mem_cons_self a r)⟩
    rw [joinStrs_cons_head (List.cons_ne_nil a r)]
    rfl

theorem stepSection_header (st : ParseState) (p : List Str) (hp : p ≠ [])
    (hcomps : ∀ x ∈ p, safeName x = true) :
    ∃ out2 idx prev2,
      stepSection defaultCfg st (headerFor p) =
        { currentSection := joinStrs p (str "."), previousSection := prev2,
          inSection := false, currentSectionIndex := idx, outRev := out2,
          pending := none } ∧
      out2.filter (fun r => !isMarker r) = st.outRev.filter (fun r => !isMarker r) ∧
      (∀ b, out2.head? = some b → isMarker b = true) := by
  obtain ⟨hc, hch, hcsafe⟩ := join_head_safe hp hcomps
  have hsec : ((headerFor p).drop 1).dropLast = joinStrs p (str ".") := by
    rw [show (headerFor p).drop 1 = joinStrs p (str ".") ++ [']'] from rfl]
    exact List.dropLast_concat
  unfold stepSection
  dsimp only
  rw [show defaultCfg.parentSeparatorChar = '.' from rfl]
  rw [hsec]
  have hsec1 : (if 1 < (joinStrs p (str ".")).length ∧
      (joinStrs p (str ".")).head? = some '[' ∧
      (joinStrs p (str ".")).getLast? = some ']' then
      ((joinStrs p (str ".")).drop 1).dropLast else joinStrs p (str ".")) =
      joinStrs p (str ".") := by
    rw [if_neg (by
      rintro ⟨_, h2, _⟩
      rw [hch] at h2
      have h3 := Option.some.inj h2
      rw [h3] at hcsafe
      exact absurd hcsafe (by decide))]
  rw [hsec1]
  rw [if_neg (toLower_join_ne_default hp hcomps)]
  dsimp only
  obtain ⟨out2, hshape, hfilter⟩ := checkParentSegments_shape
    (if st.currentSection ≠ str "default" then
      (⟨(generate_parents st.currentSection [] '.').1, str "--", []⟩ : ConfigItem) ::
        st.outRev
     else st.outRev) (joinStrs p (str "."))
  have hfilter2 : (checkParentSegments
      (if st.currentSection ≠ str "default" then
        (⟨(generate_parents st.currentSection [] '.').1, str "--", []⟩ : ConfigItem) ::
          st.outRev
       else st.outRev) (joinStrs p (str ".")) '.').filter (fun r => !isMarker r) =
      st.outRev.filter (fun r => !isMarker r) := by
    rw [hshape, List.filter_cons]
    rw [show isMarker (⟨(generate_parents (joinStrs p (str ".")) [] '.').1, str "++", []⟩ :
      ConfigItem) = true from rfl]
    rw [if_neg (fun hh => by cases hh)]
    rw [hfilter]
    by_cases hdef : st.currentSection ≠ str "default"
    · rw [if_pos hdef, List.filter_cons]
      rw [show isMarker (⟨(generate_parents st.currentSection [] '.').1, str "--", []⟩ :
        ConfigItem) = true from rfl]
      rw [if_neg (fun hh => by cases hh)]
    · rw [if_neg hdef]
  have hhead2 : ∀ b, (checkParentSegments
      (if st.currentSection ≠ str "default" then
        (⟨(generate_parents st.currentSection [] '.').1, str "--", []⟩ : ConfigItem) ::
          st.outRev
       else st.outRev) (joinStrs p (str ".")) '.').head? = some b → isMarker b = true := by
    intro b hb
    rw [hshape] at hb
    have := Option.some.inj hb
    rw [← this]
    rfl
  by_cases hprev : joinStrs p (str ".") = st.previousSection
  · rw [if_pos hprev]
    exact ⟨_, st.currentSectionIndex + 1, st.previousSection,
      by rw [← hprev], hfilter2, hhead2⟩
  · rw [if_neg hprev]
    exact ⟨_, 0, joinStrs p (str "."), rfl, hfilter2, hhead2⟩

theorem stepLine_header (st : ParseState) (p : List Str) (hpend : st.pending = none)
    (hp : p ≠ []) (hcomps : ∀ x ∈ p, safeName x = true) :
    stepLine defaultCfg st (headerFor p) = stepSection defaultCfg st (headerFor p) := by
  have hne : joinStrs p (str ".") ≠ [] := joinStrs_ne_nil_of_comps hp hcomps
  have hlast : (headerFor p).getLast? = some ']' := by
    rw [headerFor, show str "]" = [']'] from rfl, ← List.cons_append,
      getLast?_append_right (List.cons_ne_nil ']' [])]
    rfl
  unfold stepLine
  rw [hpend]
  dsimp only
  rw [trimStr_eq_self (fun c hc => by cases hc; decide)
    (fun c hc => by
      rw [hlast] at hc
      cases hc
      decide)]
  rw [if_neg (by
    rw [headerFor, List.length_cons, List.length_append,
      show List.length (str "]") = 1 from rfl]
    have := List.length_pos.mpr hne
    omega)]
  rw [if_pos ⟨rfl, hlast⟩]

mutual
/-- The lines of the INI-style writer's output for a well-formed command at
section path `path`: its own option value lines, then each named subcommand's
bracket header followed by the subcommand's own lines. -/
def outLinesApp (path : List Str) (app : CApp) : List Str :=
  match app with
  | .mk _ _ _ _ opts subs _ _ => optLines opts ++ outLinesSubs path subs
termination_by sizeOf app

/-- `outLinesApp` over a subcommand list. -/
def outLinesSubs (path : List Str) (subs : List CApp) : List Str :=
  match subs with
  | [] => []
  | sub :: rest =>
      (headerFor (path ++ [sub.name]) :: outLinesApp (path ++ [sub.name]) sub) ++
      outLinesSubs path rest
termination_by sizeOf subs
end

mutual
/-- The configuration records a command tree denotes: one record per
configurable valued option, parent chain equal to the section path, in
writer preorder. -/
def treeRecords (path : List Str) (app : CApp) : List ConfigItem :=
  match app with
  | .mk _ _ _ _ opts subs _ _ => itemRecords path opts ++ treeRecordsSubs path subs
termination_by sizeOf app

/-- `treeRecords` over a subcommand list. -/
def treeRecordsSubs (path : List Str) (subs : List CApp) : List ConfigItem :=
  match subs with
  | [] => []
  | sub :: rest => treeRecords (path ++ [sub.name]) sub ++ treeRecordsSubs path rest
termination_by sizeOf subs
end

mutual
/-- Round-trip well-formedness of a command tree rooted at depth `n`: the
depth stays within the default layer bound, every option is in the default
group with safe names and safe value tokens, the emitted option names of
each command are distinct, and every subcommand is named safely,
configurable and invoked. -/
def wfApp (n : Nat) (app : CApp) : Bool :=
  match app with
  | .mk _ _ _ _ opts subs _ _ =>
      decide (n ≤ 255) && wfOpts opts && nodupStrs (emittedNames opts) && wfSubs n subs
termination_by sizeOf app

/-- `wfApp` over a subcommand list. -/
def wfSubs (n : Nat) (subs : List CApp) : Bool :=
  match subs with
  | [] => true
  | sub :: rest =>
      safeName sub.name && sub.configurable && sub.invoked && wfApp (n + 1) sub &&
      wfSubs n rest
termination_by sizeOf subs
end

theorem itemRecords_safe {P : List Str} {opts : List COption} (hwf : wfOpts opts = true) :
    ∀ r ∈ itemRecords P opts, safeName r.name = true := by
  induction opts with
  | nil => intro r hr; cases hr
  | cons o rest ih =>
    intro r hr
    have hwf0 : _ ∧ _ :=
      Bool.and_eq_true_iff.mp (by rw [wfOpts, List.all_cons] at hwf; exact hwf)
    obtain ⟨hwfo, hwfrest⟩ := hwf0
    rw [itemRecords, List.flatMap_cons] at hr
    rcases List.mem_append.mp hr with h1 | h2
    · by_cases hemit : (o.configurable && !o.reduced_results.isEmpty) = true
      · rw [if_pos hemit] at h1
        rw [List.mem_singleton.mp h1]
        have hcfg := (Bool.and_eq_true_iff.mp hemit).1
        have hrne : o.reduced_results ≠ [] := by
          intro hh
          have := (Bool.and_eq_true_iff.mp hemit).2
          rw [hh] at this
          cases this
        have hie : o.reduced_results.isEmpty = false := by
          cases hx : o.reduced_results.isEmpty
          · rfl
          · exact absurd (List.isEmpty_iff.mp hx) hrne
        have h2 := (Bool.and_eq_true_iff.mp hwfo).2
        rw [hcfg, hie] at h2
        simp only [Bool.not_true, Bool.false_or] at h2
        exact (Bool.and_eq_true_iff.mp h2).1
      · rw [if_neg hemit] at h1
        cases h1
    · exact ih hwfrest r h2

theorem itemRecords_not_marker {P : List Str} {opts : List COption}
    (hwf : wfOpts opts = true) :
    ∀ r ∈ itemRecords P opts, (!isMarker r) = true := by
  intro r hr
  have hs := itemRecords_safe hwf r hr
  rw [isMarker]
  rw [beq_eq_false_iff_ne.mpr (safeName_ne_markers hs).1,
    beq_eq_false_iff_ne.mpr (safeName_ne_markers hs).2]
  rfl

theorem blockApp : ∀ (path : List Str) (app : CApp) (st : ParseState),
    wfApp path.length app = true →
    (∀ x ∈ path, safeName x = true) →
    st.pending = none →
    secParents st.currentSection = path →
    (∀ b, st.outRev.head? = some b →
      isMarker b = true ∨ b.parents ≠ path ∨ b.name ∉ emittedNames app.options) →
    ∃ st2, List.foldl (stepLine defaultCfg) st (outLinesApp path app) = st2 ∧
      st2.pending = none ∧
      st2.outRev.filter (fun r => !isMarker r) =
        (treeRecords path app).reverse ++ st.outRev.filter (fun r => !isMarker r) := by
  refine outLinesApp.induct
    (fun path app => ∀ st : ParseState,
      wfApp path.length app = true →
      (∀ x ∈ path, safeName x = true) →
      st.pending = none →
      secParents st.currentSection = path →
      (∀ b, st.outRev.head? = some b →
        isMarker b = true ∨ b.parents ≠ path ∨ b.name ∉ emittedNames app.options) →
      ∃ st2, List.foldl (stepLine defaultCfg) st (outLinesApp path app) = st2 ∧
        st2.pending = none ∧
        st2.outRev.filter (fun r => !isMarker r) =
          (treeRecords path app).reverse ++ st.outRev.filter (fun r => !isMarker r))
    (fun path subs => ∀ st : ParseState,
      wfSubs path.length subs = true →
      (∀ x ∈ path, safeName x = true) →
      st.pending = none →
      ∃ st2, List.foldl (stepLine defaultCfg) st (outLinesSubs path subs) = st2 ∧
        st2.pending = none ∧
        st2.outRev.filter (fun r => !isMarker r) =
          (treeRecordsSubs path subs).reverse ++
            st.outRev.filter (fun r => !isMarker r))
    ?_ ?_ ?_
  · intro path n de gp gs opts subs cf iv ih2 st hwf hpsafe hpend hsp hhead
    rw [wfApp] at hwf
    have h1 := Bool.and_eq_true_iff.mp hwf
    have h2 := Bool.and_eq_true_iff.mp h1.1
    have h3 := Bool.and_eq_true_iff.mp h2.1
    have hn255 : path.length ≤ 255 := of_decide_eq_true h3.1
    have hwfopts : wfOpts opts = true := h3.2
    have hnodup : nodupStrs (emittedNames opts) = true := h2.2
    have hwfsubs : wfSubs path.length subs = true := h1.2
    have hopts := blockOpts opts st hpend (by rw [hsp]; exact hn255) hwfopts hnodup
      (fun b hb => by rw [hsp]; exact hhead b hb)
    rw [hsp] at hopts
    rw [outLinesApp, List.foldl_append, hopts]
    obtain ⟨st2, hfold, hpend2, hfilt⟩ := ih2
      { st with outRev := (itemRecords path opts).reverse ++ st.outRev, pending := none }
      hwfsubs hpsafe rfl
    refine ⟨st2, hfold, hpend2, ?_⟩
    rw [hfilt]
    dsimp only
    rw [List.filter_append,
      List.filter_eq_self.mpr (fun r hr =>
        itemRecords_not_marker hwfopts r (List.mem_reverse.mp hr))]
    rw [treeRecords, List.reverse_append, List.append_assoc]
  · intro path st _ _ hpend
    refine ⟨st, ?_, hpend, ?_⟩
    · rw [outLinesSubs]
      rfl
    · rw [treeRecordsSubs]
      rfl
  · intro path sub rest ih1 ih2 st hwf hpsafe hpend
    rw [wfSubs] at hwf
    have h1 := Bool.and_eq_true_iff.mp hwf
    have h2 := Bool.and_eq_true_iff.mp h1.1
    have h3 := Bool.and_eq_true_iff.mp h2.1
    have h4 := Bool.and_eq_true_iff.mp h3.1
    have hsn : safeName sub.name = true := h4.1
    have hwfsub : wfApp (path.length + 1) sub = true := h2.2
    have hwfrest : wfSubs path.length rest = true := h1.2
    have hp'ne : path ++ [sub.name] ≠ [] := by
      intro hh
      rcases List.append_eq_nil.mp hh with ⟨_, hx⟩
      cases hx
    have hp'safe : ∀ x ∈ path ++ [sub.name], safeName x = true := by
      intro x hx
      rcases List.mem_append.mp hx with hx | hx
      · exact hpsafe x hx
      · rw [List.mem_singleton.mp hx]
        exact hsn
    have hlen' : (path ++ [sub.name]).length = path.length + 1 := by
      rw [List.length_append, List.length_cons, List.length_nil]
    rw [outLinesSubs, List.foldl_append, List.foldl_cons]
    rw [stepLine_header st (path ++ [sub.name]) hpend hp'ne hp'safe]
    obtain ⟨out2, idx, prev2, hstep, hfilterH, hheadH⟩ :=
      stepSection_header st (path ++ [sub.name]) hp'ne hp'safe
    rw [hstep]
    obtain ⟨stA, hfoldA, hpendA, hfiltA⟩ := ih1
      ⟨joinStrs (path ++ [sub.name]) (str "."), prev2, false, idx, out2, none⟩
      (by rw [hlen']; exact hwfsub) hp'safe rfl
      (secParents_join hp'ne hp'safe)
      (fun b hb => Or.inl (hheadH b hb))
    rw [hfoldA]
    obtain ⟨st2, hfold2, hpend2, hfilt2⟩ := ih2 stA hwfrest hpsafe hpendA
    refine ⟨st2, hfold2, hpend2, ?_⟩
    rw [hfilt2, hfiltA]
    dsimp only
    rw [hfilterH]
    rw [treeRecordsSubs, List.reverse_append, List.append_assoc]

theorem optLine_default_empty {o : COption} (hre : o.reduced_results = []) :
    optLine defaultCfg false false [] o = [] := by
  unfold optLine
  rw [hre]
  rfl

theorem optLine_default_emits {o : COption} (hre : o.reduced_results ≠ [])
    (hsafe : ∀ t ∈ o.reduced_results, safeTok t = true) :
    optLine defaultCfg false false [] o =
      (o.single_name ++ '=' :: iniValue o.reduced_results) ++ ['\n'] := by
  unfold optLine
  dsimp only
  rw [show defaultCfg.arraySeparator = ',' from rfl, show defaultCfg.arrayStart = '[' from rfl,
    show defaultCfg.arrayEnd = ']' from rfl, show defaultCfg.stringQuote = '"' from rfl,
    show defaultCfg.characterQuote = squote from rfl,
    show defaultCfg.valueDelimiter = '=' from rfl]
  rw [if_neg (show ¬((ini_join o.reduced_results ',' '[' ']' '"' squote).isEmpty = true ∧
      (false : Bool) = true) from fun hh => by cases hh.2)]
  rw [if_pos (show ¬(ini_join o.reduced_results ',' '[' ']' '"' squote).isEmpty = true from
    fun hh => iniValue_ne_nil hre hsafe (List.isEmpty_iff.mp hh))]
  rw [if_neg (show ¬((false : Bool) = true ∧ ¬o.descr.isEmpty = true) from
    fun hh => by cases hh.1)]
  rw [List.nil_append, List.nil_append, iniValue]
  simp only [List.append_assoc, List.singleton_append, List.cons_append, List.nil_append]

theorem emitGroup_lines {opts : List COption} (hwf : wfOpts opts = true) :
    emitGroup defaultCfg false false [] opts (str "Options") = joinNL (optLines opts) := by
  induction opts with
  | nil => rfl
  | cons o rest ih =>
    have hwf0 : _ ∧ _ :=
      Bool.and_eq_true_iff.mp (by rw [wfOpts, List.all_cons] at hwf; exact hwf)
    obtain ⟨hwfo, hwfrest⟩ := hwf0
    have hgroup : o.group = [] :=
      List.isEmpty_iff.mp (Bool.and_eq_true_iff.mp hwfo).1
    have hm : optMatchesGroup o (str "Options") = true := by
      rw [optMatchesGroup, hgroup]
      rfl
    rw [emitGroup, List.map_cons, List.flatten_cons]
    rw [show (List.map (fun o => if o.configurable && optMatchesGroup o (str "Options") then
        optLine defaultCfg false false [] o else []) rest).flatten =
      emitGroup defaultCfg false false [] rest (str "Options") from rfl]
    rw [ih hwfrest]
    rw [hm, Bool.and_true]
    have holines : optLines (o :: rest) =
        (if o.configurable && !o.reduced_results.isEmpty then
          [o.single_name ++ '=' :: iniValue o.reduced_results] else []) ++ optLines rest := by
      rw [optLines, optLines, List.flatMap_cons]
    rw [holines]
    cases hc : o.configurable with
    | false =>
      rw [if_neg Bool.false_ne_true]
      rw [if_neg (show ¬((false && !o.reduced_results.isEmpty) = true) from fun hh => by
        rw [Bool.false_and] at hh
        cases hh)]
      rw [List.nil_append, List.nil_append]
    | true =>
      rw [if_pos rfl]
      by_cases hre : o.reduced_results = []
      · rw [optLine_default_empty hre]
        rw [if_neg (show ¬((true && !o.reduced_results.isEmpty) = true) from fun hh => by
          rw [hre] at hh
          rw [Bool.true_and] at hh
          cases hh)]
        rw [List.nil_append, List.nil_append]
      · have hie : o.reduced_results.isEmpty = false := by
          cases hx : o.reduced_results.isEmpty
          · rfl
          · exact absurd (List.isEmpty_iff.mp hx) hre
        have hsafe : ∀ t ∈ o.reduced_results, safeTok t = true := by
          have h2 := (Bool.and_eq_true_iff.mp hwfo).2
          rw [hc, hie] at h2
          simp only [Bool.not_true, Bool.false_or] at h2
          exact fun t ht => List.all_eq_true.mp (Bool.and_eq_true_iff.mp h2).2 t ht
        rw [optLine_default_emits hre hsafe]
        rw [if_pos (show (true && !o.reduced_results.isEmpty) = true from by
          rw [hie]
          rfl)]
        rw [joinNL_append]
        rw [show joinNL [o.single_name ++ '=' :: iniValue o.reduced_results] =
          (o.single_name ++ '=' :: iniValue o.reduced_results) ++ ['\n'] from by
          rw [joinNL_cons, show joinNL ([] : List Str) = [] from rfl]]

theorem wfOpts_groups {opts : List COption} (hwf : wfOpts opts = true) :
    ∀ o ∈ opts, o.group = [] := fun o ho =>
  List.isEmpty_iff.mp (Bool.and_eq_true_iff.mp
    (List.all_eq_true.mp (by rw [wfOpts] at hwf; exact hwf) o ho)).1

theorem emitGroup_no_match {opts : List COption} {g : Str} (hg : ∀ o ∈ opts, o.group = [])
    (hcond : (g == str "Options" || g.isEmpty) = false) :
    emitGroup defaultCfg false false [] opts g = [] := by
  induction opts with
  | nil => rfl
  | cons o rest ih =>
    rw [emitGroup, List.map_cons, List.flatten_cons]
    rw [show (List.map (fun o => if o.configurable && optMatchesGroup o g then
        optLine defaultCfg false false [] o else []) rest).flatten =
      emitGroup defaultCfg false false [] rest g from rfl]
    have hob := Bool.or_eq_false_iff.mp hcond
    have hgb : (([] : Str) == g) = false := by
      cases g with
      | nil => exact absurd hob.2 (by intro hh; cases hh)
      | cons c t => rfl
    have hmm : optMatchesGroup o g = false := by
      rw [optMatchesGroup, hg o (List.mem_cons_self o rest), hgb, hob.1]
      rfl
    rw [hmm, Bool.and_false]
    rw [if_neg Bool.false_ne_true]
    rw [List.nil_append]
    exact ih (fun q hq => hg q (List.mem_cons_of_mem o hq))

theorem groupsFold_quiet {opts : List COption} {gs : List Str}
    (hg : ∀ o ∈ opts, o.group = []) :
    groupsFold defaultCfg false false [] opts gs true = [] := by
  induction gs with
  | nil => rfl
  | cons g rest ih =>
    rw [groupsFold]
    by_cases hcond : (g == str "Options" || g.isEmpty) = true
    · rw [if_pos hcond]
      rw [if_pos rfl]
      exact ih
    · rw [if_neg hcond]
      rw [if_neg Bool.false_ne_true]
      rw [List.nil_append]
      rw [emitGroup_no_match hg (Bool.not_eq_true _ ▸ hcond : _), ih, List.append_nil]

theorem groupsFold_main {opts : List COption} {gs : List Str} (hwf : wfOpts opts = true) :
    groupsFold defaultCfg false false [] opts (str "Options" :: gs) false =
      joinNL (optLines opts) := by
  rw [groupsFold]
  rw [if_pos (show (str "Options" == str "Options" || (str "Options").isEmpty) = true
    from rfl)]
  rw [if_neg Bool.false_ne_true]
  rw [emitGroup_lines hwf, groupsFold_quiet (wfOpts_groups hwf), List.append_nil]

/-- How the ancestor-name chain of the writer (`anc`, nearest first) encodes
the section path of the current command: empty at the root, and below the
root the reversed chain without the root name, ending in the current
command's name. -/
def ancRep (anc : List Str) (nm : Str) (path : List Str) : Prop :=
  (anc = [] ∧ path = []) ∨ (anc ≠ [] ∧ anc.dropLast.reverse ++ [nm] = path)

theorem ancRep_step {anc : List Str} {nm sname : Str} {path : List Str}
    (h : ancRep anc nm path) : ancRep (nm :: anc) sname (path ++ [sname]) := by
  rcases h with ⟨rfl, rfl⟩ | ⟨hne, heq⟩
  · exact Or.inr ⟨List.cons_ne_nil nm [], rfl⟩
  · refine Or.inr ⟨List.cons_ne_nil nm anc, ?_⟩
    obtain ⟨a, t, rfl⟩ := List.exists_cons_of_ne_nil hne
    rw [show ((nm :: a :: t).dropLast) = nm :: (a :: t).dropLast from rfl]
    rw [List.reverse_cons, heq]

theorem wfSubs_names {n : Nat} {subs : List CApp} (h : wfSubs n subs = true) :
    ∀ s ∈ subs, s.name ≠ [] := by
  induction subs with
  | nil => intro s hs; cases hs
  | cons s0 srest ih =>
    intro s hs
    rw [wfSubs] at h
    have g1 := Bool.and_eq_true_iff.mp h
    have g2 := Bool.and_eq_true_iff.mp g1.1
    have g3 := Bool.and_eq_true_iff.mp g2.1
    have g4 := Bool.and_eq_true_iff.mp g3.1
    rcases List.mem_cons.mp hs with rfl | hs2
    · exact (safeName_parts g4.1).1
    · exact ih g1.2 s hs2

theorem writerLines : ∀ (anc : List Str) (cfg : ConfigCfg) (app : CApp) (d w : Bool)
    (pfx : Str), cfg = defaultCfg → d = false → w = false → pfx = [] →
    ∀ path : List Str, wfApp path.length app = true → ancRep anc app.name path →
    iniToConfig anc cfg app d w pfx = joinNL (outLinesApp path app) := by
  refine iniToConfig.induct
    (fun anc cfg app d w pfx =>
      cfg = defaultCfg → d = false → w = false → pfx = [] →
      ∀ path : List Str, wfApp path.length app = true → ancRep anc app.name path →
      iniToConfig anc cfg app d w pfx = joinNL (outLinesApp path app))
    (fun anc nm anc2 cfg subs d w pfx =>
      cfg = defaultCfg → d = false → w = false → pfx = [] → anc2 = nm :: anc →
      ∀ path : List Str, wfSubs path.length subs = true → ancRep anc nm path →
      iniSubsNamed anc nm anc2 cfg subs d w pfx = joinNL (outLinesSubs path subs))
    (fun anc2 cfg subs d w pfx =>
      (∀ s ∈ subs, s.name ≠ []) →
      iniSubsUnnamed anc2 cfg subs d w pfx = [])
    ?_ ?_ ?_ ?_ ?_
  · intro anc cfg d w pfx n de grp groups opts subs cf iv ih3 ih2 hcfg hd hw hpfx path hwf
      hrep
    subst hcfg hd hw hpfx
    rw [wfApp] at hwf
    have h1 := Bool.and_eq_true_iff.mp hwf
    have h2 := Bool.and_eq_true_iff.mp h1.1
    have h3 := Bool.and_eq_true_iff.mp h2.1
    have hwfopts : wfOpts opts = true := h3.2
    have hwfsubs : wfSubs path.length subs = true := h1.2
    have hnames : ∀ s ∈ subs, s.name ≠ [] := wfSubs_names hwfsubs
    rw [iniToConfig]
    rw [if_neg (show ¬((false : Bool) = true ∧ (cf = true ∨ anc = [] ∨ n = [])) from
      fun hh => by cases hh.1)]
    rw [List.nil_append]
    rw [groupsFold_main hwfopts]
    rw [ih3 hnames, List.append_nil]
    rw [ih2 rfl rfl rfl rfl rfl path hwfsubs hrep]
    rw [outLinesApp, joinNL_append]
  · intro anc nm anc2 cfg d w pfx hcfg hd hw hpfx hanc2 path hwf hrep
    rw [iniSubsNamed, outLinesSubs]
    rfl
  · intro anc nm anc2 cfg d w pfx sub rest ih1a ih1b ihrest hcfg hd hw hpfx hanc2 path hwf
      hrep
    subst hcfg hd hw hpfx hanc2
    rw [wfSubs] at hwf
    have h1 := Bool.and_eq_true_iff.mp hwf
    have h2 := Bool.and_eq_true_iff.mp h1.1
    have h3 := Bool.and_eq_true_iff.mp h2.1
    have h4 := Bool.and_eq_true_iff.mp h3.1
    have hsn : safeName sub.name = true := h4.1
    have hcf : sub.configurable = true := h4.2
    have hiv : sub.invoked = true := h3.2
    have hwfsub : wfApp (path.length + 1) sub = true := h2.2
    have hwfrest : wfSubs path.length rest = true := h1.2
    have hlen' : (path ++ [sub.name]).length = path.length + 1 := by
      rw [List.length_append, List.length_cons, List.length_nil]
    have hsnne : sub.name ≠ [] := (safeName_parts hsn).1
    rw [iniSubsNamed]
    rw [if_pos (show ¬sub.name.isEmpty = true from
      fun hh => hsnne (List.isEmpty_iff.mp hh))]
    rw [if_pos ⟨hcf, hiv⟩]
    rw [ih1a rfl rfl rfl rfl (path ++ [sub.name])
      (by rw [hlen']; exact hwfsub) (ancRep_step hrep)]
    rw [ihrest rfl rfl rfl rfl rfl path hwfrest hrep]
    have hheader : (if ¬([] : Str).isEmpty ∨ anc = [] then
        '[' :: (([] : Str) ++ sub.name ++ str "]" ++ ['\n'])
       else
        '[' :: (joinStrs (anc.dropLast.reverse ++ [nm, sub.name])
          [defaultCfg.parentSeparatorChar] ++ str "]" ++ ['\n'])) =
        headerFor (path ++ [sub.name]) ++ ['\n'] := by
      rcases hrep with ⟨rfl, rfl⟩ | ⟨hne, heq⟩
      · rw [if_pos (Or.inr rfl)]
        rw [headerFor, List.nil_append, List.nil_append]
        rw [show joinStrs [sub.name] (str ".") = sub.name from rfl]
        rw [List.cons_append, List.append_assoc]
      · rw [if_neg (by
          rintro (hx | hx)
          · exact hx rfl
          · exact hne hx)]
        rw [headerFor]
        rw [show ([nm, sub.name] : List Str) = [nm] ++ [sub.name] from rfl]
        rw [← List.append_assoc, heq]
        rw [show [defaultCfg.parentSeparatorChar] = str "." from rfl]
        rw [List.cons_append, List.append_assoc]
    rw [hheader]
    rw [outLinesSubs, joinNL_append, joinNL_cons]
    simp only [List.append_assoc, List.singleton_append, List.cons_append, List.nil_append]
  · intro anc2 cfg d w pfx _
    rw [iniSubsUnnamed]
  · intro anc2 cfg d w pfx sub rest ih1 ihrest hnames
    rw [iniSubsUnnamed]
    rw [if_neg (show ¬sub.name.isEmpty = true from
      fun hh => hnames sub (List.mem_cons_self sub rest)
        (List.isEmpty_iff.mp hh))]
    rw [List.nil_append]
    exact ihrest (fun s hs => hnames s (List.mem_cons_of_mem sub hs))

theorem safeChar_ne_newline {c : Char} (h : safeChar c = true) : c ≠ '\n' := by
  intro hh
  have := (safeChar_facts h).1
  rw [hh] at this
  exact absurd this (by decide)

theorem header_no_newline {p : List Str} (hcomps : ∀ x ∈ p, safeName x = true) :
    ('\n' : Char) ∉ headerFor p := by
  intro hmem
  rw [headerFor] at hmem
  rcases List.mem_cons.mp hmem with hx | hx
  · cases hx
  · rcases List.mem_append.mp hx with h1 | h2
    · rcases mem_joinStrs h1 with ⟨q, hq, hcq⟩ | hs
      · exact safeChar_ne_newline ((safeName_parts (hcomps q hq)).2.1 '\n' hcq) rfl
      · exact absurd hs (by decide)
    · exact absurd h2 (by decide)

theorem optLines_no_newline {opts : List COption} (hwf : wfOpts opts = true) :
    ∀ l ∈ optLines opts, ('\n' : Char) ∉ l := by
  induction opts with
  | nil => intro l hl; cases hl
  | cons o rest ih =>
    intro l hl
    have hwf0 : _ ∧ _ :=
      Bool.and_eq_true_iff.mp (by rw [wfOpts, List.all_cons] at hwf; exact hwf)
    obtain ⟨hwfo, hwfrest⟩ := hwf0
    rw [optLines, List.flatMap_cons] at hl
    rcases List.mem_append.mp hl with h1 | h2
    · by_cases hemit : (o.configurable && !o.reduced_results.isEmpty) = true
      · rw [if_pos hemit] at h1
        rw [List.mem_singleton.mp h1]
        intro hmem
        have hcfg := (Bool.and_eq_true_iff.mp hemit).1
        have hrne : o.reduced_results ≠ [] := by
          intro hh
          have := (Bool.and_eq_true_iff.mp hemit).2
          rw [hh] at this
          cases this
        have hie : o.reduced_results.isEmpty = false := by
          cases hx : o.reduced_results.isEmpty
          · rfl
          · exact absurd (List.isEmpty_iff.mp hx) hrne
        have hg2 := (Bool.and_eq_true_iff.mp hwfo).2
        rw [hcfg, hie] at hg2
        simp only [Bool.not_true, Bool.false_or] at hg2
        have hn := (Bool.and_eq_true_iff.mp hg2).1
        have htoks := fun x hx =>
          List.all_eq_true.mp (Bool.and_eq_true_iff.mp hg2).2 x hx
        rcases List.mem_append.mp hmem with hm1 | hm2
        · exact safeChar_ne_newline ((safeName_parts hn).2.1 '\n' hm1) rfl
        · rcases List.mem_cons.mp hm2 with hm3 | hm4
          · cases hm3
          · exact newline_not_mem_iniValue htoks hm4
      · rw [if_neg hemit] at h1
        cases h1
    · exact ih hwfrest l h2

theorem outLines_no_newline : ∀ (path : List Str) (app : CApp),
    wfApp path.length app = true → (∀ x ∈ path, safeName x = true) →
    ∀ l ∈ outLinesApp path app, ('\n' : Char) ∉ l := by
  refine outLinesApp.induct
    (fun path app =>
      wfApp path.length app = true → (∀ x ∈ path, safeName x = true) →
      ∀ l ∈ outLinesApp path app, ('\n' : Char) ∉ l)
    (fun path subs =>
      wfSubs path.length subs = true → (∀ x ∈ path, safeName x = true) →
      ∀ l ∈ outLinesSubs path subs, ('\n' : Char) ∉ l)
    ?_ ?_ ?_
  · intro path n de gp gs opts subs cf iv ih2 hwf hpsafe l hl
    rw [wfApp] at hwf
    have h1 := Bool.and_eq_true_iff.mp hwf
    have h2 := Bool.and_eq_true_iff.mp h1.1
    have h3 := Bool.and_eq_true_iff.mp h2.1
    rw [outLinesApp] at hl
    rcases List.mem_append.mp hl with hx | hx
    · exact optLines_no_newline h3.2 l hx
    · exact ih2 h1.2 hpsafe l hx
  · intro path _ _ l hl
    rw [outLinesSubs] at hl
    cases hl
  · intro path sub rest ih1 ih2 hwf hpsafe l hl
    rw [wfSubs] at hwf
    have h1 := Bool.and_eq_true_iff.mp hwf
    have h2 := Bool.and_eq_true_iff.mp h1.1
    have h3 := Bool.and_eq_true_iff.mp h2.1
    have h4 := Bool.and_eq_true_iff.mp h3.1
    have hsn : safeName sub.name = true := h4.1
    have hp'safe : ∀ x ∈ path ++ [sub.name], safeName x = true := by
      intro x hx
      rcases List.mem_append.mp hx with hx | hx
      · exact hpsafe x hx
      · rw [List.mem_singleton.mp hx]
        exact hsn
    rw [outLinesSubs] at hl
    rcases List.mem_append.mp hl with hx | hx
    · rcases List.mem_cons.mp hx with rfl | hx2
      · exact header_no_newline hp'safe
      · refine ih1 ?_ hp'safe l hx2
        rw [List.length_append, List.length_cons, List.length_nil]
        exact h2.2
    · exact ih2 h1.2 hpsafe l hx

/-- C1 counterexample command: one configurable option whose single value
token contains a newline. -/
def c1BadApp : CApp :=
  .mk (str "app") [] [] [] [{ single_name := str "key", reduced_results := [str "a\nb"] }]
    [] true true

/-- C1 counterexample: for the root command with one option valued `a\nb`,
the writer emits the newline inside a quoted value, the reader splits the
stream at that newline, and the re-parsed records do not reproduce the
original mapping: the record holds the truncated token `"a` (with a dangling
quote) and the `b"` remainder line is dropped by the minimum-length filter —
refuting the claim for arbitrary option tree states. -/
theorem C1_counterexample_newline_token :
    (from_config defaultCfg (iniToConfig [] defaultCfg c1BadApp false false [])).filter
      (fun r => !isMarker r) ≠ treeRecords [] c1BadApp := by
  rw [c1BadApp, iniToConfig, iniSubsUnnamed, iniSubsNamed, treeRecords, treeRecordsSubs]
  decide

/-- C1 (amended): for every well-formed option tree — names of options and
subcommands made of word characters and not reserved, every value token free
of newlines, carriage returns, comment characters, single quotes and
backslashes, not itself double-quote-wrapped, bare-written doubles without
leading whitespace, options in the default group with distinct emitted
names, every subcommand named, configurable and invoked, and nesting within
the default depth bound — serializing with `ConfigBase::to_config` (defaults
and descriptions off, empty prefix) and re-parsing with
`ConfigBase::from_config` yields exactly the original (parent-chain, name) →
ordered-input-token mapping on the non-marker records: the records equal the
tree's option items in writer preorder. -/
theorem C1_round_trip_wellformed (app : CApp) (hwf : wfApp 0 app = true) :
    (from_config defaultCfg (iniToConfig [] defaultCfg app false false [])).filter
      (fun r => !isMarker r) = treeRecords [] app := by
  have hw := writerLines [] defaultCfg app false false [] rfl rfl rfl rfl []
    hwf (Or.inl ⟨rfl, rfl⟩)
  rw [from_config, hw]
  rw [splitLines_joinNL (outLines_no_newline [] app hwf (fun x hx => by cases hx))]
  obtain ⟨st2, hfold, hpend2, hfilt⟩ := blockApp [] app {} hwf
    (fun x hx => by cases hx) rfl (by decide) (fun b hb => Option.noConfusion hb)
  unfold fromLines
  dsimp only
  rw [hfold, hpend2]
  dsimp only
  rw [List.filter_reverse]
  by_cases hcs : st2.currentSection ≠ str "default"
  · rw [if_pos hcs]
    rw [filter_app_markers (whileClose_close_marker rfl)]
    rw [hfilt]
    rw [show (({} : ParseState).outRev).filter (fun r => !isMarker r) = [] from rfl]
    rw [List.append_nil, List.reverse_reverse]
  · rw [if_neg hcs]
    rw [hfilt]
    rw [show (({} : ParseState).outRev).filter (fun r => !isMarker r) = [] from rfl]
    rw [List.append_nil, List.reverse_reverse]

/-- The root option of the C1 witness tree: two value tokens, one with an
embedded space. -/
def c1TopOpt : COption :=
  { single_name := str "topkey", reduced_results := [str "alpha", str "be ta"] }

/-- The subcommand option of the C1 witness tree. -/
def c1SubOpt : COption :=
  { single_name := str "inner", reduced_results := [str "42"] }

/-- The C1 witness tree itself. -/
def c1App : CApp :=
  .mk (str "root") [] [] [] [c1TopOpt]
    [.mk (str "sub") [] [] [] [c1SubOpt] [] true true]
    true true

theorem C1_round_trip_witness :
    wfApp 0 c1App = true ∧
    (from_config defaultCfg (iniToConfig [] defaultCfg c1App false false [])).filter
      (fun r => !isMarker r) = treeRecords [] c1App := by
  have hwf : wfApp 0 c1App = true := by
    simp only [c1App, wfApp, wfSubs]
    decide
  exact ⟨hwf, C1_round_trip_wellformed c1App hwf⟩
